import Mathlib

/-!
# Captain: quad-bitboard position and `makeMove`

A shallow embedding of `src/Captain/board.cpp`: the `QBB` class with its FEN
constructor, the piece query, `makeMove`, `doNullMove` and `flipQBB`.

Machine words are natural numbers; every operation that can leave the word
size is followed by an explicit `% 2 ^ 64` (or `% 2 ^ 32`).  The x86
intrinsics the source calls are modelled after their documented semantics.
-/

namespace Captain

/-! ## Machine words and intrinsics -/

/-- A `Bitboard` is an unsigned 64-bit word; bit `i` is square `i = rank * 8 + file`. -/
abbrev Bitboard := Nat

/-- A `Move` is an unsigned integer: from-square, to-square and move-type tag. -/
abbrev Move := Nat

/-- Bitwise complement of a 64-bit word (`~x` on `std::uint64_t`). -/
def not64 (x : Nat) : Nat := (x % 2 ^ 64) ^^^ (2 ^ 64 - 1)

/-- The intrinsic `_byteswap_uint64`: the eight bytes of the word in reverse order. -/
def byteswap_uint64 (x : Nat) : Nat :=
  ((x &&& 0xFF) <<< 56) ||| (((x >>> 8) &&& 0xFF) <<< 48) |||
  (((x >>> 16) &&& 0xFF) <<< 40) ||| (((x >>> 24) &&& 0xFF) <<< 32) |||
  (((x >>> 32) &&& 0xFF) <<< 24) ||| (((x >>> 40) &&& 0xFF) <<< 16) |||
  (((x >>> 48) &&& 0xFF) <<< 8) ||| ((x >>> 56) &&& 0xFF)

/-- The intrinsic `_bextr_u64 (src, start, len)`: `len` bits of `src` from bit `start` on. -/
def bextr_u64 (src start len : Nat) : Nat :=
  ((src % 2 ^ 64) >>> (start % 256)) % 2 ^ (len % 256) % 2 ^ 64

/-- Software `pext` over the lowest `n` bits: walk the mask from the low end and, for
each set bit of the mask, append the bit of `a` at that place to the output. -/
def pextAux : Nat → Nat → Nat → Nat
  | 0, _, _ => 0
  | n + 1, a, mask =>
    if mask % 2 = 1 then a % 2 + 2 * pextAux n (a / 2) (mask / 2)
    else pextAux n (a / 2) (mask / 2)

/-- The intrinsic `_pext_u32`. -/
def pext_u32 (a mask : Nat) : Nat := pextAux 32 a mask

/-- The intrinsic `_pext_u64`. -/
def pext_u64 (a mask : Nat) : Nat := pextAux 64 a mask

/-- A 256-bit vector register seen as four 64-bit lanes, lane 0 being the lowest. -/
structure M256 where
  l0 : Nat
  l1 : Nat
  l2 : Nat
  l3 : Nat
deriving DecidableEq, Repr

/-- The intrinsic `_mm256_set_epi64x (e3, e2, e1, e0)`: `e0` goes to the lowest lane. -/
def mm256_set_epi64x (e3 e2 e1 e0 : Nat) : M256 :=
  ⟨e0 % 2 ^ 64, e1 % 2 ^ 64, e2 % 2 ^ 64, e3 % 2 ^ 64⟩

/-- The intrinsic `_mm_cvtsi32_si128`: the low 64 bits of the result hold the
zero-extended 32-bit argument, which is all `_mm256_sll_epi64` reads. -/
def mm_cvtsi32_si128 (a : Nat) : Nat := a % 2 ^ 32

/-- The intrinsic `_mm256_sll_epi64`: every lane shifted left by the same count, zero
when the count exceeds 63. -/
def mm256_sll_epi64 (a : M256) (count : Nat) : M256 :=
  if count > 63 then ⟨0, 0, 0, 0⟩
  else ⟨(a.l0 <<< count) % 2 ^ 64, (a.l1 <<< count) % 2 ^ 64,
        (a.l2 <<< count) % 2 ^ 64, (a.l3 <<< count) % 2 ^ 64⟩

/-- The most significant bits of the eight bytes of one 64-bit lane, byte 0 first. -/
def laneSigns (x : Nat) : Nat :=
  ((x >>> 7) &&& 1) ||| (((x >>> 15) &&& 1) <<< 1) ||| (((x >>> 23) &&& 1) <<< 2) |||
  (((x >>> 31) &&& 1) <<< 3) ||| (((x >>> 39) &&& 1) <<< 4) ||| (((x >>> 47) &&& 1) <<< 5) |||
  (((x >>> 55) &&& 1) <<< 6) ||| (((x >>> 63) &&& 1) <<< 7)

/-- The intrinsic `_mm256_movemask_epi8`: bit `8 * lane + j` of the 32-bit result is
the most significant bit of byte `j` of that lane. -/
def mm256_movemask_epi8 (a : M256) : Nat :=
  laneSigns a.l0 ||| (laneSigns a.l1 <<< 8) ||| (laneSigns a.l2 <<< 16) |||
  (laneSigns a.l3 <<< 24)

/-! ## Squares (`board.hpp`, `auxiliary.hpp`) -/

/-- Modelled from the spec: `aux::setbit (i)` of the absent `auxiliary.hpp`, "`1 << i`" on a
64-bit word. -/
def setbit (i : Nat) : Bitboard := (1 <<< i) % 2 ^ 64

/-- Modelled from the spec: `aux::index (rank, file)` of the absent `auxiliary.hpp`,
"`i = rank*8 + file`". -/
def index (rank file : Nat) : Nat := rank * 8 + file

/-- Modelled from the spec: `aux::file (sq)` of the absent `auxiliary.hpp`, the file of
square `i = rank*8 + file`. -/
def file (sq : Nat) : Nat := sq % 8

/-- Modelled from the spec: `aux::rank (sq)` of the absent `auxiliary.hpp`, the rank of
square `i = rank*8 + file`. -/
def rank (sq : Nat) : Nat := sq / 8

/-- Modelled from the spec: `aux::rankMask (sq)` of the absent `auxiliary.hpp`, the eight
squares of the rank of `sq` (one byte of the word). -/
def rankMask (sq : Nat) : Bitboard := (0xFF <<< (8 * rank sq)) % 2 ^ 64

/-- Modelled from the spec: `aux::flip (sq)` of the absent `auxiliary.hpp`, the square
seen from the other side ("rank 0 ↔ rank 7"). -/
def flip (sq : Nat) : Nat := sq ^^^ 56

/-- Modelled from the spec: the square names of the absent `board.hpp` enum `square`,
`a1 = 0` up to `h8 = 63`. -/
def a1 : Nat := 0
/-- Modelled from the spec: square name of the absent `board.hpp`. -/
def c1 : Nat := 2
/-- Modelled from the spec: square name of the absent `board.hpp`. -/
def d1 : Nat := 3
/-- Modelled from the spec: square name of the absent `board.hpp`. -/
def e1 : Nat := 4
/-- Modelled from the spec: square name of the absent `board.hpp`. -/
def f1 : Nat := 5
/-- Modelled from the spec: square name of the absent `board.hpp`. -/
def g1 : Nat := 6
/-- Modelled from the spec: square name of the absent `board.hpp`. -/
def h1 : Nat := 7
/-- Modelled from the spec: square name of the absent `board.hpp`. -/
def a6 : Nat := 40
/-- Modelled from the spec: square name of the absent `board.hpp`. -/
def a8 : Nat := 56
/-- Modelled from the spec: square name of the absent `board.hpp`. -/
def e8 : Nat := 60
/-- Modelled from the spec: square name of the absent `board.hpp`. -/
def h8 : Nat := 63

/-! ## The position -/

/-- The quad-bitboard `board::QBB`: four occupancy words and the auxiliary word. -/
structure QBB where
  side : Bitboard
  pbq : Bitboard
  nbk : Bitboard
  rqk : Bitboard
  epc : Bitboard
deriving DecidableEq, Repr

namespace QBB

/-- Every word of the position is a 64-bit word. -/
def WF (q : QBB) : Prop :=
  q.side < 2 ^ 64 ∧ q.pbq < 2 ^ 64 ∧ q.nbk < 2 ^ 64 ∧ q.rqk < 2 ^ 64 ∧ q.epc < 2 ^ 64

instance (q : QBB) : Decidable q.WF := by unfold WF; infer_instance

/-- The member `QBB::getPieceType`: the vector-shift, movemask and `pext` realization. -/
def getPieceType (q : QBB) (s : Nat) : Nat :=
  let qbb := mm256_set_epi64x q.rqk q.nbk q.pbq q.side
  let shift := mm_cvtsi32_si128 (s ^^^ 63)
  let qbb := mm256_sll_epi64 qbb shift
  let qbbsigns := mm256_movemask_epi8 qbb % 2 ^ 32
  pext_u32 qbbsigns 0x80808080

/-- The member `QBB::getPieceCode`. -/
def getPieceCode (q : QBB) (s : Nat) : Nat := q.getPieceType s >>> 1

/-- The member `QBB::isMyPiece`. -/
def isMyPiece (q : QBB) (s : Nat) : Bool := decide (q.getPieceType s &&& 1 ≠ 0)

/-- The member `QBB::flipQBB`. -/
def flipQBB (q : QBB) : QBB :=
  { side := byteswap_uint64 q.side
    pbq := byteswap_uint64 q.pbq
    nbk := byteswap_uint64 q.nbk
    rqk := byteswap_uint64 q.rqk
    epc := byteswap_uint64 q.epc }

end QBB

/-! ## Moves (`board.hpp`, `constants.hpp`) -/

/-- Modelled from the spec: `constants::fromMask` of the absent `constants.hpp`, bits 0–5 of
a move hold the from-square. -/
def fromMask : Nat := 0x3F

/-- Modelled from the spec: `constants::toMask` of the absent `constants.hpp`, bits 6–11 of
a move hold the to-square. -/
def toMask : Nat := 0xFC0

/-- Modelled from the spec: `constants::moveTypeMask` of the absent `constants.hpp`, bits
12–15 of a move hold the move-type tag. -/
def moveTypeMask : Nat := 0xF000

/-- Modelled from the spec: `constants::toMaskOffset` of the absent `constants.hpp`. -/
def toMaskOffset : Nat := 6

/-- Modelled from the spec: `constants::moveTypeOffset` of the absent `constants.hpp`. -/
def moveTypeOffset : Nat := 12

/-- The bit offset of the field a mask selects. -/
def maskOffset (mask : Nat) : Nat :=
  if mask = fromMask then 0 else if mask = toMask then toMaskOffset else moveTypeOffset

/-- Modelled from the spec: `board::getMoveInfo<mask>` of the absent `board.hpp`, the field
of the move under `mask`, moved down to bit 0. -/
def getMoveInfo (mask : Nat) (m : Move) : Nat := (m &&& mask) >>> maskOffset mask

/-- A move built from its three fields (`from | to << 6 | type << 12`), as
`uci::uciMove2boardMove` assembles it. -/
def mkMove (fromSq toSq moveType : Nat) : Move :=
  fromSq ||| (toSq <<< toMaskOffset) ||| (moveType <<< moveTypeOffset)

/-- A 64-bit left shift. The count is reduced modulo 64 as the x86 shift instruction
does; in `makeMove` the count is below 64 whenever the from-square is occupied. -/
def shl64 (x count : Nat) : Nat := ((x % 2 ^ 64) <<< (count % 64)) % 2 ^ 64

/-- The table `promoUpdateRules` of `makeMove`. -/
def promoUpdateRules : List Nat :=
  [0, 0, 0, 0, 0x00010100, 0x00010000, 0x01000100, 0x01000000]

/-- The constant `castleUpdate` of `makeMove`. -/
def castleUpdate : Nat := 0x0000000000A00900

/-- The constant `enPUpdate` of `makeMove`. -/
def enPUpdate : Nat := 0x0000000001000000

/-- The constant `counter50` of `makeMove`. -/
def counter50 : Nat := 0x7f7f000000

/-- The constant `rank6` of `makeMove`. -/
def rank6 : Nat := 0x0000FF0000000000

/-- The constant `rank3` of `makeMove`. -/
def rank3 : Nat := 0x0000000000FF0000

namespace QBB

/-- The member `QBB::makeMove`. The table `promoUpdateRules` has eight entries; a tag
above 7 reads past its end in the source and reads 0 here. -/
def makeMove (q : QBB) (m : Move) : QBB :=
  let fromSq := getMoveInfo fromMask m
  let toSq := getMoveInfo toMask m
  let fromBB := setbit fromSq
  let toBB := setbit toSq
  let fromPcType := q.getPieceType fromSq >>> 1
  let toPcType := q.getPieceType toSq >>> 1
  -- 50 move rule counter and color flip
  let add1 := (0x101000000 + (q.epc &&& counter50)) % 2 ^ 64
  let add1 := (add1 * ((1 >>> toPcType) % 2 ^ 32)) % 2 ^ 64
  let add1 := (add1 * ((1 + 2 ^ 32 - (2 >>> fromPcType) % 2 ^ 32) % 2 ^ 32)) % 2 ^ 64
  let epc := (add1 + (q.epc &&& not64 counter50)) % 2 ^ 64
  let epc := epc ^^^ 0x8080000000
  let side := q.side &&& not64 fromBB
  let side := side ||| toBB
  let pbq := q.pbq &&& not64 toBB
  let pbq := pbq ||| (toBB * ((fromBB &&& pbq) >>> fromSq)) % 2 ^ 64
  let pbq := pbq ^^^ (fromBB &&& pbq)
  let nbk := q.nbk &&& not64 toBB
  let nbk := nbk ||| (toBB * ((fromBB &&& nbk) >>> fromSq)) % 2 ^ 64
  let nbk := nbk ^^^ (fromBB &&& nbk)
  let rqk := q.rqk &&& not64 toBB
  let rqk := rqk ||| (toBB * ((fromBB &&& rqk) >>> fromSq)) % 2 ^ 64
  let rqk := rqk ^^^ (fromBB &&& rqk)
  let epc := epc &&& not64 (fromBB &&& (rankMask a1 ||| rankMask a8))
  let epc := epc &&& not64 (toBB &&& (rankMask a1 ||| rankMask a8))
  let epc := epc &&& not64 rank6
  let enPassant :=
    shl64 (rank3 &&& shl64 fromBB 8 &&& (toBB >>> 8))
      ((8 * ((fromPcType + 2 ^ 32 - 1) % 2 ^ 32)) % 2 ^ 32)
  let epc := epc ||| (enPassant &&& rank3)
  let moveType := getMoveInfo moveTypeMask m
  let promoUpdate := (promoUpdateRules.getD moveType 0 <<< file toSq) % 2 ^ 32
  let rqk := rqk ^^^ shl64 (bextr_u64 promoUpdate 24 8) 56
  let nbk := nbk ^^^ shl64 (bextr_u64 promoUpdate 16 8) 56
  let pbq := pbq ^^^ shl64 (bextr_u64 promoUpdate 8 8) 56
  let rqk := rqk ^^^ bextr_u64 castleUpdate (moveType * 8) 8
  let side := side ^^^ bextr_u64 castleUpdate (moveType * 8) 8
  let pbq := pbq ^^^ shl64 (bextr_u64 enPUpdate (moveType * 8) 8) (file toSq + 32)
  let side := not64 side &&& (pbq ||| nbk ||| rqk)
  flipQBB { side := side, pbq := pbq, nbk := nbk, rqk := rqk, epc := epc }

/-- The member `QBB::doNullMove`. -/
def doNullMove (q : QBB) : QBB :=
  let side := not64 q.side &&& (q.pbq ||| q.nbk ||| q.rqk)
  let epc := q.epc &&& not64 (rankMask a6)
  let epc := epc ^^^ 0x8080000000
  flipQBB { q with side := side, epc := epc }

end QBB

/-! ## The FEN constructor -/

/-- Modelled from the spec: the piece enumerators of the absent `board.hpp`; `other`
stands for the value 50 that `makeSquare` returns for any other character. -/
inductive PieceKind where
  | pawns | knights | bishops | rooks | queens | king | other
deriving DecidableEq, Repr

/-- The function `board::makeSquare`: the colour (upper case is white) and the kind of a
piece letter. -/
def makeSquare (i : Char) : Bool × PieceKind :=
  let w := decide ('A' ≤ i ∧ i ≤ 'Z')
  if i = 'K' ∨ i = 'k' then (w, PieceKind.king)
  else if i = 'Q' ∨ i = 'q' then (w, PieceKind.queens)
  else if i = 'R' ∨ i = 'r' then (w, PieceKind.rooks)
  else if i = 'B' ∨ i = 'b' then (w, PieceKind.bishops)
  else if i = 'N' ∨ i = 'n' then (w, PieceKind.knights)
  else if i = 'P' ∨ i = 'p' then (w, PieceKind.pawns)
  else (w, PieceKind.other)

/-- One `std::getline` loop of `board::splitString`: `acc` holds the characters of the
word being read, last one first. At the end of the input a word is produced only if
some character was read for it. -/
def splitAux (d : Char) : List Char → List Char → List (List Char)
  | [], acc => if acc.isEmpty then [] else [acc.reverse]
  | c :: cs, acc =>
    if c = d then acc.reverse :: splitAux d cs [] else splitAux d cs (c :: acc)

/-- The function `board::splitString`. -/
def splitString (s : List Char) (d : Char) : List (List Char) := splitAux d s []

/-- Modelled from the spec: `aux::isPiece` of the absent `auxiliary.hpp`, "letters `KQRBNP`
are white pieces, lowercase are black". -/
def isPiece (c : Char) : Bool := "KQRBNPkqrbnp".toList.contains c

/-- Modelled from the spec: `aux::isNumber` of the absent `auxiliary.hpp`, a decimal digit
("digits compress empty files"). -/
def isNumber (c : Char) : Bool := decide ('0' ≤ c ∧ c ≤ '9')

/-- Modelled from the spec: `aux::incFile` of the absent `auxiliary.hpp`. The constructor
never resets `currFile` between rank fields, so advancing past the eighth file wraps
around to the first. -/
def incFile (file inc : Nat) : Nat := (file + inc) % 8

/-- Modelled from the spec: `aux::fileNumber` of the absent `auxiliary.hpp`, file 0 = a
(for the letters a to h). -/
def fileNumber (c : Char) : Nat := c.toNat - 'a'.toNat

/-- The decimal digits at the head of a list of characters, with the rest. -/
def takeDigits : List Char → Nat → Nat → Nat × Nat
  | [], acc, n => (acc, n)
  | c :: cs, acc, n =>
    if '0' ≤ c ∧ c ≤ '9' then takeDigits cs (acc * 10 + (c.toNat - '0'.toNat)) (n + 1)
    else (acc, n)

/-- The library function `std::stoi`: leading white space, an optional sign and decimal
digits; `none` where it throws (no digit, or a value that does not fit an `int`). -/
def stoi (s : List Char) : Option Int :=
  let s := s.dropWhile (fun c => c = ' ' ∨ ('\t' ≤ c ∧ c ≤ '\r'))
  let (neg, s) :=
    match s with
    | '-' :: r => (true, r)
    | '+' :: r => (false, r)
    | r => (false, r)
  let (v, n) := takeDigits s 0 0
  if n = 0 then none
  else
    let i : Int := if neg then - (v : Int) else (v : Int)
    if - (2 : Int) ^ 31 ≤ i ∧ i < (2 : Int) ^ 31 then some i else none

/-- The words being filled by the placement loop of the constructor, with `currFile`. -/
structure Placement where
  side : Bitboard
  pbq : Bitboard
  nbk : Bitboard
  rqk : Bitboard
  currFile : Nat
deriving DecidableEq, Repr

/-- The body of the inner loop of the constructor for the character `j` of rank field `i`. -/
def placeChar (wToMove : Bool) (i : Nat) (p : Placement) (j : Char) : Placement :=
  if isPiece j then
    let (color, pieceType) := makeSquare j
    let b := setbit (index (7 - i) p.currFile)
    let p :=
      match pieceType with
      | PieceKind.pawns => { p with pbq := p.pbq ||| b }
      | PieceKind.knights => { p with nbk := p.nbk ||| b }
      | PieceKind.bishops => { p with pbq := p.pbq ||| b, nbk := p.nbk ||| b }
      | PieceKind.rooks => { p with rqk := p.rqk ||| b }
      | PieceKind.queens => { p with pbq := p.pbq ||| b, rqk := p.rqk ||| b }
      | PieceKind.king => { p with rqk := p.rqk ||| b, nbk := p.nbk ||| b }
      | PieceKind.other => p
    let p := if wToMove = color then { p with side := p.side ||| b } else p
    { p with currFile := incFile p.currFile 1 }
  else if isNumber j then
    { p with currFile := incFile p.currFile (j.toNat - '0'.toNat) }
  else p

/-- The castling loop of the constructor: the bits one character of the field adds. -/
def castlingChar (epc : Bitboard) (i : Char) : Bitboard :=
  let epc := if i = 'K' then epc ||| (setbit e1 ||| setbit h1) else epc
  let epc := if i = 'k' then epc ||| (setbit e8 ||| setbit h8) else epc
  let epc := if i = 'q' then epc ||| (setbit e8 ||| setbit a8) else epc
  let epc := if i = 'Q' then epc ||| (setbit e1 ||| setbit a1) else epc
  epc

namespace QBB

/-- The constructor `QBB::QBB (fen, moveNumInfo)`, all five words starting at 0. The
result is `none` where the source reads a vector element that does not exist or
`std::stoi` throws. A character of the en-passant field past its end reads as NUL, and
a rank character below the digit 1 gives rank 0 (the source computes a negative rank
there and shifts by it). -/
def ofFen (fen : String) (moveNumInfo : Bool) : Option QBB := do
  let splitfen := splitString fen.toList ' '
  let placement ← splitfen[0]?
  let splitboard := splitString placement '/'
  let active ← splitfen[1]?
  let wToMove := decide (active = ['w'])
  let ranks ← (List.range 8).mapM (fun i => splitboard[i]?)
  let p : Placement :=
    (List.range 8).foldl
      (fun p i => (ranks.getD i []).foldl (placeChar wToMove i) p) ⟨0, 0, 0, 0, 0⟩
  let castling ← splitfen[2]?
  let epc := castling.foldl castlingChar 0
  let enp ← splitfen[3]?
  let epc :=
    if enp ≠ ['-'] then
      let file := fileNumber (enp.getD 0 '\x00')
      let rank := (enp.getD 1 '\x00').toNat - '0'.toNat - 1
      epc ||| setbit (index rank file)
    else epc
  let epc := if active = ['w'] then epc ||| 0x8080000000 else epc
  let q : QBB := { side := p.side, pbq := p.pbq, nbk := p.nbk, rqk := p.rqk, epc := epc }
  let q := if wToMove then q else q.flipQBB
  if moveNumInfo then
    let clock ← splitfen[4]?
    let n ← stoi clock
    let halfMoves := shl64 (n % 2 ^ 64).toNat 24
    let halfMoves := halfMoves ||| shl64 halfMoves 8
    pure { q with epc := (q.epc + halfMoves) % 2 ^ 64 }
  else pure q

end QBB

/-! ## Names for the parts of `makeMove` -/

/-- The word `makeMove` XORs into `rqk` and `side` for a move-type tag:
`_bextr_u64 (castleUpdate, moveType * 8, 8)`. -/
def castleMask (moveType : Nat) : Nat := bextr_u64 castleUpdate (moveType * 8) 8

/-- The word `makeMove` XORs into `pbq` for a move-type tag and the file of the
to-square: `_bextr_u64 (enPUpdate, moveType * 8, 8) << (file + 32)`. -/
def enpMask (moveType toFile : Nat) : Nat :=
  shl64 (bextr_u64 enPUpdate (moveType * 8) 8) (toFile + 32)

/-- The word `makeMove` XORs into `pbq` (`start = 8`), `nbk` (`start = 16`) or `rqk`
(`start = 24`) for a move-type tag and the file of the to-square:
`_bextr_u64 (promoUpdateRules[moveType] << file, start, 8) << 56`. -/
def promoMask (moveType toFile start : Nat) : Nat :=
  shl64 (bextr_u64 ((promoUpdateRules.getD moveType 0 <<< toFile) % 2 ^ 32) start 8) 56

/-- The bit at square `s` of an occupancy word after the three statements that move
the piece on `fromSq` to `toSq`. -/
def relocBit (x fromSq toSq s : Nat) : Bool :=
  if s = fromSq then false else if s = toSq then x.testBit fromSq else x.testBit s

/-- The three statements of `makeMove` that move the piece on `fromSq` to `toSq` in one
occupancy word: clear the to-square, copy the from-bit there, clear the from-square. -/
def relocate (x fromSq toSq : Nat) : Nat :=
  let w := x &&& not64 (setbit toSq)
  let w := w ||| (setbit toSq * ((setbit fromSq &&& w) >>> fromSq)) % 2 ^ 64
  w ^^^ (setbit fromSq &&& w)

/-- The first block of `makeMove`: the halfmove clock stepped (or zeroed by a capture or
a pawn move) and the side-to-move sentinel toggled. -/
def clockStep (epc toPcType fromPcType : Nat) : Nat :=
  let add1 := (0x101000000 + (epc &&& counter50)) % 2 ^ 64
  let add1 := (add1 * ((1 >>> toPcType) % 2 ^ 32)) % 2 ^ 64
  let add1 := (add1 * ((1 + 2 ^ 32 - (2 >>> fromPcType) % 2 ^ 32) % 2 ^ 32)) % 2 ^ 64
  let epc := (add1 + (epc &&& not64 counter50)) % 2 ^ 64
  epc ^^^ 0x8080000000

/-- The word `enPassant` of `makeMove`. -/
def enPassantWord (fromSq toSq fromPcType : Nat) : Nat :=
  shl64 (rank3 &&& shl64 (setbit fromSq) 8 &&& (setbit toSq >>> 8))
    ((8 * ((fromPcType + 2 ^ 32 - 1) % 2 ^ 32)) % 2 ^ 32)

/-- The auxiliary word of `makeMove` before the final byte swap. -/
def epcStep (epc fromSq toSq toPcType fromPcType : Nat) : Nat :=
  (((clockStep epc toPcType fromPcType
      &&& not64 (setbit fromSq &&& (rankMask a1 ||| rankMask a8)))
      &&& not64 (setbit toSq &&& (rankMask a1 ||| rankMask a8)))
      &&& not64 rank6) ||| (enPassantWord fromSq toSq fromPcType &&& rank3)

/-- The piece kind `getPieceCode` reports for a piece the constructor has placed: the
constructor sets `pbq` for a pawn (1), `nbk` for a knight (2), both for a bishop (3),
`rqk` for a rook (4), `pbq` and `rqk` for a queen (5), `nbk` and `rqk` for the king (6);
`eval.cpp` reads its value tables in this order (`PNBRQK`, index `code - 1`). -/
def pieceCode : PieceKind → Nat
  | PieceKind.pawns => 1
  | PieceKind.knights => 2
  | PieceKind.bishops => 3
  | PieceKind.rooks => 4
  | PieceKind.queens => 5
  | PieceKind.king => 6
  | PieceKind.other => 0

/-- The identity `getPieceType` reports for a piece of the side to move. -/
def myPiece (k : PieceKind) : Nat := 2 * pieceCode k + 1

/-- The identity `getPieceType` reports for a piece of the opponent. -/
def theirPiece (k : PieceKind) : Nat := 2 * pieceCode k

/-- The halfmove clock slot in bits 24–30 of the auxiliary word. -/
def clockLo (epc : Nat) : Nat := (epc >>> 24) &&& 0x7F

/-- The halfmove clock slot in bits 32–38 of the auxiliary word. -/
def clockHi (epc : Nat) : Nat := (epc >>> 32) &&& 0x7F

/-- Byte `k` of a word (byte 0 is the least significant one, the squares of rank index `k`). -/
def byteAt (x k : Nat) : Nat := (x >>> (8 * k)) &&& 0xFF

/-- The castling bits of the auxiliary word: its bytes 0 and 7. -/
def castlingBits (epc : Nat) : Nat := epc &&& 0xFF000000000000FF

/-- The squares a move names: its from- and to-square, the rook squares of a castle tag
(a1 and d1 for tag 1, f1 and h1 for tag 2), the rank-index-4 square on the to-file of the
en-passant tag 3, and the rank-index-7 square on the to-file of a promotion tag 4–7. -/
def moveTouches (m : Move) (s : Nat) : Prop :=
  s = getMoveInfo fromMask m ∨ s = getMoveInfo toMask m ∨
  (getMoveInfo moveTypeMask m = 1 ∧ (s = a1 ∨ s = d1)) ∨
  (getMoveInfo moveTypeMask m = 2 ∧ (s = f1 ∨ s = h1)) ∨
  (getMoveInfo moveTypeMask m = 3 ∧ s = index 4 (file (getMoveInfo toMask m))) ∨
  (4 ≤ getMoveInfo moveTypeMask m ∧ s = index 7 (file (getMoveInfo toMask m)))

instance (m : Move) (s : Nat) : Decidable (moveTouches m s) := by
  unfold moveTouches; infer_instance

/-! ## Positions of the end-to-end scenarios -/

/-- The words of `rnbqkbnr/pppppppp/8/8/8/8/PPPPPPPP/RNBQKBNR w KQkq - 0 1`. -/
def startPos : QBB :=
  ⟨0xFFFF, 0x2CFF00000000FF2C, 0x7600000000000076, 0x9900000000000099, 0x9100008080000091⟩

/-- The words of `r3k2r/8/8/8/8/8/8/R3K2R w KQkq - 0 1`. -/
def castlePos : QBB :=
  ⟨0x91, 0, 0x1000000000000010, 0x9100000000000091, 0x9100008080000091⟩

/-- The words of `8/8/8/pP6/8/8/8/k6K w - a6 0 1`. -/
def enPassantPos : QBB :=
  ⟨0x200000080, 0x300000000, 0x81, 0x81, 0x18080000000⟩

/-- The words of `8/P6k/8/8/8/8/8/7K w - - 0 1`. -/
def promoPos : QBB :=
  ⟨0x1000000000080, 0x1000000000000, 0x80000000000080, 0x80000000000080, 0x8080000000⟩

/-! ## Reading the FEN constructor -/

/-- The files a rank field describes, left to right: a piece letter describes one file
holding that piece, a digit that many empty files; the constructor skips any other
character. -/
def expandRank : List Char → List (Option Char)
  | [] => []
  | c :: cs =>
    if isPiece c then some c :: expandRank cs
    else if isNumber c then List.replicate (c.toNat - '0'.toNat) none ++ expandRank cs
    else expandRank cs

/-- Whether the placement switch of the constructor sets `pbq` for a piece kind. -/
def pbqOf : PieceKind → Bool
  | PieceKind.pawns => true
  | PieceKind.bishops => true
  | PieceKind.queens => true
  | _ => false

/-- Whether the placement switch of the constructor sets `nbk` for a piece kind. -/
def nbkOf : PieceKind → Bool
  | PieceKind.knights => true
  | PieceKind.bishops => true
  | PieceKind.king => true
  | _ => false

/-- Whether the placement switch of the constructor sets `rqk` for a piece kind. -/
def rqkOf : PieceKind → Bool
  | PieceKind.rooks => true
  | PieceKind.queens => true
  | PieceKind.king => true
  | _ => false

/-- Whether a letter stands in a cell of an expanded rank field and passes a test. -/
def cellHas (pred : Char → Bool) : Option (Option Char) → Bool
  | some (some ch) => pred ch
  | _ => false

/-- Whether, in a list of cells laid out from column `c0` on, a letter passing a test
stands at column `col`. -/
def rowBit (pred : Char → Bool) : List (Option Char) → Nat → Nat → Bool
  | [], _, _ => false
  | o :: rest, c0, col =>
    (decide (col = c0) && cellHas pred (some o)) || rowBit pred rest (c0 + 1) col

/-- The placement loop of the constructor over its eight rank fields. -/
def fenPlacement (wToMove : Bool) (ranks : List (List Char)) : Placement :=
  (List.range 8).foldl
    (fun p i => (ranks.getD i []).foldl (placeChar wToMove i) p) ⟨0, 0, 0, 0, 0⟩

/-- The auxiliary word of the constructor before the flip: castling field, en-passant
field and sentinel. -/
def fenEpc (active castling enp : List Char) : Bitboard :=
  let epc := castling.foldl castlingChar 0
  let epc :=
    if enp ≠ ['-'] then
      let file := fileNumber (enp.getD 0 '\x00')
      let rank := (enp.getD 1 '\x00').toNat - '0'.toNat - 1
      epc ||| setbit (index rank file)
    else epc
  if active = ['w'] then epc ||| 0x8080000000 else epc

/-- The position of the constructor after its flip, before the halfmove clock is added. -/
def fenBoard (active : List Char) (ranks : List (List Char)) (castling enp : List Char) : QBB :=
  let p := fenPlacement (decide (active = ['w'])) ranks
  let q : QBB :=
    { side := p.side, pbq := p.pbq, nbk := p.nbk, rqk := p.rqk,
      epc := fenEpc active castling enp }
  if decide (active = ['w']) then q else q.flipQBB

/-- The last block of the constructor: the halfmove field added into both clock slots. -/
def fenClock (q : QBB) (n : Int) : QBB :=
  let halfMoves := shl64 (n % 2 ^ 64).toNat 24
  let halfMoves := halfMoves ||| shl64 halfMoves 8
  { q with epc := (q.epc + halfMoves) % 2 ^ 64 }

/-- Whether, on the board row that rank field `i` fills, a letter passing a test stands
on square `s`, the cells being laid out from column `c0` on. -/
def rowAt (pred : Char → Bool) (i : Nat) (cells : List (Option Char)) (c0 s : Nat) : Bool :=
  decide (s < 64) && decide (s / 8 = 7 - i) && rowBit pred cells c0 (s % 8)

/-- The identity `getPieceType` is to report on the square of a cell of an expanded rank
field: for a letter its piece kind with the side bit set iff the letter's colour (upper
case is white) is the colour to move, and 0 for a cell without a letter. -/
def cellType (wToMove : Bool) : Option (Option Char) → Nat
  | some (some ch) =>
    (decide (wToMove = (makeSquare ch).1)).toNat + 2 * pieceCode (makeSquare ch).2
  | _ => 0

/-- The position `makeMove` holds once the move is applied, before its last two
statements (the recomputation of `side` and the flip). -/
def QBB.applied (q : QBB) (m : Move) : QBB :=
  { side :=
      ((q.side &&& not64 (setbit (getMoveInfo fromMask m))) |||
        setbit (getMoveInfo toMask m)) ^^^ castleMask (getMoveInfo moveTypeMask m)
    pbq :=
      relocate q.pbq (getMoveInfo fromMask m) (getMoveInfo toMask m) ^^^
        promoMask (getMoveInfo moveTypeMask m) (file (getMoveInfo toMask m)) 8 ^^^
        enpMask (getMoveInfo moveTypeMask m) (file (getMoveInfo toMask m))
    nbk :=
      relocate q.nbk (getMoveInfo fromMask m) (getMoveInfo toMask m) ^^^
        promoMask (getMoveInfo moveTypeMask m) (file (getMoveInfo toMask m)) 16
    rqk :=
      relocate q.rqk (getMoveInfo fromMask m) (getMoveInfo toMask m) ^^^
        promoMask (getMoveInfo moveTypeMask m) (file (getMoveInfo toMask m)) 24 ^^^
        castleMask (getMoveInfo moveTypeMask m)
    epc :=
      epcStep q.epc (getMoveInfo fromMask m) (getMoveInfo toMask m)
        (q.getPieceType (getMoveInfo toMask m) >>> 1)
        (q.getPieceType (getMoveInfo fromMask m) >>> 1) }

/-- The squares one character of the castling field names: K ↦ {e1, h1}, Q ↦ {e1, a1},
k ↦ {e8, h8}, q ↦ {e8, a8}, any other character none. -/
def castlingSquares (c : Char) : Bitboard :=
  if c = 'K' then setbit e1 ||| setbit h1
  else if c = 'Q' then setbit e1 ||| setbit a1
  else if c = 'k' then setbit e8 ||| setbit h8
  else if c = 'q' then setbit e8 ||| setbit a8
  else 0

/-- The union of the squares the characters of a castling field name. -/
def castlingUnion (castling : List Char) : Bitboard :=
  (castling.map castlingSquares).foldl (· ||| ·) 0

/-- The square the constructor computes from an en-passant field that is not `-`. -/
def epSquare (enp : List Char) : Nat :=
  index ((enp.getD 1 '\x00').toNat - '0'.toNat - 1) (fileNumber (enp.getD 0 '\x00'))

/-- An en-passant field as FEN has it: `-`, or a square of rank index 2 or 5 (the third
or the sixth rank). -/
def EpField (enp : List Char) : Prop :=
  enp = ['-'] ∨ (16 ≤ epSquare enp ∧ epSquare enp < 24) ∨
    (40 ≤ epSquare enp ∧ epSquare enp < 48)

instance (enp : List Char) : Decidable (EpField enp) := by
  unfold EpField
  infer_instance

/-- A sequence of `makeMove` calls, first move first. -/
def makeMoves (q : QBB) (ms : List Move) : QBB := ms.foldl QBB.makeMove q

/-- Every move of a sequence finds a piece on its from-square in the position it is
applied to. -/
def fromOccupied : QBB → List Move → Prop
  | _, [] => True
  | q, m :: ms =>
    q.getPieceCode (getMoveInfo fromMask m) ≠ 0 ∧ fromOccupied (q.makeMove m) ms

/-- The words of `rnbqkbnr/pppppppp/8/8/8/8/PPPPPPPP/RNBQKBNR w KQkq - 100 1`: the start
position with the halfmove clock at 100. -/
def startPos100 : QBB :=
  ⟨0xFFFF, 0x2CFF00000000FF2C, 0x7600000000000076, 0x9900000000000099, 0x910000E4E4000091⟩

/-- A move of the shape the move generator produces for a position: a tag from 0 to 7, an
own piece on the from-square, no own piece on the to-square, a promotion tag (4–7) only
for a pawn reaching rank index 7, a castle tag only for the king on e1 with the own rook
on the corner the tag's table entry empties (a1 for tag 1, h1 for tag 2) and an empty
rook destination (d1 for tag 1, f1 for tag 2), and the en-passant tag 3 only for a pawn
capturing a pawn of the opponent on rank index 4 of the to-file. -/
def MovegenShaped (q : QBB) (m : Move) : Prop :=
  getMoveInfo moveTypeMask m ≤ 7 ∧
  (q.isMyPiece (getMoveInfo fromMask m) = true ∧ q.getPieceCode (getMoveInfo fromMask m) ≠ 0) ∧
  ¬ (q.isMyPiece (getMoveInfo toMask m) = true ∧ q.getPieceCode (getMoveInfo toMask m) ≠ 0) ∧
  (4 ≤ getMoveInfo moveTypeMask m →
    q.getPieceCode (getMoveInfo fromMask m) = pieceCode PieceKind.pawns ∧
      rank (getMoveInfo toMask m) = 7) ∧
  (getMoveInfo moveTypeMask m = 1 →
    getMoveInfo fromMask m = e1 ∧ q.getPieceType e1 = myPiece PieceKind.king ∧
      q.getPieceType a1 = myPiece PieceKind.rooks ∧ q.getPieceType d1 = 0) ∧
  (getMoveInfo moveTypeMask m = 2 →
    getMoveInfo fromMask m = e1 ∧ q.getPieceType e1 = myPiece PieceKind.king ∧
      q.getPieceType h1 = myPiece PieceKind.rooks ∧ q.getPieceType f1 = 0) ∧
  (getMoveInfo moveTypeMask m = 3 →
    q.getPieceCode (getMoveInfo fromMask m) = pieceCode PieceKind.pawns ∧
      q.getPieceType (index 4 (file (getMoveInfo toMask m))) = theirPiece PieceKind.pawns)

instance (q : QBB) (m : Move) : Decidable (MovegenShaped q m) := by
  unfold MovegenShaped
  infer_instance

/-- Every move of a sequence has the move generator's shape in the position it is applied
to. -/
def shapedPath : QBB → List Move → Prop
  | _, [] => True
  | q, m :: ms => MovegenShaped q m ∧ shapedPath (q.makeMove m) ms

/-- The identity `getPieceType` reports on square `s` after a move of the move
generator's shape, read off the statements of `makeMove` (`s` is the square before the
flip, `fromT` the identity of the moving piece, `old` the identity on `s` before the
move): the from-square is emptied; the to-square takes the moving piece, replaced by the
promotion piece for a tag 4–7; the castle tags empty the rook corner and put a rook on the
rook destination; the en-passant tag empties the rank-index-4 square of the to-file;
every other square keeps its piece. An occupied square changes its side bit. -/
def movedType (fromSq toSq tag s fromT old : Nat) : Nat :=
  if s = fromSq then 0
  else if s = toSq then
    if 4 ≤ tag then 2 * (tag - 2)
    else if (tag = 1 ∧ toSq = d1) ∨ (tag = 2 ∧ toSq = f1) then 5
    else if tag = 3 ∧ toSq = index 4 (file toSq) then 0
    else 2 * (fromT / 2)
  else if (tag = 1 ∧ s = a1) ∨ (tag = 2 ∧ s = h1) then 0
  else if (tag = 1 ∧ s = d1) ∨ (tag = 2 ∧ s = f1) then 8
  else if tag = 3 ∧ s = index 4 (file toSq) then 0
  else if old / 2 = 0 then 0
  else 2 * (old / 2) + (1 - old % 2)

/-- Modelled from the spec: `popcount` of a 64-bit word, the number of its set bits. -/
def popcnt64 (x : Nat) : Nat := ((List.range 64).filter (fun i => x.testBit i)).length

/-- The words of `4k3/8/8/8/8/8/8/R2NK2R w KQ - 0 1`: the own king on e1 with own rooks on
both corners, an own knight on d1, and the other king on e8. -/
def knightPos : QBB :=
  ⟨0x99, 0, 0x1000000000000018, 0x1000000000000091, 0x8080000091⟩

/-! ## UCI move strings (`uci.cpp`, `divide.cpp`) -/

/-- Modelled from the spec: `QBB::isWhiteToPlay` of the absent `board.hpp`, the side to
move "derived from sentinel": the constructor sets the sentinel bits of `epc` (bit 31 and
bit 39) exactly when white is active and every ply toggles both; bit 31 is the one read
here. -/
def QBB.isWhiteToPlay (q : QBB) : Bool := q.epc.testBit 31

/-- Modelled from the spec: `QBB::getEp` of the absent `board.hpp`, the en-passant byte of
`epc` (rank index 5), the word `QBB::getEnpFile` reads. -/
def QBB.getEp (q : QBB) : Bitboard := q.epc &&& rankMask a6

/-- The number of trailing zero bits among the lowest `n` bits of a word. -/
def tzcntAux : Nat → Nat → Nat
  | 0, _ => 0
  | n + 1, x => if x % 2 = 1 then 0 else 1 + tzcntAux n (x / 2)

/-- The intrinsic `_tzcnt_u64`: the index of the lowest set bit, and 64 for the word 0. -/
def tzcnt_u64 (x : Nat) : Nat := tzcntAux 64 x

/-- Modelled from the spec: `constants::myPawn` of the absent `constants.hpp`, the identity
`getPieceType` reports for a pawn of the side to move. -/
def myPawn : Nat := myPiece PieceKind.pawns

/-- Modelled from the spec: `constants::myKing` of the absent `constants.hpp`, the identity
`getPieceType` reports for the king of the side to move (with the king's code as the
constructor stores it, `nbk` and `rqk`). -/
def myKing : Nat := myPiece PieceKind.king

/-- Modelled from the spec: `constants::enPCap` of the absent `constants.hpp`, tag 3
"en-passant capture". -/
def enPCap : Nat := 3

/-- Modelled from the spec: `constants::KSCastle` of the absent `constants.hpp`, tag 1
"kingside castle". -/
def KSCastle : Nat := 1

/-- Modelled from the spec: `constants::QSCastle` of the absent `constants.hpp`, tag 2
"queenside castle". -/
def QSCastle : Nat := 2

/-- Modelled from the spec: `board::char2pieceType` of the absent `board.hpp`, the piece
kind a letter names, as `makeSquare` assigns it. -/
def char2pieceType (c : Char) : PieceKind := (makeSquare c).2

/-- Modelled from the spec: `board::getPromoType` of the absent `board.hpp`, the move-type
tag that promotes to a piece kind ("4 promote to knight, 5 bishop, 6 rook, 7 queen"); no
tag for any other kind. -/
def getPromoType : PieceKind → Nat
  | PieceKind.knights => 4
  | PieceKind.bishops => 5
  | PieceKind.rooks => 6
  | PieceKind.queens => 7
  | _ => 0

/-- Modelled from the spec: `board::getPromoPiece` of the absent `board.hpp`, the piece kind
a promotion tag names; `other` for a tag that is no promotion. -/
def getPromoPiece (m : Move) : PieceKind :=
  match getMoveInfo moveTypeMask m with
  | 4 => PieceKind.knights
  | 5 => PieceKind.bishops
  | 6 => PieceKind.rooks
  | 7 => PieceKind.queens
  | _ => PieceKind.other

/-- Modelled from the spec: `aux::file2char` of the absent `auxiliary.hpp`, the lower-case
letter of a file ("file 0 = a"). -/
def file2char (f : Nat) : Char := Char.ofNat ('a'.toNat + f)

/-- The rank index `uciMove2boardMove` computes from a rank character: `c - '0' - 1` when
white is to play and `7 - (c - '0' - 1)` otherwise, an `int` converted to `unsigned`. -/
def uciRank (white : Bool) (c : Char) : Nat :=
  let r : Int := (c.toNat : Int) - ('0'.toNat : Int) - 1
  ((if white then r else 7 - r) % 2 ^ 32).toNat

/-- The function `uci::uciMove2boardMove`. A character past the end of the string reads
as NUL. The result is not cut to the width of `Move`; for characters that name squares it
is below `2 ^ 16`. -/
def uciMove2boardMove (b : QBB) (uciMove : String) : Move :=
  let fromFile := fileNumber (uciMove.toList.getD 0 '\x00')
  let fromRank := uciRank b.isWhiteToPlay (uciMove.toList.getD 1 '\x00')
  let toFile := fileNumber (uciMove.toList.getD 2 '\x00')
  let toRank := uciRank b.isWhiteToPlay (uciMove.toList.getD 3 '\x00')
  let m := index fromRank fromFile
  let m := m ||| (index toRank toFile <<< toMaskOffset)
  let fromSq := index fromRank fromFile
  let toSq := index toRank toFile
  let piecetype := b.getPieceType fromSq
  if piecetype = myPawn then
    if tzcnt_u64 b.getEp = toSq then m ||| (enPCap <<< moveTypeOffset)
    else if toRank = 7 ∧ uciMove.toList.length = 5 then
      m ||| (getPromoType (char2pieceType (uciMove.toList.getD 4 '\x00')) <<< moveTypeOffset)
    else m
  else if piecetype = myKing then
    if fromSq = e1 ∧ toSq = g1 then m ||| (KSCastle <<< moveTypeOffset)
    else if fromSq = e1 ∧ toSq = c1 then m ||| (QSCastle <<< moveTypeOffset)
    else m
  else m

/-- The function `divide::prettyPrintMove`; the two rank numbers are written in decimal. -/
def prettyPrintMove (m : Move) : String :=
  let fromSq := getMoveInfo fromMask m
  let toSq := getMoveInfo toMask m
  let p : List Char :=
    [file2char (file fromSq)] ++ Nat.toDigits 10 (rank fromSq + 1) ++
      [file2char (file toSq)] ++ Nat.toDigits 10 (rank toSq + 1)
  match getPromoPiece m with
  | PieceKind.queens => String.mk (p ++ ['Q'])
  | PieceKind.rooks => String.mk (p ++ ['R'])
  | PieceKind.bishops => String.mk (p ++ ['B'])
  | PieceKind.knights => String.mk (p ++ ['N'])
  | _ => String.mk p

/-- The square `uciMove2boardMove` computes from a file and a rank character:
`aux::index (rank, file)` in the frame of the side to move. -/
def uciSquare (white : Bool) (fileChar rankChar : Char) : Nat :=
  index (uciRank white rankChar) (fileNumber fileChar)

/-- The move-type tag `uciMove2boardMove` ORs into its result, 0 where it ORs nothing. -/
def uciTag (b : QBB) (uciMove : String) : Nat :=
  let fromSq :=
    uciSquare b.isWhiteToPlay (uciMove.toList.getD 0 '\x00') (uciMove.toList.getD 1 '\x00')
  let toSq :=
    uciSquare b.isWhiteToPlay (uciMove.toList.getD 2 '\x00') (uciMove.toList.getD 3 '\x00')
  if b.getPieceType fromSq = myPawn then
    if tzcnt_u64 b.getEp = toSq then enPCap
    else if uciRank b.isWhiteToPlay (uciMove.toList.getD 3 '\x00') = 7 ∧
        uciMove.toList.length = 5 then
      getPromoType (char2pieceType (uciMove.toList.getD 4 '\x00'))
    else 0
  else if b.getPieceType fromSq = myKing then
    if fromSq = e1 ∧ toSq = g1 then KSCastle
    else if fromSq = e1 ∧ toSq = c1 then QSCastle
    else 0
  else 0

/-- The digit of the mirrored rank: for the digit of rank `R` the digit of `9 − R`. -/
def mirrorRank (c : Char) : Char := Char.ofNat ('9'.toNat + '0'.toNat - c.toNat)

/-- The letter `prettyPrintMove` appends for a move-type tag: the upper-case letter of the
promotion piece for the tags 4–7, nothing for any other tag. -/
def promoLetter (tag : Nat) : List Char :=
  match tag with
  | 4 => ['N']
  | 5 => ['B']
  | 6 => ['R']
  | 7 => ['Q']
  | _ => []

/-! ## Castling-rights diff (`board.cpp`) -/

/-- Modelled from the spec: `QBB::getCastling` of the absent `board.hpp`, the castling
bits of `epc`: the byte of rank index 0 and the byte of rank index 7. -/
def QBB.getCastling (q : QBB) : Bitboard := castlingBits q.epc

/-- The function `getCastlingDiff` of `board.cpp`. -/
def getCastlingDiff (b1 b2 : QBB) : Bitboard :=
  let b1castling := b1.getCastling
  let b16 := pext_u64 b1castling 0x9100000000000091
  let b2castling := byteswap_uint64 b2.getCastling
  let b26 := pext_u64 b2castling 0x9100000000000091
  let b16king := b16 &&& 18
  let b26king := b26 &&& 18
  let b16 := (b16 &&& (b16king >>> 1)) ||| (b16 &&& ((b16king <<< 1) % 2 ^ 64))
  let b26 := (b26 &&& (b26king >>> 1)) ||| (b26 &&& ((b26king <<< 1) % 2 ^ 64))
  let b14 := pext_u64 b16 45
  let b24 := pext_u64 b26 45
  b14 ^^^ b24

/-- The 4-bit number of castling rights a word of castling bits stands for: bit 0 is a1
and e1, bit 1 is h1 and e1, bit 2 is a8 and e8, bit 3 is h8 and e8 (a corner counts only
while the king bit of the same rank is set). -/
def castlingRights (c : Nat) : Nat :=
  (c.testBit a1 && c.testBit e1).toNat + 2 * (c.testBit h1 && c.testBit e1).toNat +
    4 * (c.testBit a8 && c.testBit e8).toNat + 8 * (c.testBit h8 && c.testBit e8).toNat

/-! ## Evaluation helpers (`eval.cpp`) -/

/-- Modelled from the spec: `QBB::getKnights` of the absent `board.hpp`, the squares of
the knights: `nbk` is "knights, bishops, kings", `pbq` holds the bishops and `rqk` the
kings, so the knights are the squares of `nbk` alone. -/
def QBB.getKnights (q : QBB) : Bitboard := not64 q.pbq &&& q.nbk &&& not64 q.rqk

/-- Modelled from the spec: `QBB::getBishops` of the absent `board.hpp`, the squares in
both `pbq` ("pawns, bishops, queens") and `nbk` ("knights, bishops, kings"). -/
def QBB.getBishops (q : QBB) : Bitboard := q.pbq &&& q.nbk

/-- Modelled from the spec: `QBB::getRooks` of the absent `board.hpp`, the squares of
`rqk` ("rooks, queens, kings") alone. -/
def QBB.getRooks (q : QBB) : Bitboard := not64 q.pbq &&& not64 q.nbk &&& q.rqk

/-- Modelled from the spec: `QBB::getQueens` of the absent `board.hpp`, the squares in
both `pbq` ("pawns, bishops, queens") and `rqk` ("rooks, queens, kings"). -/
def QBB.getQueens (q : QBB) : Bitboard := q.pbq &&& q.rqk

/-- The member `Evaluator::isEndgame` of `eval.cpp`: each piece value is multiplied by a
64-bit word of squares, the sum is taken in 64-bit unsigned arithmetic and compared with
1900. -/
def Evaluator.isEndgame (b : QBB) : Bool :=
  let materialValue := (900 * (b.getQueens &&& not64 b.side)) % 2 ^ 64
  let materialValue := (materialValue + (500 * (b.getRooks &&& not64 b.side)) % 2 ^ 64) % 2 ^ 64
  let materialValue :=
    (materialValue + (300 * (b.getBishops &&& not64 b.side)) % 2 ^ 64) % 2 ^ 64
  let materialValue :=
    (materialValue + (300 * (b.getKnights &&& not64 b.side)) % 2 ^ 64) % 2 ^ 64
  decide (materialValue < 1900)

/-- The material of the opponent as a count of pieces: 900 for each queen, 500 for each
rook, 300 for each bishop and 300 for each knight among the pieces not in `side`. -/
def opponentMaterial (b : QBB) : Nat :=
  900 * popcnt64 (b.getQueens &&& not64 b.side) +
    500 * popcnt64 (b.getRooks &&& not64 b.side) +
    300 * popcnt64 (b.getBishops &&& not64 b.side) +
    300 * popcnt64 (b.getKnights &&& not64 b.side)

/-- The words of `1n2k3/8/8/8/8/8/8/4K3 w - - 0 1`: the two kings and one knight of the
opponent on b8. -/
def loneKnightPos : QBB :=
  ⟨0x10, 0, 0x1200000000000010, 0x1000000000000010, 0x8080000000⟩

/-- Modelled from the spec: `board::getMoveFromSq` of the absent `board.hpp`, the
from-square field of a move. -/
def getMoveFromSq (m : Move) : Nat := getMoveInfo fromMask m

/-- Modelled from the spec: `board::getMoveToSq` of the absent `board.hpp`, the to-square
field of a move. -/
def getMoveToSq (m : Move) : Nat := getMoveInfo toMask m

/-- The table `values` of `getCaptureValue` and `mvvlva` (`PNBRQK`). -/
def captureValues : List Int := [100, 300, 300, 500, 900, 10000]

/-- The index `(b.getPieceType(s) >> 1) - 1` of `getCaptureValue` and `mvvlva`, an
unsigned 32-bit subtraction. -/
def valueIndex (b : QBB) (s : Nat) : Nat := ((b.getPieceType s >>> 1) + 2 ^ 32 - 1) % 2 ^ 32

/-- The function `getCaptureValue` of `eval.cpp`; `none` stands for a read outside the
six-entry table. -/
def getCaptureValue (b : QBB) (m : Move) : Option Int :=
  if getMoveInfo moveTypeMask m = enPCap then some 100
  else captureValues[valueIndex b (getMoveToSq m)]?

/-- The function `mvvlva` of `eval.cpp`; `none` stands for a read outside the six-entry
table. The values and their differences fit the type `Eval` of the absent `eval.hpp`. -/
def mvvlva (b : QBB) (m : Move) : Option Int :=
  let fromSq := getMoveFromSq m
  let toSq := getMoveToSq m
  if getMoveInfo moveTypeMask m = enPCap then some 0
  else
    match captureValues[valueIndex b toSq]?, captureValues[valueIndex b fromSq]? with
    | some v, some a => some (v - a)
    | _, _ => none

/-- The value of a piece kind in the words of the value table's comment: 100 for a pawn,
300 for a knight, 300 for a bishop, 500 for a rook, 900 for a queen, 10000 for the king. -/
def pieceValue : PieceKind → Int
  | PieceKind.pawns => 100
  | PieceKind.knights => 300
  | PieceKind.bishops => 300
  | PieceKind.rooks => 500
  | PieceKind.queens => 900
  | PieceKind.king => 10000
  | PieceKind.other => 0

/-- The words of `4k3/8/8/8/8/8/P7/4K3 w - - 0 1`: the two kings and an own pawn on a2,
with a1 empty. -/
def backPawnPos : QBB :=
  ⟨0x110, 0x100, 0x1000000000000010, 0x1000000000000010, 0x8080000000⟩

/-- The four-shifts reference of the piece identity: one shift and test per word,
`side_bit + 2 * pbq_bit + 4 * nbk_bit + 8 * rqk_bit`. -/
def getPieceTypeRef (side pbq nbk rqk : Nat) (s : Nat) : Nat :=
  ((side >>> s) &&& 1) + 2 * ((pbq >>> s) &&& 1) + 4 * ((nbk >>> s) &&& 1) +
    8 * ((rqk >>> s) &&& 1)

/-! ## Bit-level lemmas -/

theorem xor63 (s : Nat) (hs : s < 64) : s ^^^ 63 = 63 - s := by
  revert s; decide

theorem pext_signs (x : Nat) :
    pext_u32 x 0x80808080 =
      (x / 2 ^ 7 % 2) + 2 * (x / 2 ^ 15 % 2) + 4 * (x / 2 ^ 23 % 2) + 8 * (x / 2 ^ 31 % 2) := by
  simp [pext_u32, pextAux, Nat.div_div_eq_div_mul]
  omega


theorem testBit_one (j : Nat) : Nat.testBit 1 j = decide (j = 0) := by
  cases j with
  | zero => rfl
  | succ n => simp [Nat.testBit_succ]

theorem testBit_sign (x k m j : Nat) :
    ((((x >>> k) &&& 1) <<< m).testBit j) = (decide (j = m) && x.testBit k) := by
  simp only [Nat.testBit_shiftLeft, Nat.testBit_and, Nat.testBit_shiftRight, testBit_one]
  by_cases h : j = m
  · subst h; simp
  · by_cases h2 : j ≥ m
    · have h3 : j - m ≠ 0 := by omega
      simp [h, h2, h3]
    · simp [h, h2]

theorem testBit_sign0 (x k j : Nat) :
    (((x >>> k) &&& 1).testBit j) = (decide (j = 0) && x.testBit k) := by
  have h := testBit_sign x k 0 j
  simpa using h

theorem laneSigns_testBit (x j : Nat) :
    (laneSigns x).testBit j =
      ((decide (j = 0) && x.testBit 7) || (decide (j = 1) && x.testBit 15) ||
       (decide (j = 2) && x.testBit 23) || (decide (j = 3) && x.testBit 31) ||
       (decide (j = 4) && x.testBit 39) || (decide (j = 5) && x.testBit 47) ||
       (decide (j = 6) && x.testBit 55) || (decide (j = 7) && x.testBit 63)) := by
  simp only [laneSigns, Nat.testBit_or, testBit_sign, testBit_sign0]

theorem movemask_bits (a : M256) :
    (mm256_movemask_epi8 a % 2 ^ 32).testBit 7 = a.l0.testBit 63 ∧
    (mm256_movemask_epi8 a % 2 ^ 32).testBit 15 = a.l1.testBit 63 ∧
    (mm256_movemask_epi8 a % 2 ^ 32).testBit 23 = a.l2.testBit 63 ∧
    (mm256_movemask_epi8 a % 2 ^ 32).testBit 31 = a.l3.testBit 63 := by
  simp only [Nat.testBit_mod_two_pow, mm256_movemask_epi8, Nat.testBit_or,
    Nat.testBit_shiftLeft, laneSigns_testBit]
  simp

theorem lane_top (w s : Nat) (hs : s < 64) :
    (((w % 2 ^ 64) <<< (63 - s)) % 2 ^ 64).testBit 63 = w.testBit s := by
  have h : 63 - (63 - s) = s := by omega
  simp only [Nat.testBit_mod_two_pow, Nat.testBit_shiftLeft, h]
  simp [hs]

theorem getPieceType_bits (q : QBB) (s : Nat) (hs : s < 64) :
    q.getPieceType s =
      (q.side.testBit s).toNat + 2 * (q.pbq.testBit s).toNat +
        4 * (q.nbk.testBit s).toNat + 8 * (q.rqk.testBit s).toNat := by
  have hc : (s ^^^ 63) % 2 ^ 32 = 63 - s := by
    rw [xor63 s hs]; omega
  have hle : ¬ (63 - s > 63) := by omega
  obtain ⟨h0, h1, h2, h3⟩ := movemask_bits
    (mm256_sll_epi64 (mm256_set_epi64x q.rqk q.nbk q.pbq q.side) (63 - s))
  simp only [mm256_sll_epi64, hle, if_false, mm256_set_epi64x, lane_top _ _ hs] at h0 h1 h2 h3
  simp only [QBB.getPieceType, mm_cvtsi32_si128, hc, pext_signs, ← Nat.toNat_testBit]
  simp only [mm256_sll_epi64, hle, if_false, mm256_set_epi64x, h0, h1, h2, h3]

theorem testBit_setbit (s i : Nat) :
    (setbit s).testBit i = (decide (i < 64) && decide (s = i)) := by
  simp only [setbit, Nat.testBit_mod_two_pow, Nat.testBit_shiftLeft, testBit_one]
  by_cases h1 : i < 64 <;> by_cases h2 : s = i
  · subst h2; simp [h1]
  · by_cases h3 : i ≥ s
    · have h4 : i - s ≠ 0 := by omega
      simp [h1, h2, h3, h4]
    · simp [h1, h2, h3]
  · simp [h1]
  · simp [h1]

theorem testBit_not64 (x i : Nat) :
    (not64 x).testBit i = (decide (i < 64) && !x.testBit i) := by
  simp only [not64, Nat.testBit_xor, Nat.testBit_mod_two_pow, Nat.testBit_two_pow_sub_one]
  by_cases h1 : i < 64 <;> simp [h1]

theorem flip_lt (s : Nat) (hs : s < 64) : flip s < 64 := by
  revert s; unfold flip; decide

theorem flip_flip (s : Nat) (hs : s < 64) : flip (flip s) = s := by
  revert s; unfold flip; decide

theorem testBit_byte (x k m j : Nat) :
    ((((x >>> k) &&& 0xFF) <<< m).testBit j) =
      (decide (m ≤ j) && decide (j < m + 8) && x.testBit (k + (j - m))) := by
  have h255 : (0xFF : Nat) = 2 ^ 8 - 1 := by norm_num
  rw [h255]
  simp only [Nat.testBit_shiftLeft, Nat.testBit_and, Nat.testBit_shiftRight,
    Nat.testBit_two_pow_sub_one]
  by_cases h1 : m ≤ j <;> by_cases h2 : j < m + 8
  · have h3 : j - m < 8 := by omega
    simp [h1, h2, h3, Bool.and_comm]
  · have h3 : ¬ (j - m < 8) := by omega
    simp [h1, h2, h3]
  · simp [h1]
  · simp [h1]

theorem testBit_byteswap (x s : Nat) (hs : s < 64) :
    (byteswap_uint64 x).testBit (flip s) = x.testBit s := by
  have e0 : x &&& 0xFF = ((x >>> 0) &&& 0xFF) := by simp
  have e7 : (x >>> 56) &&& 0xFF = (((x >>> 56) &&& 0xFF) <<< 0) := by simp
  unfold byteswap_uint64
  rw [e7]
  nth_rewrite 1 [e0]
  simp only [Nat.testBit_or, testBit_byte]
  unfold flip
  interval_cases s <;> simp

theorem and_setbit_shift (x f : Nat) :
    (setbit f &&& x) >>> f = (decide (f < 64) && x.testBit f).toNat := by
  apply Nat.eq_of_testBit_eq
  intro j
  simp only [Nat.testBit_shiftRight, Nat.testBit_and, testBit_setbit, Nat.testBit_bool_to_nat]
  by_cases h1 : f < 64 <;> by_cases h2 : j = 0
  · subst h2; simp [h1]
  · have h3 : ¬ (f = f + j) := by omega
    simp [h2, h3]
  · have h3 : ¬ (f + j < 64) := by omega
    simp [h1, h3]
  · have h3 : ¬ (f + j < 64) := by omega
    simp [h1, h3]

theorem testBit_setbit_mul (t f x i : Nat) :
    ((setbit t * ((setbit f &&& x) >>> f)) % 2 ^ 64).testBit i =
      (decide (i < 64) && decide (t = i) && (decide (f < 64) && x.testBit f)) := by
  rw [and_setbit_shift]
  cases h : (decide (f < 64) && x.testBit f)
  · simp
  · simp only [Bool.toNat_true, Nat.mul_one, Nat.testBit_mod_two_pow, testBit_setbit]
    by_cases h1 : i < 64 <;> simp [h1]

theorem getMoveInfo_from_lt (m : Nat) : getMoveInfo fromMask m < 64 := by
  have h : getMoveInfo fromMask m = m % 2 ^ 6 := by
    simp only [getMoveInfo, maskOffset, fromMask, if_true, Nat.shiftRight_zero]
    exact Nat.and_pow_two_sub_one_eq_mod m 6
  rw [h]; exact Nat.mod_lt _ (by norm_num)

theorem getMoveInfo_to_lt (m : Nat) : getMoveInfo toMask m < 64 := by
  have hlt : m &&& toMask < 2 ^ 12 := by
    apply Nat.lt_of_le_of_lt (Nat.and_le_right)
    unfold toMask; norm_num
  have h : getMoveInfo toMask m = (m &&& toMask) / 2 ^ 6 := by
    simp [getMoveInfo, maskOffset, fromMask, toMask, toMaskOffset, Nat.shiftRight_eq_div_pow]
  rw [h]
  apply Nat.div_lt_of_lt_mul
  calc m &&& toMask < 2 ^ 12 := hlt
    _ = 2 ^ 6 * 64 := by norm_num

/-! ## The tag-indexed tables of `makeMove` -/

theorem castleMask_eval :
    castleMask 0 = 0 ∧ castleMask 1 = 0x09 ∧ castleMask 2 = 0xA0 ∧ castleMask 3 = 0 ∧
    castleMask 4 = 0 ∧ castleMask 5 = 0 ∧ castleMask 6 = 0 ∧ castleMask 7 = 0 := by
  decide

theorem enpMask_eval :
    ∀ f, f < 8 → ∀ g, g < 8 →
      enpMask g f = if g = 3 then setbit (32 + f) else 0 := by
  decide

theorem promoMask_eval :
    ∀ f, f < 8 → ∀ g, g < 8 →
      promoMask g f 8 = (if g = 4 ∨ g = 6 then setbit (56 + f) else 0) ∧
      promoMask g f 16 = (if g = 4 ∨ g = 5 then setbit (56 + f) else 0) ∧
      promoMask g f 24 = (if g = 6 ∨ g = 7 then setbit (56 + f) else 0) := by
  decide

/-! ## `makeMove` word by word -/

theorem makeMove_eq (q : QBB) (m : Move) :
    q.makeMove m =
      QBB.flipQBB
        { side :=
            not64 (((q.side &&& not64 (setbit (getMoveInfo fromMask m))) |||
                setbit (getMoveInfo toMask m)) ^^^ castleMask (getMoveInfo moveTypeMask m)) &&&
              ((relocate q.pbq (getMoveInfo fromMask m) (getMoveInfo toMask m) ^^^
                  promoMask (getMoveInfo moveTypeMask m) (file (getMoveInfo toMask m)) 8 ^^^
                  enpMask (getMoveInfo moveTypeMask m) (file (getMoveInfo toMask m))) |||
               (relocate q.nbk (getMoveInfo fromMask m) (getMoveInfo toMask m) ^^^
                  promoMask (getMoveInfo moveTypeMask m) (file (getMoveInfo toMask m)) 16) |||
               (relocate q.rqk (getMoveInfo fromMask m) (getMoveInfo toMask m) ^^^
                  promoMask (getMoveInfo moveTypeMask m) (file (getMoveInfo toMask m)) 24 ^^^
                  castleMask (getMoveInfo moveTypeMask m)))
          pbq :=
            relocate q.pbq (getMoveInfo fromMask m) (getMoveInfo toMask m) ^^^
              promoMask (getMoveInfo moveTypeMask m) (file (getMoveInfo toMask m)) 8 ^^^
              enpMask (getMoveInfo moveTypeMask m) (file (getMoveInfo toMask m))
          nbk :=
            relocate q.nbk (getMoveInfo fromMask m) (getMoveInfo toMask m) ^^^
              promoMask (getMoveInfo moveTypeMask m) (file (getMoveInfo toMask m)) 16
          rqk :=
            relocate q.rqk (getMoveInfo fromMask m) (getMoveInfo toMask m) ^^^
              promoMask (getMoveInfo moveTypeMask m) (file (getMoveInfo toMask m)) 24 ^^^
              castleMask (getMoveInfo moveTypeMask m)
          epc :=
            epcStep q.epc (getMoveInfo fromMask m) (getMoveInfo toMask m)
              (q.getPieceType (getMoveInfo toMask m) >>> 1)
              (q.getPieceType (getMoveInfo fromMask m) >>> 1) } := by
  rfl

theorem relocate_bit (x f t s : Nat) (hf : f < 64) (hs : s < 64) :
    (relocate x f t).testBit s = relocBit x f t s := by
  simp only [relocate, relocBit, Nat.testBit_xor, Nat.testBit_or, Nat.testBit_and,
    testBit_not64, testBit_setbit, testBit_setbit_mul]
  by_cases h1 : s = f
  · subst h1; simp [hs]
  · by_cases h2 : s = t
    · subst h2
      have h3 : ¬ (f = s) := fun h => h1 h.symm
      simp [hs, hf, h1, h3]
    · have h3 : ¬ (f = s) := fun h => h1 h.symm
      have h4 : ¬ (t = s) := fun h => h2 h.symm
      simp [hs, h1, h2, h3, h4]

theorem getPieceCode_bits (q : QBB) (s : Nat) (hs : s < 64) :
    q.getPieceCode s =
      (q.pbq.testBit s).toNat + 2 * (q.nbk.testBit s).toNat + 4 * (q.rqk.testBit s).toNat := by
  rw [QBB.getPieceCode, getPieceType_bits q s hs, Nat.shiftRight_eq_div_pow]
  cases q.side.testBit s <;> simp <;> omega

theorem isMyPiece_bits (q : QBB) (s : Nat) (hs : s < 64) :
    q.isMyPiece s = q.side.testBit s := by
  rw [QBB.isMyPiece, getPieceType_bits q s hs, Nat.and_one_is_mod]
  cases q.side.testBit s <;> simp <;> omega

theorem makeMove_pbq_bit (q : QBB) (m : Move) (s : Nat) (hs : s < 64) :
    (q.makeMove m).pbq.testBit (flip s) =
      xor (xor (relocBit q.pbq (getMoveInfo fromMask m) (getMoveInfo toMask m) s)
        ((promoMask (getMoveInfo moveTypeMask m) (file (getMoveInfo toMask m)) 8).testBit s))
        ((enpMask (getMoveInfo moveTypeMask m) (file (getMoveInfo toMask m))).testBit s) := by
  rw [makeMove_eq]
  simp only [QBB.flipQBB, testBit_byteswap _ _ hs, Nat.testBit_xor,
    relocate_bit _ _ _ _ (getMoveInfo_from_lt m) hs]

theorem makeMove_nbk_bit (q : QBB) (m : Move) (s : Nat) (hs : s < 64) :
    (q.makeMove m).nbk.testBit (flip s) =
      xor (relocBit q.nbk (getMoveInfo fromMask m) (getMoveInfo toMask m) s)
        ((promoMask (getMoveInfo moveTypeMask m) (file (getMoveInfo toMask m)) 16).testBit s) := by
  rw [makeMove_eq]
  simp only [QBB.flipQBB, testBit_byteswap _ _ hs, Nat.testBit_xor,
    relocate_bit _ _ _ _ (getMoveInfo_from_lt m) hs]

theorem makeMove_rqk_bit (q : QBB) (m : Move) (s : Nat) (hs : s < 64) :
    (q.makeMove m).rqk.testBit (flip s) =
      xor (xor (relocBit q.rqk (getMoveInfo fromMask m) (getMoveInfo toMask m) s)
        ((promoMask (getMoveInfo moveTypeMask m) (file (getMoveInfo toMask m)) 24).testBit s))
        ((castleMask (getMoveInfo moveTypeMask m)).testBit s) := by
  rw [makeMove_eq]
  simp only [QBB.flipQBB, testBit_byteswap _ _ hs, Nat.testBit_xor,
    relocate_bit _ _ _ _ (getMoveInfo_from_lt m) hs]

theorem makeMove_side_bit (q : QBB) (m : Move) (s : Nat) (hs : s < 64) :
    (q.makeMove m).side.testBit (flip s) =
      ((!(xor ((q.side.testBit s && !decide (getMoveInfo fromMask m = s)) ||
              decide (getMoveInfo toMask m = s))
            ((castleMask (getMoveInfo moveTypeMask m)).testBit s))) &&
        ((q.makeMove m).pbq.testBit (flip s) || (q.makeMove m).nbk.testBit (flip s) ||
          (q.makeMove m).rqk.testBit (flip s))) := by
  rw [makeMove_pbq_bit q m s hs, makeMove_nbk_bit q m s hs, makeMove_rqk_bit q m s hs]
  rw [makeMove_eq]
  simp only [QBB.flipQBB, testBit_byteswap _ _ hs, Nat.testBit_xor, Nat.testBit_and,
    Nat.testBit_or, testBit_not64, testBit_setbit,
    relocate_bit _ _ _ _ (getMoveInfo_from_lt m) hs]
  simp [hs]

theorem subset_bit (a b : Nat) (h : a &&& b = a) (i : Nat) (hi : a.testBit i = true) :
    b.testBit i = true := by
  have h2 := congrArg (fun x => x.testBit i) h
  simp only [Nat.testBit_and, hi, Bool.true_and] at h2
  exact h2

theorem file_lt (t : Nat) : file t < 8 := Nat.mod_lt _ (by norm_num)

theorem masks_tag0 (f : Nat) (hf : f < 8) :
    promoMask 0 f 8 = 0 ∧ promoMask 0 f 16 = 0 ∧ promoMask 0 f 24 = 0 ∧ enpMask 0 f = 0 ∧
      castleMask 0 = 0 := by
  have h1 := promoMask_eval f hf 0 (by norm_num)
  have h2 := enpMask_eval f hf 0 (by norm_num)
  simp only [show ¬ ((0 : Nat) = 4 ∨ (0 : Nat) = 6) by decide,
    show ¬ ((0 : Nat) = 4 ∨ (0 : Nat) = 5) by decide,
    show ¬ ((0 : Nat) = 6 ∨ (0 : Nat) = 7) by decide,
    show ¬ ((0 : Nat) = 3) by decide, if_false] at h1 h2
  exact ⟨h1.1, h1.2.1, h1.2.2, h2, castleMask_eval.1⟩

/-- C1: for a position whose own squares are occupied and a move with type tag 0 whose
from-square holds a piece of the side to move and whose to-square differs from it
(whatever the to-square holds), after `makeMove` the mirrored to-square holds exactly the
piece kind that stood on the from-square (a real piece, whatever stood on the to-square
is gone), that piece is now one of "theirs", and the mirrored from-square is empty. -/
theorem makeMove_relocates (q : QBB) (m : Move)
    (hside : q.side &&& (q.pbq ||| q.nbk ||| q.rqk) = q.side)
    (htag : getMoveInfo moveTypeMask m = 0)
    (hfrom : q.isMyPiece (getMoveInfo fromMask m) = true)
    (hne : getMoveInfo toMask m ≠ getMoveInfo fromMask m) :
    (q.makeMove m).getPieceCode (flip (getMoveInfo toMask m)) =
        q.getPieceCode (getMoveInfo fromMask m) ∧
      q.getPieceCode (getMoveInfo fromMask m) ≠ 0 ∧
      (q.makeMove m).isMyPiece (flip (getMoveInfo toMask m)) = false ∧
      (q.makeMove m).getPieceType (flip (getMoveInfo toMask m)) =
        2 * q.getPieceCode (getMoveInfo fromMask m) ∧
      (q.makeMove m).getPieceType (flip (getMoveInfo fromMask m)) = 0 := by
  have hF := getMoveInfo_from_lt m
  have hT := getMoveInfo_to_lt m
  obtain ⟨p8, p16, p24, pe, pc⟩ := masks_tag0 (file (getMoveInfo toMask m)) (file_lt _)
  have hne2 : ¬ (getMoveInfo fromMask m = getMoveInfo toMask m) := fun h => hne h.symm
  rw [isMyPiece_bits q _ hF] at hfrom
  have hocc := subset_bit _ _ hside _ hfrom
  simp only [Nat.testBit_or] at hocc
  rw [getPieceCode_bits _ _ (flip_lt _ hT), isMyPiece_bits _ _ (flip_lt _ hT),
    getPieceType_bits _ _ (flip_lt _ hT), getPieceType_bits _ _ (flip_lt _ hF),
    getPieceCode_bits q _ hF]
  simp only [makeMove_side_bit q m _ hT, makeMove_side_bit q m _ hF,
    makeMove_pbq_bit q m _ hT, makeMove_nbk_bit q m _ hT, makeMove_rqk_bit q m _ hT,
    makeMove_pbq_bit q m _ hF, makeMove_nbk_bit q m _ hF, makeMove_rqk_bit q m _ hF,
    htag, p8, p16, p24, pe, pc, relocBit, hne, hne2, Nat.zero_testBit, if_true, if_false,
    Bool.xor_false]
  revert hocc
  cases q.pbq.testBit (getMoveInfo fromMask m) <;> cases q.nbk.testBit (getMoveInfo fromMask m) <;>
    cases q.rqk.testBit (getMoveInfo fromMask m) <;> simp

theorem mask_bits :
    ∀ g, g < 8 → ∀ f, f < 8 → ∀ s, s < 64 →
      ((castleMask g).testBit s =
          decide ((g = 1 ∧ (s = 0 ∨ s = 3)) ∨ (g = 2 ∧ (s = 5 ∨ s = 7))) ∧
        (enpMask g f).testBit s = decide (g = 3 ∧ s = 32 + f) ∧
        (promoMask g f 8).testBit s = decide ((g = 4 ∨ g = 6) ∧ s = 56 + f) ∧
        (promoMask g f 16).testBit s = decide ((g = 4 ∨ g = 5) ∧ s = 56 + f) ∧
        (promoMask g f 24).testBit s = decide ((g = 6 ∨ g = 7) ∧ s = 56 + f)) := by
  decide

theorem scenario_positions :
    QBB.ofFen "rnbqkbnr/pppppppp/8/8/8/8/PPPPPPPP/RNBQKBNR w KQkq - 0 1" true = some startPos ∧
    QBB.ofFen "r3k2r/8/8/8/8/8/8/R3K2R w KQkq - 0 1" true = some castlePos ∧
    QBB.ofFen "8/8/8/pP6/8/8/8/k6K w - a6 0 1" true = some enPassantPos ∧
    QBB.ofFen "8/P6k/8/8/8/8/8/7K w - - 0 1" true = some promoPos := by
  decide

/-- C1, at an instance: the pawn move e2e4 from the start position. -/
theorem makeMove_relocates_witness :
    (startPos.makeMove 1804).getPieceCode (flip (getMoveInfo toMask 1804)) =
        startPos.getPieceCode (getMoveInfo fromMask 1804) ∧
      startPos.getPieceCode (getMoveInfo fromMask 1804) ≠ 0 ∧
      (startPos.makeMove 1804).isMyPiece (flip (getMoveInfo toMask 1804)) = false ∧
      (startPos.makeMove 1804).getPieceType (flip (getMoveInfo toMask 1804)) =
        2 * startPos.getPieceCode (getMoveInfo fromMask 1804) ∧
      (startPos.makeMove 1804).getPieceType (flip (getMoveInfo fromMask 1804)) = 0 :=
  makeMove_relocates startPos 1804 (by decide) (by decide) (by decide) (by decide)

/-- C2, as stated, fails: from the start position the move a2→a3 carrying the promotion
tag 7 (a well-formed move, tag ≤ 7) empties a8, a square that is neither its from- nor its
to-square, nor a castle rook square, nor an en-passant square. -/
theorem makeMove_frame_counterexample :
    startPos.side &&& (startPos.pbq ||| startPos.nbk ||| startPos.rqk) = startPos.side ∧
    getMoveInfo moveTypeMask 29704 ≤ 7 ∧
    getMoveInfo fromMask 29704 = 8 ∧ getMoveInfo toMask 29704 = 16 ∧
    getMoveInfo moveTypeMask 29704 = 7 ∧
    startPos.getPieceCode 56 = 4 ∧
    (startPos.makeMove 29704).getPieceCode (flip 56) = 0 ∧
    (startPos.makeMove 29704).getPieceCode (flip 56) ≠ startPos.getPieceCode 56 := by
  decide

theorem untouched_facts (F T g f s : Nat)
    (hun : ¬(s = F ∨ s = T ∨ g = 1 ∧ (s = 0 ∨ s = 3) ∨ g = 2 ∧ (s = 5 ∨ s = 7) ∨
      g = 3 ∧ s = 4 * 8 + f ∨ 4 ≤ g ∧ s = 7 * 8 + f)) :
    ¬ (s = F) ∧ ¬ (s = T) ∧ ¬ (F = s) ∧ ¬ (T = s) ∧
    ¬ ((g = 1 ∧ (s = 0 ∨ s = 3)) ∨ (g = 2 ∧ (s = 5 ∨ s = 7))) ∧
    ¬ (g = 3 ∧ s = 32 + f) ∧ ¬ ((g = 4 ∨ g = 6) ∧ s = 56 + f) ∧
    ¬ ((g = 4 ∨ g = 5) ∧ s = 56 + f) ∧ ¬ ((g = 6 ∨ g = 7) ∧ s = 56 + f) := by
  simp only [not_or] at hun
  obtain ⟨n1, n2, u1, u2, u3, u4⟩ := hun
  refine ⟨n1, n2, fun h => n1 h.symm, fun h => n2 h.symm, ?_, ?_, ?_, ?_, ?_⟩
  · rintro (h | h)
    · exact u1 h
    · exact u2 h
  · rintro ⟨h1, h2⟩
    exact u3 ⟨h1, by omega⟩
  · rintro ⟨h1, h2⟩
    exact u4 ⟨by omega, by omega⟩
  · rintro ⟨h1, h2⟩
    exact u4 ⟨by omega, by omega⟩
  · rintro ⟨h1, h2⟩
    exact u4 ⟨by omega, by omega⟩

/-- C2 (amended): for a position whose own squares are occupied and a move with tag ≤ 7,
every square `s` the move does not name (from, to, the rook squares a1/d1 of castle tag 1
or f1/h1 of castle tag 2, the rank-index-4 square on the to-file of the en-passant tag,
the rank-index-7 square on the to-file of a promotion tag) keeps its piece kind at the
mirrored square; if it is occupied its side bit is inverted, and if it is empty it stays
empty. -/
theorem makeMove_frame (q : QBB) (m : Move) (s : Nat)
    (hside : q.side &&& (q.pbq ||| q.nbk ||| q.rqk) = q.side)
    (htag : getMoveInfo moveTypeMask m ≤ 7) (hs : s < 64) (hun : ¬ moveTouches m s) :
    (q.makeMove m).getPieceCode (flip s) = q.getPieceCode s ∧
      (q.getPieceCode s ≠ 0 → (q.makeMove m).isMyPiece (flip s) = !q.isMyPiece s) ∧
      (q.getPieceCode s = 0 → (q.makeMove m).getPieceType (flip s) = 0) := by
  have hsub := subset_bit _ _ hside s
  simp only [Nat.testBit_or] at hsub
  obtain ⟨hc, he, h8, h16, h24⟩ :=
    mask_bits (getMoveInfo moveTypeMask m) (by omega) (file (getMoveInfo toMask m))
      (file_lt _) s hs
  have hf := file_lt (getMoveInfo toMask m)
  rw [getPieceCode_bits _ _ (flip_lt _ hs), isMyPiece_bits _ _ (flip_lt _ hs),
    getPieceType_bits _ _ (flip_lt _ hs), getPieceCode_bits q _ hs, isMyPiece_bits q _ hs]
  simp only [makeMove_side_bit q m _ hs, makeMove_pbq_bit q m _ hs, makeMove_nbk_bit q m _ hs,
    makeMove_rqk_bit q m _ hs, hc, he, h8, h16, h24, relocBit]
  simp only [moveTouches, index, a1, d1, f1, h1] at hun
  generalize file (getMoveInfo toMask m) = f at *
  generalize getMoveInfo fromMask m = F at *
  generalize getMoveInfo toMask m = T at *
  generalize getMoveInfo moveTypeMask m = g at *
  obtain ⟨n1, n2, n3, n4, e1, e2, e3, e4, e5⟩ := untouched_facts F T g f s hun
  simp only [e1, e2, e3, e4, e5, n1, n2, n3, n4, if_false,
    Bool.xor_false, decide_False, Bool.not_false, Bool.and_true, Bool.or_false]
  revert hsub
  cases q.side.testBit s <;> cases q.pbq.testBit s <;> cases q.nbk.testBit s <;>
    cases q.rqk.testBit s <;> simp

/-- C2 (amended), at an instance: e2e4 from the start position leaves a1 alone. -/
theorem makeMove_frame_witness :
    (startPos.makeMove 1804).getPieceCode (flip 0) = startPos.getPieceCode 0 ∧
      (startPos.getPieceCode 0 ≠ 0 →
        (startPos.makeMove 1804).isMyPiece (flip 0) = !startPos.isMyPiece 0) ∧
      (startPos.getPieceCode 0 = 0 → (startPos.makeMove 1804).getPieceType (flip 0) = 0) :=
  makeMove_frame startPos 1804 0 (by decide) (by decide) (by decide) (by decide)

theorem pieceCode_placeChar :
    ∀ c ∈ "KQRBNPkqrbnp".toList,
      let p := placeChar true 7 ⟨0, 0, 0, 0, 0⟩ c
      (QBB.mk p.side p.pbq p.nbk p.rqk 0).getPieceCode 0 = pieceCode (makeSquare c).2 ∧
        pieceCode (makeSquare c).2 ≠ 0 := by
  decide

theorem type_bits (q : QBB) (s n : Nat) (hs : s < 64) (h : q.getPieceType s = n) :
    q.side.testBit s = decide (n % 2 = 1) ∧ q.pbq.testBit s = decide (n / 2 % 2 = 1) ∧
    q.nbk.testBit s = decide (n / 4 % 2 = 1) ∧ q.rqk.testBit s = decide (n / 8 % 2 = 1) := by
  rw [getPieceType_bits q s hs] at h
  subst h
  cases q.side.testBit s <;> cases q.pbq.testBit s <;> cases q.nbk.testBit s <;>
    cases q.rqk.testBit s <;> decide

theorem makeMove_square (q : QBB) (m : Move) (s : Nat) (hs : s < 64)
    (hg : getMoveInfo moveTypeMask m ≤ 7) :
    (q.makeMove m).getPieceType (flip s) =
      ((!(xor ((q.side.testBit s && !decide (getMoveInfo fromMask m = s)) ||
              decide (getMoveInfo toMask m = s))
            (decide ((getMoveInfo moveTypeMask m = 1 ∧ (s = 0 ∨ s = 3)) ∨
              (getMoveInfo moveTypeMask m = 2 ∧ (s = 5 ∨ s = 7))))) &&
        ((xor (xor (relocBit q.pbq (getMoveInfo fromMask m) (getMoveInfo toMask m) s)
            (decide ((getMoveInfo moveTypeMask m = 4 ∨ getMoveInfo moveTypeMask m = 6) ∧
              s = 56 + file (getMoveInfo toMask m))))
            (decide (getMoveInfo moveTypeMask m = 3 ∧ s = 32 + file (getMoveInfo toMask m)))) ||
          (xor (relocBit q.nbk (getMoveInfo fromMask m) (getMoveInfo toMask m) s)
            (decide ((getMoveInfo moveTypeMask m = 4 ∨ getMoveInfo moveTypeMask m = 5) ∧
              s = 56 + file (getMoveInfo toMask m)))) ||
          (xor (xor (relocBit q.rqk (getMoveInfo fromMask m) (getMoveInfo toMask m) s)
            (decide ((getMoveInfo moveTypeMask m = 6 ∨ getMoveInfo moveTypeMask m = 7) ∧
              s = 56 + file (getMoveInfo toMask m))))
            (decide ((getMoveInfo moveTypeMask m = 1 ∧ (s = 0 ∨ s = 3)) ∨
              (getMoveInfo moveTypeMask m = 2 ∧ (s = 5 ∨ s = 7))))))).toNat) +
      2 * (xor (xor (relocBit q.pbq (getMoveInfo fromMask m) (getMoveInfo toMask m) s)
            (decide ((getMoveInfo moveTypeMask m = 4 ∨ getMoveInfo moveTypeMask m = 6) ∧
              s = 56 + file (getMoveInfo toMask m))))
            (decide (getMoveInfo moveTypeMask m = 3 ∧
              s = 32 + file (getMoveInfo toMask m)))).toNat +
      4 * (xor (relocBit q.nbk (getMoveInfo fromMask m) (getMoveInfo toMask m) s)
            (decide ((getMoveInfo moveTypeMask m = 4 ∨ getMoveInfo moveTypeMask m = 5) ∧
              s = 56 + file (getMoveInfo toMask m)))).toNat +
      8 * (xor (xor (relocBit q.rqk (getMoveInfo fromMask m) (getMoveInfo toMask m) s)
            (decide ((getMoveInfo moveTypeMask m = 6 ∨ getMoveInfo moveTypeMask m = 7) ∧
              s = 56 + file (getMoveInfo toMask m))))
            (decide ((getMoveInfo moveTypeMask m = 1 ∧ (s = 0 ∨ s = 3)) ∨
              (getMoveInfo moveTypeMask m = 2 ∧ (s = 5 ∨ s = 7))))).toNat := by
  obtain ⟨hc, he, h8, h16, h24⟩ :=
    mask_bits (getMoveInfo moveTypeMask m) (by omega) (file (getMoveInfo toMask m))
      (file_lt _) s hs
  rw [getPieceType_bits _ _ (flip_lt _ hs)]
  simp only [makeMove_side_bit q m _ hs, makeMove_pbq_bit q m _ hs, makeMove_nbk_bit q m _ hs,
    makeMove_rqk_bit q m _ hs, hc, he, h8, h16, h24]

/-- C3, as stated, fails: in `r3k2r/8/8/8/8/8/8/R3K2R w KQkq - 0 1` (own king on e1, own
rook on h1, f1 and g1 empty) the move e1→g1 with type tag 1 puts the king on g1 but
leaves the rook on h1 and f1 empty, and lets a rook appear on d1 while a1 is emptied. -/
theorem castle_tag_counterexample :
    castlePos.getPieceType e1 = myPiece PieceKind.king ∧
    castlePos.getPieceType h1 = myPiece PieceKind.rooks ∧
    castlePos.getPieceType f1 = 0 ∧ castlePos.getPieceType g1 = 0 ∧
    getMoveInfo fromMask 4484 = e1 ∧ getMoveInfo toMask 4484 = g1 ∧
    getMoveInfo moveTypeMask 4484 = 1 ∧
    (castlePos.makeMove 4484).getPieceType (flip g1) = theirPiece PieceKind.king ∧
    (castlePos.makeMove 4484).getPieceType (flip f1) = 0 ∧
    (castlePos.makeMove 4484).getPieceType (flip h1) = theirPiece PieceKind.rooks ∧
    (castlePos.makeMove 4484).getPieceType (flip d1) = theirPiece PieceKind.rooks ∧
    (castlePos.makeMove 4484).getPieceType (flip a1) = 0 := by
  decide

/-- C3 (amended): castling relocates the rook under the tag numbering of `castleUpdate`.
With the side to move's king on e1 and rook on h1 (f1, g1 empty), `makeMove` of e1→g1
with type tag 2 leaves the king on g1 and the rook on f1 with e1 and h1 empty; with the
rook on a1 (b1, c1, d1 empty), e1→c1 with type tag 1 leaves the king on c1 and the rook
on d1 with e1 and a1 empty (all seen mirrored, as the opponent's pieces). -/
theorem castle_relocates_rook (q : QBB) (m : Move) :
    (getMoveInfo fromMask m = e1 → getMoveInfo toMask m = g1 →
      getMoveInfo moveTypeMask m = 2 →
      q.getPieceType e1 = myPiece PieceKind.king →
      q.getPieceType h1 = myPiece PieceKind.rooks →
      q.getPieceType f1 = 0 → q.getPieceType g1 = 0 →
        (q.makeMove m).getPieceType (flip g1) = theirPiece PieceKind.king ∧
        (q.makeMove m).getPieceType (flip f1) = theirPiece PieceKind.rooks ∧
        (q.makeMove m).getPieceType (flip e1) = 0 ∧
        (q.makeMove m).getPieceType (flip h1) = 0) ∧
    (getMoveInfo fromMask m = e1 → getMoveInfo toMask m = c1 →
      getMoveInfo moveTypeMask m = 1 →
      q.getPieceType e1 = myPiece PieceKind.king →
      q.getPieceType a1 = myPiece PieceKind.rooks →
      q.getPieceType 1 = 0 → q.getPieceType c1 = 0 → q.getPieceType d1 = 0 →
        (q.makeMove m).getPieceType (flip c1) = theirPiece PieceKind.king ∧
        (q.makeMove m).getPieceType (flip d1) = theirPiece PieceKind.rooks ∧
        (q.makeMove m).getPieceType (flip e1) = 0 ∧
        (q.makeMove m).getPieceType (flip a1) = 0) := by
  constructor
  · intro hF hT hg hk hr hf hgg
    have hg7 : getMoveInfo moveTypeMask m ≤ 7 := by rw [hg]; norm_num
    obtain ⟨k0, k1, k2, k3⟩ := type_bits q e1 _ (by decide) hk
    obtain ⟨r0, r1, r2, r3⟩ := type_bits q h1 _ (by decide) hr
    obtain ⟨f0, f1', f2, f3⟩ := type_bits q f1 _ (by decide) hf
    obtain ⟨g0, g1', g2, g3⟩ := type_bits q g1 _ (by decide) hgg
    rw [makeMove_square q m g1 (by decide) hg7, makeMove_square q m f1 (by decide) hg7,
      makeMove_square q m e1 (by decide) hg7, makeMove_square q m h1 (by decide) hg7]
    simp only [hF, hT, hg, relocBit, k0, k1, k2, k3, r0, r1, r2, r3, f0, f1', f2, f3,
      g0, g1', g2, g3]
    decide
  · intro hF hT hg hk hr hb hc hd
    have hg7 : getMoveInfo moveTypeMask m ≤ 7 := by rw [hg]; norm_num
    obtain ⟨k0, k1, k2, k3⟩ := type_bits q e1 _ (by decide) hk
    obtain ⟨r0, r1, r2, r3⟩ := type_bits q a1 _ (by decide) hr
    obtain ⟨c0, c1', c2, c3⟩ := type_bits q c1 _ (by decide) hc
    obtain ⟨d0, d1', d2, d3⟩ := type_bits q d1 _ (by decide) hd
    rw [makeMove_square q m c1 (by decide) hg7, makeMove_square q m d1 (by decide) hg7,
      makeMove_square q m e1 (by decide) hg7, makeMove_square q m a1 (by decide) hg7]
    simp only [hF, hT, hg, relocBit, k0, k1, k2, k3, r0, r1, r2, r3, c0, c1', c2, c3,
      d0, d1', d2, d3]
    decide

/-- C3 (amended), at an instance: both castles from `r3k2r/8/8/8/8/8/8/R3K2R w KQkq - 0 1`. -/
theorem castle_relocates_rook_witness :
    ((castlePos.makeMove 8580).getPieceType (flip g1) = theirPiece PieceKind.king ∧
      (castlePos.makeMove 8580).getPieceType (flip f1) = theirPiece PieceKind.rooks ∧
      (castlePos.makeMove 8580).getPieceType (flip e1) = 0 ∧
      (castlePos.makeMove 8580).getPieceType (flip h1) = 0) ∧
    ((castlePos.makeMove 4228).getPieceType (flip c1) = theirPiece PieceKind.king ∧
      (castlePos.makeMove 4228).getPieceType (flip d1) = theirPiece PieceKind.rooks ∧
      (castlePos.makeMove 4228).getPieceType (flip e1) = 0 ∧
      (castlePos.makeMove 4228).getPieceType (flip a1) = 0) :=
  ⟨(castle_relocates_rook castlePos 8580).1 (by decide) (by decide) (by decide) (by decide)
      (by decide) (by decide) (by decide),
   (castle_relocates_rook castlePos 4228).2 (by decide) (by decide) (by decide) (by decide)
      (by decide) (by decide) (by decide) (by decide)⟩

theorem enp_squares (F T : Nat) (hF : rank F = 4) (hT : rank T = 5)
    (hne : F ≠ index 4 (file T)) :
    T < 64 ∧ F < 64 ∧ index 4 (file T) < 64 ∧ F ≠ T ∧ T ≠ F ∧
    index 4 (file T) ≠ F ∧ index 4 (file T) ≠ T ∧ T ≠ index 4 (file T) ∧
    index 4 (file T) = 32 + file T ∧ F ≠ 32 + file T ∧ T ≠ 32 + file T ∧
    32 + file T ≠ F ∧ 32 + file T ≠ T := by
  unfold rank at hF hT
  unfold index file at *
  omega

/-- C4: for a position with an own pawn on a rank-index-4 square `from`, an opponent pawn
on the rank-index-4 square of the file of `to`, and `to` an empty rank-index-5 square,
`makeMove` of from→to with the en-passant tag 3 leaves a pawn of the mover on `to` and
both `from` and the captured pawn's square empty, seen mirrored after the flip. -/
theorem enPassant_removes_pawn (q : QBB) (m : Move) (F T : Nat)
    (hF : getMoveInfo fromMask m = F) (hT : getMoveInfo toMask m = T)
    (hg : getMoveInfo moveTypeMask m = 3)
    (hrF : rank F = 4) (hrT : rank T = 5)
    (hpawn : q.getPieceType F = myPiece PieceKind.pawns)
    (hcap : q.getPieceType (index 4 (file T)) = theirPiece PieceKind.pawns)
    (hempty : q.getPieceType T = 0) :
    (q.makeMove m).getPieceType (flip T) = theirPiece PieceKind.pawns ∧
    (q.makeMove m).getPieceType (flip F) = 0 ∧
    (q.makeMove m).getPieceType (flip (index 4 (file T))) = 0 := by
  have hne : F ≠ index 4 (file T) := by
    intro h
    rw [← h, hpawn] at hcap
    revert hcap
    decide
  obtain ⟨b1, b2, b3, n1, n2, n3, n4, n5, e1, n6, n7, n8, n9⟩ := enp_squares F T hrF hrT hne
  have hg7 : getMoveInfo moveTypeMask m ≤ 7 := by rw [hg]; norm_num
  obtain ⟨p0, p1, p2, p3⟩ := type_bits q F _ b2 hpawn
  obtain ⟨c0, c1, c2, c3⟩ := type_bits q _ _ b3 hcap
  obtain ⟨t0, t1, t2, t3⟩ := type_bits q T _ b1 hempty
  rw [e1] at c0 c1 c2 c3
  rw [makeMove_square q m T b1 hg7, makeMove_square q m F b2 hg7,
    makeMove_square q m _ b3 hg7]
  simp only [hF, hT, hg, relocBit, e1]
  simp [n1, n2, n6, n7, n8, n9, p0, p1, p2, p3, c0, c1, c2, c3, t0, t1, t2, t3, myPiece,
    theirPiece, pieceCode]

/-- C4, at scenario S4: from `8/8/8/pP6/8/8/8/k6K w - a6 0 1` the capture b5a6 gives the
placement `8/8/P7/8/8/8/8/k6K` with black to move. -/
theorem enPassant_removes_pawn_witness :
    ((enPassantPos.makeMove 14881).getPieceType (flip 40) = theirPiece PieceKind.pawns ∧
      (enPassantPos.makeMove 14881).getPieceType (flip 33) = 0 ∧
      (enPassantPos.makeMove 14881).getPieceType (flip (index 4 (file 40))) = 0) ∧
    QBB.ofFen "8/8/8/pP6/8/8/8/k6K w - a6 0 1" true = some enPassantPos ∧
    some (enPassantPos.makeMove 14881) = QBB.ofFen "8/8/P7/8/8/8/8/k6K b - - 0 1" true :=
  ⟨enPassant_removes_pawn enPassantPos 14881 33 40 (by decide) (by decide) (by decide)
      (by decide) (by decide) (by decide) (by decide) (by decide),
    by decide, by decide⟩

theorem promo_squares (F T : Nat) (hF : rank F = 6) (hT : rank T = 7) :
    T < 64 ∧ F < 64 ∧ F ≠ T ∧ T ≠ F ∧ T = 56 + file T ∧ F ≠ 56 + file T ∧
    F ≠ 32 + file T ∧ T ≠ 32 + file T ∧ T ≠ 0 ∧ T ≠ 3 ∧ T ≠ 5 ∧ T ≠ 7 ∧
    F ≠ 0 ∧ F ≠ 3 ∧ F ≠ 5 ∧ F ≠ 7 := by
  unfold rank at hF hT
  unfold file at *
  omega

/-- C5: for a position with an own pawn on a rank-index-6 square `from`, a rank-index-7
square `to` (whatever it holds) and a promotion tag 4, 5, 6 or 7, after `makeMove` the
mirrored to-square holds a knight, bishop, rook or queen respectively, belonging to
the mover (now "theirs"); no pawn stands there, and the mirrored from-square is empty. -/
theorem promotion_replaces_pawn (q : QBB) (m : Move) (F T : Nat)
    (hF : getMoveInfo fromMask m = F) (hT : getMoveInfo toMask m = T)
    (hrF : rank F = 6) (hrT : rank T = 7)
    (hpawn : q.getPieceType F = myPiece PieceKind.pawns)
    (hg : 4 ≤ getMoveInfo moveTypeMask m ∧ getMoveInfo moveTypeMask m ≤ 7) :
    (getMoveInfo moveTypeMask m = 4 →
      (q.makeMove m).getPieceType (flip T) = theirPiece PieceKind.knights) ∧
    (getMoveInfo moveTypeMask m = 5 →
      (q.makeMove m).getPieceType (flip T) = theirPiece PieceKind.bishops) ∧
    (getMoveInfo moveTypeMask m = 6 →
      (q.makeMove m).getPieceType (flip T) = theirPiece PieceKind.rooks) ∧
    (getMoveInfo moveTypeMask m = 7 →
      (q.makeMove m).getPieceType (flip T) = theirPiece PieceKind.queens) ∧
    (q.makeMove m).getPieceCode (flip T) ≠ pieceCode PieceKind.pawns ∧
    (q.makeMove m).getPieceCode (flip T) ≠ 0 ∧
    (q.makeMove m).isMyPiece (flip T) = false ∧
    (q.makeMove m).getPieceType (flip F) = 0 := by
  obtain ⟨b1, b2, n1, n2, e1, n3, n4, n5, n6, n7, n8, n9, n10, n11, n12, n13⟩ :=
    promo_squares F T hrF hrT
  obtain ⟨p0, p1, p2, p3⟩ := type_bits q F _ b2 hpawn
  have hcode : (q.makeMove m).getPieceCode (flip T) =
      (q.makeMove m).getPieceType (flip T) >>> 1 := rfl
  have hmine : (q.makeMove m).isMyPiece (flip T) =
      decide ((q.makeMove m).getPieceType (flip T) &&& 1 ≠ 0) := rfl
  rw [hcode, hmine, makeMove_square q m T b1 hg.2, makeMove_square q m F b2 hg.2]
  simp only [hF, hT, relocBit]
  generalize getMoveInfo moveTypeMask m = g at *
  obtain ⟨g4, g7⟩ := hg
  rw [← e1]
  interval_cases g <;>
    simp [n1, n2, n3, n4, n5, n6, n7, n8, n9, n10, n11, n12, n13, p0, p1, p2, p3, myPiece,
      theirPiece, pieceCode]

/-- C5, at scenario S5: from `8/P6k/8/8/8/8/8/7K w - - 0 1` the move a7a8q gives a white
queen on a8, the position `Q7/7k/8/8/8/8/8/7K` with black to move. -/
theorem promotion_replaces_pawn_witness :
    ((getMoveInfo moveTypeMask 32304 = 4 →
        (promoPos.makeMove 32304).getPieceType (flip 56) = theirPiece PieceKind.knights) ∧
      (getMoveInfo moveTypeMask 32304 = 5 →
        (promoPos.makeMove 32304).getPieceType (flip 56) = theirPiece PieceKind.bishops) ∧
      (getMoveInfo moveTypeMask 32304 = 6 →
        (promoPos.makeMove 32304).getPieceType (flip 56) = theirPiece PieceKind.rooks) ∧
      (getMoveInfo moveTypeMask 32304 = 7 →
        (promoPos.makeMove 32304).getPieceType (flip 56) = theirPiece PieceKind.queens) ∧
      (promoPos.makeMove 32304).getPieceCode (flip 56) ≠ pieceCode PieceKind.pawns ∧
      (promoPos.makeMove 32304).getPieceCode (flip 56) ≠ 0 ∧
      (promoPos.makeMove 32304).isMyPiece (flip 56) = false ∧
      (promoPos.makeMove 32304).getPieceType (flip 48) = 0) ∧
    getMoveInfo moveTypeMask 32304 = 7 ∧
    QBB.ofFen "8/P6k/8/8/8/8/8/7K w - - 0 1" true = some promoPos ∧
    some (promoPos.makeMove 32304) = QBB.ofFen "Q7/7k/8/8/8/8/8/7K b - - 0 1" true :=
  ⟨promotion_replaces_pawn promoPos 32304 48 56 (by decide) (by decide) (by decide)
      (by decide) (by decide) (by decide),
    by decide, by decide, by decide⟩

/-! ## The auxiliary word -/

theorem add_mod_eq_or (a b : Nat) (ha : a < 2 ^ 64) (hb : b < 2 ^ 64) (h : a &&& b = 0) :
    (a + b) % 2 ^ 64 = a ||| b := by
  have ea : a % 18446744073709551616 = a := Nat.mod_eq_of_lt ha
  have eb : b % 18446744073709551616 = b := Nat.mod_eq_of_lt hb
  have h1 : BitVec.ofNat 64 a &&& BitVec.ofNat 64 b = 0#64 := by
    apply BitVec.eq_of_toNat_eq
    simp [ea, eb, h]
  have h2 := congrArg BitVec.toNat (BitVec.add_eq_or_of_and_eq_zero _ _ h1)
  simpa [ea, eb] using h2

theorem factor_to (k : Nat) : (1 >>> k) % 2 ^ 32 = if k = 0 then 1 else 0 := by
  cases k with
  | zero => rfl
  | succ n =>
    have h : 1 >>> (n + 1) = 0 := by
      rw [Nat.shiftRight_eq_div_pow]
      apply Nat.div_eq_of_lt
      exact Nat.one_lt_two_pow (by omega)
    simp [h]

theorem factor_from (k : Nat) (hk : k ≠ 0) :
    (1 + 2 ^ 32 - (2 >>> k) % 2 ^ 32) % 2 ^ 32 = if k = 1 then 0 else 1 := by
  match k, hk with
  | 1, _ => rfl
  | n + 2, _ =>
    have h : 2 >>> (n + 2) = 0 := by
      rw [Nat.shiftRight_eq_div_pow]
      apply Nat.div_eq_of_lt
      calc 2 = 2 ^ 1 := by norm_num
        _ < 2 ^ (n + 2) := Nat.pow_lt_pow_right (by norm_num) (by omega)
    simp [h]

theorem testBit_high (K j : Nat) (hK : K < 2 ^ 64) (hj : ¬ j < 64) : K.testBit j = false :=
  Nat.testBit_lt_two_pow
    (Nat.lt_of_lt_of_le hK (Nat.pow_le_pow_right (by norm_num) (Nat.le_of_not_lt hj)))

theorem testBit_counter50 (j : Nat) :
    counter50.testBit j = decide ((24 ≤ j ∧ j < 31) ∨ (32 ≤ j ∧ j < 39)) := by
  by_cases hj : j < 64
  · revert j; decide
  · rw [testBit_high _ j (by decide) hj]
    symm; apply decide_eq_false; omega

theorem testBit_backRanks (j : Nat) :
    (rankMask a1 ||| rankMask a8).testBit j = decide (j < 8 ∨ (56 ≤ j ∧ j < 64)) := by
  by_cases hj : j < 64
  · revert j; decide
  · rw [testBit_high _ j (by decide) hj]
    symm; apply decide_eq_false; omega

theorem testBit_rank6 (j : Nat) : rank6.testBit j = decide (40 ≤ j ∧ j < 48) := by
  by_cases hj : j < 64
  · revert j; decide
  · rw [testBit_high _ j (by decide) hj]
    symm; apply decide_eq_false; omega

theorem testBit_rank3 (j : Nat) : rank3.testBit j = decide (16 ≤ j ∧ j < 24) := by
  by_cases hj : j < 64
  · revert j; decide
  · rw [testBit_high _ j (by decide) hj]
    symm; apply decide_eq_false; omega

theorem testBit_sentinel (j : Nat) :
    (0x8080000000 : Nat).testBit j = decide (j = 31 ∨ j = 39) := by
  by_cases hj : j < 64
  · revert j; decide
  · rw [testBit_high _ j (by decide) hj]
    symm; apply decide_eq_false; omega

theorem testBit_x7F (j : Nat) : (0x7F : Nat).testBit j = decide (j < 7) := by
  have h : (0x7F : Nat) = 2 ^ 7 - 1 := by norm_num
  rw [h, Nat.testBit_two_pow_sub_one]

theorem testBit_clockLo (epc j : Nat) :
    (clockLo epc).testBit j = (epc.testBit (24 + j) && decide (j < 7)) := by
  simp only [clockLo, Nat.testBit_and, Nat.testBit_shiftRight, testBit_x7F]

theorem testBit_clockHi (epc j : Nat) :
    (clockHi epc).testBit j = (epc.testBit (32 + j) && decide (j < 7)) := by
  simp only [clockHi, Nat.testBit_and, Nat.testBit_shiftRight, testBit_x7F]

theorem clockLo_lt (epc : Nat) : clockLo epc < 128 :=
  Nat.lt_of_le_of_lt Nat.and_le_right (by norm_num)

theorem clockHi_lt (epc : Nat) : clockHi epc < 128 :=
  Nat.lt_of_le_of_lt Nat.and_le_right (by norm_num)

theorem slots_or (a b : Nat) (ha : a < 128) :
    a * 2 ^ 24 + b * 2 ^ 32 = (b <<< 32) ||| (a <<< 24) := by
  rw [Nat.shiftLeft_eq, Nat.shiftLeft_eq, Nat.mul_comm b, Nat.add_comm]
  exact Nat.mul_add_lt_is_or (by omega) b

theorem testBit_slots (a b j : Nat) (ha : a < 128) (hb : b < 128) :
    ((b <<< 32) ||| (a <<< 24)).testBit j =
      ((decide (32 ≤ j ∧ j < 39) && b.testBit (j - 32)) ||
        (decide (24 ≤ j ∧ j < 31) && a.testBit (j - 24))) := by
  simp only [Nat.testBit_or, Nat.testBit_shiftLeft]
  have hbh : ∀ i, ¬ i < 7 → b.testBit i = false := fun i hi =>
    Nat.testBit_lt_two_pow (Nat.lt_of_lt_of_le hb
      (by calc 128 = 2 ^ 7 := by norm_num
            _ ≤ 2 ^ i := Nat.pow_le_pow_right (by norm_num) (by omega)))
  have hah : ∀ i, ¬ i < 7 → a.testBit i = false := fun i hi =>
    Nat.testBit_lt_two_pow (Nat.lt_of_lt_of_le ha
      (by calc 128 = 2 ^ 7 := by norm_num
            _ ≤ 2 ^ i := Nat.pow_le_pow_right (by norm_num) (by omega)))
  by_cases h1 : 32 ≤ j
  · by_cases h2 : j < 39
    · have h3 : ¬ (j < 31) := by omega
      simp [h1, h2, h3, hah (j - 24) (by omega)]
    · have h3 : ¬ (j < 31) := by omega
      simp [h1, h2, h3, hbh (j - 32) (by omega), hah (j - 24) (by omega)]
  · by_cases h2 : 24 ≤ j
    · by_cases h3 : j < 31
      · simp [h1, h2, h3]
      · simp [h1, h2, h3, hah (j - 24) (by omega)]
    · simp [h1, h2]

theorem clock_and (epc : Nat) :
    epc &&& counter50 = clockLo epc * 2 ^ 24 + clockHi epc * 2 ^ 32 := by
  rw [slots_or _ _ (clockLo_lt epc)]
  apply Nat.eq_of_testBit_eq
  intro j
  rw [testBit_slots _ _ _ (clockLo_lt epc) (clockHi_lt epc)]
  simp only [Nat.testBit_and, testBit_counter50, testBit_clockLo, testBit_clockHi]
  by_cases h1 : 32 ≤ j ∧ j < 39
  · have h2 : ¬ (24 ≤ j ∧ j < 31) := by omega
    have h3 : 32 + (j - 32) = j := by omega
    have h4 : j - 32 < 7 := by omega
    simp [h1, h2, h3, h4]
  · by_cases h2 : 24 ≤ j ∧ j < 31
    · have h3 : 24 + (j - 24) = j := by omega
      have h4 : j - 24 < 7 := by omega
      simp [h1, h2, h3, h4]
    · simp [h1, h2]

theorem rest_lt (epc : Nat) : epc &&& not64 counter50 < 2 ^ 64 :=
  Nat.lt_of_le_of_lt Nat.and_le_right (by decide)

theorem testBit_rest (epc j : Nat) :
    (epc &&& not64 counter50).testBit j =
      (epc.testBit j && decide (j < 64) &&
        !decide ((24 ≤ j ∧ j < 31) ∨ (32 ≤ j ∧ j < 39))) := by
  simp only [Nat.testBit_and, testBit_not64, testBit_counter50, Bool.and_assoc]

theorem slots_disjoint (a b epc : Nat) (ha : a < 128) (hb : b < 128) :
    ((b <<< 32) ||| (a <<< 24)) &&& (epc &&& not64 counter50) = 0 := by
  apply Nat.eq_of_testBit_eq
  intro j
  rw [Nat.testBit_and, testBit_slots a b j ha hb, testBit_rest]
  by_cases h1 : 32 ≤ j ∧ j < 39 <;> by_cases h2 : 24 ≤ j ∧ j < 31 <;> simp [h1, h2]

theorem slots_lt (a b : Nat) (ha : a < 128) (hb : b < 128) :
    (b <<< 32) ||| (a <<< 24) < 2 ^ 64 := by
  rw [← slots_or a b ha]
  omega

/-- The clock block of `makeMove` when neither slot is full and the from-square is
occupied: the stepped (or zeroed) slots are OR-ed onto the other bits. -/
theorem clockStep_eq (epc toPc fromPc : Nat) (hlo : clockLo epc ≤ 126)
    (hhi : clockHi epc ≤ 126) (hfrom : fromPc ≠ 0) :
    clockStep epc toPc fromPc =
      (((if toPc = 0 ∧ fromPc ≠ 1 then
            ((clockHi epc + 1) <<< 32) ||| ((clockLo epc + 1) <<< 24) else 0) |||
          (epc &&& not64 counter50)) ^^^ 0x8080000000) := by
  unfold clockStep
  simp only [clock_and, factor_to, factor_from _ hfrom]
  have hA : (0x101000000 + (clockLo epc * 2 ^ 24 + clockHi epc * 2 ^ 32)) % 2 ^ 64 =
      ((clockHi epc + 1) <<< 32) ||| ((clockLo epc + 1) <<< 24) := by
    rw [← slots_or _ _ (by omega : clockLo epc + 1 < 128)]
    omega
  rw [hA]
  have hlt := slots_lt (clockLo epc + 1) (clockHi epc + 1) (by omega) (by omega)
  have hdis := slots_disjoint (clockLo epc + 1) (clockHi epc + 1) epc (by omega) (by omega)
  have hr : (epc &&& not64 counter50) % 18446744073709551616 = epc &&& not64 counter50 :=
    Nat.mod_eq_of_lt (rest_lt epc)
  by_cases h1 : toPc = 0 <;> by_cases h2 : fromPc = 1
  · simp [h1, h2, hr]
  · simp only [h1, h2, if_true, if_false, Nat.mul_one, Nat.mod_eq_of_lt hlt, ne_eq,
      not_false_eq_true, and_self]
    rw [add_mod_eq_or _ _ hlt (rest_lt epc) hdis]
  · simp [h1, h2, hr]
  · simp [h1, h2, hr]

theorem testBit_epcStep (epc F T toPc fromPc j : Nat) :
    (epcStep epc F T toPc fromPc).testBit j =
      (((clockStep epc toPc fromPc).testBit j &&
          (decide (j < 64) &&
            !(decide (j < 64) && decide (F = j) && decide (j < 8 ∨ (56 ≤ j ∧ j < 64)))) &&
          (decide (j < 64) &&
            !(decide (j < 64) && decide (T = j) && decide (j < 8 ∨ (56 ≤ j ∧ j < 64)))) &&
          (decide (j < 64) && !decide (40 ≤ j ∧ j < 48))) ||
        ((enPassantWord F T fromPc).testBit j && decide (16 ≤ j ∧ j < 24))) := by
  have hb := testBit_backRanks j
  rw [Nat.testBit_or] at hb
  simp only [epcStep, Nat.testBit_or, Nat.testBit_and, testBit_not64, testBit_setbit,
    hb, testBit_rank6, testBit_rank3]

theorem flip_clock : ∀ j, j < 8 → flip (32 + j) = 24 + j ∧ flip (24 + j) = 32 + j := by
  unfold flip; decide

theorem makeMove_epc (q : QBB) (m : Move) :
    (q.makeMove m).epc =
      byteswap_uint64 (epcStep q.epc (getMoveInfo fromMask m) (getMoveInfo toMask m)
        (q.getPieceCode (getMoveInfo toMask m)) (q.getPieceCode (getMoveInfo fromMask m))) := by
  rw [makeMove_eq]; rfl

theorem testBit_byteswap_at (x j : Nat) (hj : j < 64) :
    (byteswap_uint64 x).testBit j = x.testBit (flip j) := by
  have h := testBit_byteswap x (flip j) (flip_lt j hj)
  rw [flip_flip j hj] at h
  exact h

/-- The two clock slots after `makeMove`, for slots that are not full and an occupied
from-square: zero after a capture or a pawn move, else one more, the two slots swapped
by the byte swap. -/
theorem makeMove_clock (q : QBB) (m : Move) (hlo : clockLo q.epc ≤ 126)
    (hhi : clockHi q.epc ≤ 126) (hfrom : q.getPieceCode (getMoveInfo fromMask m) ≠ 0) :
    clockLo (q.makeMove m).epc =
        (if q.getPieceCode (getMoveInfo toMask m) = 0 ∧
            q.getPieceCode (getMoveInfo fromMask m) ≠ 1 then clockHi q.epc + 1 else 0) ∧
      clockHi (q.makeMove m).epc =
        (if q.getPieceCode (getMoveInfo toMask m) = 0 ∧
            q.getPieceCode (getMoveInfo fromMask m) ≠ 1 then clockLo q.epc + 1 else 0) := by
  rw [makeMove_epc]
  generalize getMoveInfo fromMask m = F at *
  generalize getMoveInfo toMask m = T at *
  generalize q.getPieceCode T = toPc at *
  generalize q.getPieceCode F = fromPc at *
  have hbits : ∀ j, 24 ≤ j → j < 40 →
      (epcStep q.epc F T toPc fromPc).testBit j =
        xor (((if toPc = 0 ∧ fromPc ≠ 1 then
            ((clockHi q.epc + 1) <<< 32) ||| ((clockLo q.epc + 1) <<< 24) else 0) |||
          (q.epc &&& not64 counter50)).testBit j) (decide (j = 31 ∨ j = 39)) := by
    intro j h1 h2
    rw [testBit_epcStep, clockStep_eq _ _ _ hlo hhi hfrom, Nat.testBit_xor, testBit_sentinel]
    have e1 : j < 64 := by omega
    have e2 : ¬ (j < 8 ∨ (56 ≤ j ∧ j < 64)) := by omega
    have e3 : ¬ (40 ≤ j ∧ j < 48) := by omega
    have e4 : ¬ (16 ≤ j ∧ j < 24) := by omega
    have e5 : ¬ (j < 8) := by omega
    have e6 : ¬ (56 ≤ j) := by omega
    simp [e1, e2, e3, e4, e5, e6]
  constructor
  · apply Nat.eq_of_testBit_eq
    intro j
    rw [testBit_clockLo]
    by_cases hj : j < 7
    · rw [testBit_byteswap_at _ _ (by omega), (flip_clock j (by omega)).2,
        hbits _ (by omega) (by omega), Nat.testBit_or, testBit_rest]
      have e1 : ¬ (32 + j = 31 ∨ 32 + j = 39) := by omega
      have e2 : (32 ≤ 32 + j ∧ 32 + j < 39) := by omega
      by_cases hc : toPc = 0 ∧ fromPc ≠ 1
      · rw [if_pos hc, if_pos hc,
          testBit_slots _ _ _ (by omega : clockLo q.epc + 1 < 128)
            (by omega : clockHi q.epc + 1 < 128)]
        have e3 : ¬ (24 ≤ 32 + j ∧ 32 + j < 31) := by omega
        simp [e1, e2, e3, hj]
      · rw [if_neg hc, if_neg hc]
        simp [e1, e2, hj]
    · have hz : (if toPc = 0 ∧ fromPc ≠ 1 then clockHi q.epc + 1 else 0) < 2 ^ 7 := by
        split <;> omega
      have hz2 : (if toPc = 0 ∧ fromPc ≠ 1 then clockHi q.epc + 1 else 0).testBit j = false :=
        Nat.testBit_lt_two_pow (Nat.lt_of_lt_of_le hz
          (Nat.pow_le_pow_right (by norm_num) (by omega)))
      simp [hj, hz2]
  · apply Nat.eq_of_testBit_eq
    intro j
    rw [testBit_clockHi]
    by_cases hj : j < 7
    · rw [testBit_byteswap_at _ _ (by omega), (flip_clock j (by omega)).1,
        hbits _ (by omega) (by omega), Nat.testBit_or, testBit_rest]
      have e1 : ¬ (24 + j = 31 ∨ 24 + j = 39) := by omega
      have e2 : (24 ≤ 24 + j ∧ 24 + j < 31) := by omega
      by_cases hc : toPc = 0 ∧ fromPc ≠ 1
      · rw [if_pos hc, if_pos hc,
          testBit_slots _ _ _ (by omega : clockLo q.epc + 1 < 128)
            (by omega : clockHi q.epc + 1 < 128)]
        have e3 : ¬ (32 ≤ 24 + j ∧ 24 + j < 39) := by omega
        simp [e1, e2, e3, hj]
      · rw [if_neg hc, if_neg hc]
        simp [e1, e2, hj]
    · have hz : (if toPc = 0 ∧ fromPc ≠ 1 then clockLo q.epc + 1 else 0) < 2 ^ 7 := by
        split <;> omega
      have hz2 : (if toPc = 0 ∧ fromPc ≠ 1 then clockLo q.epc + 1 else 0).testBit j = false :=
        Nat.testBit_lt_two_pow (Nat.lt_of_lt_of_le hz
          (Nat.pow_le_pow_right (by norm_num) (by omega)))
      simp [hj, hz2]

/-- C6: for a position whose two clock slots (bits 24–30 and bits 32–38 of `epc`) both
hold a value `c ≤ 126` and a move whose from-square is occupied, after `makeMove` both
slots hold 0 if the moving piece is a pawn or the to-square was occupied, and both hold
`c + 1` otherwise. -/
theorem halfmove_clock_step (q : QBB) (m : Move) (c : Nat)
    (hlo : clockLo q.epc = c) (hhi : clockHi q.epc = c) (hc : c ≤ 126)
    (hfrom : q.getPieceCode (getMoveInfo fromMask m) ≠ 0) :
    ((q.getPieceCode (getMoveInfo fromMask m) = pieceCode PieceKind.pawns ∨
        q.getPieceCode (getMoveInfo toMask m) ≠ 0) →
      clockLo (q.makeMove m).epc = 0 ∧ clockHi (q.makeMove m).epc = 0) ∧
    (¬ (q.getPieceCode (getMoveInfo fromMask m) = pieceCode PieceKind.pawns ∨
        q.getPieceCode (getMoveInfo toMask m) ≠ 0) →
      clockLo (q.makeMove m).epc = c + 1 ∧ clockHi (q.makeMove m).epc = c + 1) := by
  obtain ⟨h1, h2⟩ := makeMove_clock q m (by omega) (by omega) hfrom
  rw [h1, h2, hlo, hhi]
  simp only [pieceCode]
  constructor
  · intro h
    have hn : ¬ (q.getPieceCode (getMoveInfo toMask m) = 0 ∧
        q.getPieceCode (getMoveInfo fromMask m) ≠ 1) := by
      rintro ⟨a, b⟩
      rcases h with h | h
      · exact b h
      · exact h a
    rw [if_neg hn]
    exact ⟨rfl, rfl⟩
  · intro h
    have hp : q.getPieceCode (getMoveInfo toMask m) = 0 ∧
        q.getPieceCode (getMoveInfo fromMask m) ≠ 1 := by
      constructor
      · by_contra a
        exact h (Or.inr a)
      · intro b
        exact h (Or.inl b)
    rw [if_pos hp]
    exact ⟨rfl, rfl⟩

/-- C6, at scenarios S1 and S2: from a position with clock 0, e2e4 gives clock 0 and
g1f3 gives clock 1. -/
theorem halfmove_clock_step_witness :
    (clockLo (startPos.makeMove 1804).epc = 0 ∧ clockHi (startPos.makeMove 1804).epc = 0) ∧
    (clockLo (startPos.makeMove 1350).epc = 0 + 1 ∧
      clockHi (startPos.makeMove 1350).epc = 0 + 1) ∧
    (QBB.ofFen "rnbqkbnr/pppp1ppp/8/4p3/4P3/8/PPPP1PPP/RNBQKBNR w KQkq - 0 2" true).map
        (fun p => p.makeMove 1350) =
      QBB.ofFen "rnbqkbnr/pppp1ppp/8/4p3/4P3/5N2/PPPP1PPP/RNBQKB1R b KQkq - 1 2" true :=
  ⟨(halfmove_clock_step startPos 1804 0 (by decide) (by decide) (by decide) (by decide)).1
      (by decide),
    (halfmove_clock_step startPos 1350 0 (by decide) (by decide) (by decide) (by decide)).2
      (by decide),
    by decide⟩

theorem clockStep_low (epc toPc fromPc j : Nat) (hj : j < 24) :
    (clockStep epc toPc fromPc).testBit j = epc.testBit j := by
  have hd : (2 : Nat) ^ 24 ∣ 2 ^ 64 := Nat.pow_dvd_pow 2 (by norm_num)
  have h0 : (2 : Nat) ^ 24 ∣ (0x101000000 + (epc &&& counter50)) := by
    rw [clock_and]
    exact ⟨257 + clockLo epc + clockHi epc * 2 ^ 8, by ring⟩
  have h1 := (Nat.dvd_mod_iff hd).mpr h0
  have h2 := (Nat.dvd_mod_iff hd).mpr (Dvd.dvd.mul_right h1 ((1 >>> toPc) % 2 ^ 32))
  have h3 := (Nat.dvd_mod_iff hd).mpr
    (Dvd.dvd.mul_right h2 ((1 + 2 ^ 32 - (2 >>> fromPc) % 2 ^ 32) % 2 ^ 32))
  obtain ⟨k, hk⟩ := h3
  have hs : (0x8080000000 : Nat).testBit j = false := by
    rw [testBit_sentinel]; apply decide_eq_false; omega
  have hlow : ∀ x : Nat, x.testBit j = (x % 2 ^ 24).testBit j := by
    intro x; rw [Nat.testBit_mod_two_pow]; simp [hj]
  unfold clockStep
  simp only [Nat.testBit_xor, hs, Bool.xor_false]
  rw [hk, Nat.testBit_mod_two_pow, hlow (2 ^ 24 * k + (epc &&& not64 counter50)),
    Nat.mul_add_mod, ← hlow, testBit_rest]
  have e1 : ¬ ((24 ≤ j ∧ j < 31) ∨ (32 ≤ j ∧ j < 39)) := by omega
  have e2 : j < 64 := by omega
  simp [e1, e2]

theorem testBit_pushWord (F T i : Nat) :
    (rank3 &&& shl64 (setbit F) 8 &&& (setbit T >>> 8)).testBit i =
      decide (16 ≤ i ∧ i < 24 ∧ F + 8 = i ∧ T = i + 8) := by
  simp only [Nat.testBit_and, testBit_rank3, shl64, Nat.testBit_mod_two_pow,
    Nat.testBit_shiftLeft, testBit_setbit, Nat.testBit_shiftRight]
  rw [Bool.eq_iff_iff]
  simp only [Bool.and_eq_true, decide_eq_true_eq]
  omega

theorem testBit_enPassantWord (F T fromPc j : Nat) (h1 : fromPc ≠ 0) (h7 : fromPc ≤ 7)
    (hj : 16 ≤ j ∧ j < 24) :
    (enPassantWord F T fromPc).testBit j = decide (fromPc = 1 ∧ F + 8 = j ∧ T = j + 8) := by
  have hcnt : (8 * ((fromPc + 2 ^ 32 - 1) % 2 ^ 32)) % 2 ^ 32 % 64 = 8 * (fromPc - 1) := by
    omega
  unfold enPassantWord
  rw [shl64, hcnt]
  simp only [Nat.testBit_mod_two_pow, Nat.testBit_shiftLeft, testBit_pushWord]
  rw [Bool.eq_iff_iff]
  simp only [Bool.and_eq_true, decide_eq_true_eq]
  omega

theorem getPieceCode_le (q : QBB) (s : Nat) (hs : s < 64) : q.getPieceCode s ≤ 7 := by
  rw [getPieceCode_bits q s hs]
  cases q.pbq.testBit s <;> cases q.nbk.testBit s <;> cases q.rqk.testBit s <;> decide

theorem testBit_byteAt (x k i : Nat) :
    (byteAt x k).testBit i = (x.testBit (8 * k + i) && decide (i < 8)) := by
  have h : (0xFF : Nat) = 2 ^ 8 - 1 := by norm_num
  simp only [byteAt, Nat.testBit_and, Nat.testBit_shiftRight, h, Nat.testBit_two_pow_sub_one]

theorem flip_enp : ∀ i, i < 8 → flip (8 * 5 + i) = 16 + i := by
  unfold flip; decide

theorem makeMove_enpByte (q : QBB) (m : Move) (hzero : byteAt q.epc 2 = 0)
    (hfrom : q.getPieceCode (getMoveInfo fromMask m) ≠ 0) :
    byteAt (q.makeMove m).epc 5 =
      if q.getPieceCode (getMoveInfo fromMask m) = pieceCode PieceKind.pawns ∧
          rank (getMoveInfo fromMask m) = 1 ∧
          getMoveInfo toMask m = getMoveInfo fromMask m + 16
      then setbit (file (getMoveInfo toMask m)) else 0 := by
  have h7 := getPieceCode_le q _ (getMoveInfo_from_lt m)
  rw [makeMove_epc]
  simp only [pieceCode, rank, file]
  generalize getMoveInfo fromMask m = F at *
  generalize getMoveInfo toMask m = T at *
  generalize q.getPieceCode T = toPc at *
  generalize q.getPieceCode F = fromPc at *
  apply Nat.eq_of_testBit_eq
  intro i
  rw [testBit_byteAt]
  have hz : ∀ i, i < 8 → q.epc.testBit (16 + i) = false := by
    intro i hi
    have h := congrArg (fun x => x.testBit i) hzero
    simp only [testBit_byteAt, Nat.zero_testBit, hi, decide_True, Bool.and_true] at h
    exact h
  have hrhs : (if fromPc = 1 ∧ F / 8 = 1 ∧ T = F + 16 then setbit (T % 8) else 0).testBit i =
      decide (fromPc = 1 ∧ F / 8 = 1 ∧ T = F + 16 ∧ i = T % 8) := by
    by_cases hc : fromPc = 1 ∧ F / 8 = 1 ∧ T = F + 16
    · rw [if_pos hc, testBit_setbit, Bool.eq_iff_iff]
      simp only [Bool.and_eq_true, decide_eq_true_eq]
      omega
    · rw [if_neg hc, Nat.zero_testBit]
      symm; apply decide_eq_false
      intro h; exact hc ⟨h.1, h.2.1, h.2.2.1⟩
  rw [hrhs]
  by_cases hi : i < 8
  · rw [testBit_byteswap_at _ _ (by omega), flip_enp i hi, testBit_epcStep,
      clockStep_low _ _ _ _ (by omega), hz i hi,
      testBit_enPassantWord F T fromPc (16 + i) hfrom h7 (by omega)]
    rw [Bool.eq_iff_iff]
    simp only [Bool.and_eq_true, Bool.or_eq_true, decide_eq_true_eq, Bool.false_and,
      Bool.false_eq_true, false_or]
    omega
  · simp only [hi, decide_False, Bool.and_false]
    symm; apply decide_eq_false
    omega

/-- C7: for a position whose `epc` byte 2 (bits 16–23) is zero and a move whose
from-square is occupied, after `makeMove` byte 5 of `epc` (bits 40–47) holds exactly the
bit of the file of the to-square if the moving piece is a pawn, the from-square is on
rank index 1 and `to = from + 16`, and is zero in every other case, whatever byte 5 held
before and whatever the other piece kinds do. -/
theorem enPassant_target (q : QBB) (m : Move) (hzero : byteAt q.epc 2 = 0)
    (hfrom : q.getPieceCode (getMoveInfo fromMask m) ≠ 0) :
    byteAt (q.makeMove m).epc 5 =
      if q.getPieceCode (getMoveInfo fromMask m) = pieceCode PieceKind.pawns ∧
          rank (getMoveInfo fromMask m) = 1 ∧
          getMoveInfo toMask m = getMoveInfo fromMask m + 16
      then setbit (file (getMoveInfo toMask m)) else 0 :=
  makeMove_enpByte q m hzero hfrom

/-- C7, at scenario S1: e2e4 from the start position sets the e-file bit of byte 5 and
yields the same five words as parsing the FEN of the resulting position. -/
theorem enPassant_target_witness :
    byteAt (startPos.makeMove 1804).epc 5 =
      (if startPos.getPieceCode (getMoveInfo fromMask 1804) = pieceCode PieceKind.pawns ∧
          rank (getMoveInfo fromMask 1804) = 1 ∧
          getMoveInfo toMask 1804 = getMoveInfo fromMask 1804 + 16
        then setbit (file (getMoveInfo toMask 1804)) else 0) ∧
    byteAt (startPos.makeMove 1804).epc 5 = setbit 4 ∧
    QBB.ofFen "rnbqkbnr/pppppppp/8/8/8/8/PPPPPPPP/RNBQKBNR w KQkq - 0 1" true = some startPos ∧
    some (startPos.makeMove 1804) =
      QBB.ofFen "rnbqkbnr/pppppppp/8/8/4P3/8/PPPP1PPP/RNBQKBNR b KQkq e3 0 1" true :=
  ⟨enPassant_target startPos 1804 (by decide) (by decide), by decide, by decide, by decide⟩

theorem clockStep_high (epc toPc fromPc j : Nat) (hlo : clockLo epc ≤ 126)
    (hhi : clockHi epc ≤ 126) (hfrom : fromPc ≠ 0) (hj : 56 ≤ j ∧ j < 64) :
    (clockStep epc toPc fromPc).testBit j = epc.testBit j := by
  rw [clockStep_eq _ _ _ hlo hhi hfrom, Nat.testBit_xor, testBit_sentinel, Nat.testBit_or,
    testBit_rest]
  have e1 : ¬ (j = 31 ∨ j = 39) := by omega
  have e2 : ¬ ((24 ≤ j ∧ j < 31) ∨ (32 ≤ j ∧ j < 39)) := by omega
  have e3 : j < 64 := by omega
  have e4 : ¬ (32 ≤ j ∧ j < 39) := by omega
  have e5 : ¬ (24 ≤ j ∧ j < 31) := by omega
  by_cases hc : toPc = 0 ∧ fromPc ≠ 1
  · rw [if_pos hc, testBit_slots _ _ _ (by omega : clockLo epc + 1 < 128)
      (by omega : clockHi epc + 1 < 128)]
    simp [e1, e2, e3, e4, e5]
  · rw [if_neg hc]
    simp [e1, e2, e3]

theorem testBit_castlingBits (x j : Nat) :
    (castlingBits x).testBit j = (x.testBit j && decide (j < 8 ∨ (56 ≤ j ∧ j < 64))) := by
  have h : ∀ j, (0xFF000000000000FF : Nat).testBit j = decide (j < 8 ∨ (56 ≤ j ∧ j < 64)) := by
    intro j
    by_cases hj : j < 64
    · revert j; decide
    · rw [testBit_high _ j (by decide) hj]
      symm; apply decide_eq_false; omega
  rw [castlingBits, Nat.testBit_and, h]

theorem byteswap_lt (x : Nat) : byteswap_uint64 x < 2 ^ 64 := by
  apply Nat.lt_pow_two_of_testBit
  intro j hj
  have e0 : x &&& 0xFF = ((x >>> 0) &&& 0xFF) := by simp
  have e7 : (x >>> 56) &&& 0xFF = (((x >>> 56) &&& 0xFF) <<< 0) := by simp
  unfold byteswap_uint64
  rw [e7]
  nth_rewrite 1 [e0]
  simp only [Nat.testBit_or, testBit_byte]
  have h1 : ¬ (j < 56 + 8) := by omega
  have h2 : ¬ (j < 48 + 8) := by omega
  have h3 : ¬ (j < 40 + 8) := by omega
  have h4 : ¬ (j < 32 + 8) := by omega
  have h5 : ¬ (j < 24 + 8) := by omega
  have h6 : ¬ (j < 16 + 8) := by omega
  have h7 : ¬ (j < 8 + 8) := by omega
  have h8 : ¬ (j < 0 + 8) := by omega
  simp [h1, h2, h3, h4, h5, h6, h7, h8]

theorem flip_backRank : ∀ s, s < 64 →
    ((flip s < 8 ∨ (56 ≤ flip s ∧ flip s < 64)) ↔ (s < 8 ∨ (56 ≤ s ∧ s < 64))) := by
  unfold flip; decide

/-- The castling bytes of the auxiliary word, square by square, after `makeMove`. -/
theorem makeMove_castling_bit (q : QBB) (m : Move) (hlo : clockLo q.epc ≤ 126)
    (hhi : clockHi q.epc ≤ 126) (hfrom : q.getPieceCode (getMoveInfo fromMask m) ≠ 0)
    (s : Nat) (hs : s < 64) (hb : s < 8 ∨ (56 ≤ s ∧ s < 64)) :
    (q.makeMove m).epc.testBit (flip s) =
      (q.epc.testBit s && !decide (s = getMoveInfo fromMask m) &&
        !decide (s = getMoveInfo toMask m)) := by
  rw [makeMove_epc, testBit_byteswap _ _ hs, testBit_epcStep]
  generalize getMoveInfo fromMask m = F at *
  generalize getMoveInfo toMask m = T at *
  generalize q.getPieceCode T = toPc at *
  generalize q.getPieceCode F = fromPc at *
  have hX : (clockStep q.epc toPc fromPc).testBit s = q.epc.testBit s := by
    rcases hb with hb | hb
    · exact clockStep_low _ _ _ _ (by omega)
    · exact clockStep_high _ _ _ _ hlo hhi hfrom hb
  rw [hX]
  have e1 : ¬ (40 ≤ s ∧ s < 48) := by omega
  have e2 : ¬ (16 ≤ s ∧ s < 24) := by omega
  have hb2 : s < 8 ∨ 56 ≤ s := by omega
  have e3 : ¬ (40 ≤ s) ∨ ¬ (s < 48) := by omega
  have e4 : ¬ (16 ≤ s) ∨ ¬ (s < 24) := by omega
  by_cases h1 : F = s
  · have h1b : s = F := h1.symm
    by_cases h2 : T = s
    · have h2b : s = T := h2.symm
      simp [h1, h2, hs, hb, hb2, e1, e2]
    · have h2b : ¬ (s = T) := fun h => h2 h.symm
      simp [h1, h2, h2b, hs, hb, hb2, e1, e2]
  · have h1b : ¬ (s = F) := fun h => h1 h.symm
    by_cases h2 : T = s
    · have h2b : s = T := h2.symm
      simp [h1, h1b, h2, hs, hb, hb2, e1, e2]
    · have h2b : ¬ (s = T) := fun h => h2 h.symm
      simp [h1, h1b, h2, h2b, hs, hb, hb2, e1, e2]

/-- C8, as stated, fails: with bytes 4, 5 and 6 of `epc` all ones (clock slot 127 and the
sentinel above it) and no castling bit set, the quiet move g1f3 carries out of the clock
addition into byte 7, and a castling bit appears on a square the move does not touch. -/
theorem castling_revocation_counterexample :
    getMoveInfo moveTypeMask 1350 ≤ 7 ∧
    (QBB.mk startPos.side startPos.pbq startPos.nbk startPos.rqk
        0x00FFFFFF00000000).getPieceCode (getMoveInfo fromMask 1350) ≠ 0 ∧
    castlingBits 0x00FFFFFF00000000 = 0 ∧
    castlingBits ((QBB.mk startPos.side startPos.pbq startPos.nbk startPos.rqk
        0x00FFFFFF00000000).makeMove 1350).epc = 1 ∧
    castlingBits ((QBB.mk startPos.side startPos.pbq startPos.nbk startPos.rqk
        0x00FFFFFF00000000).makeMove 1350).epc ≠
      byteswap_uint64 ((castlingBits 0x00FFFFFF00000000 &&&
        not64 (setbit (getMoveInfo fromMask 1350))) &&&
        not64 (setbit (getMoveInfo toMask 1350))) := by
  decide

/-- C8 (amended): for a position whose two clock slots hold values ≤ 126 and a move
whose from-square is occupied, the castling bits of `epc` after `makeMove` (bytes 0 and
7) are the byte swap of the castling bits before with the bits at `from` and at `to`
cleared and every other bit unchanged; so a piece leaving or landing on a back-rank
square clears that square's bit and a move touching no such square revokes nothing. -/
theorem castling_revocation (q : QBB) (m : Move) (hlo : clockLo q.epc ≤ 126)
    (hhi : clockHi q.epc ≤ 126) (hfrom : q.getPieceCode (getMoveInfo fromMask m) ≠ 0) :
    castlingBits (q.makeMove m).epc =
        byteswap_uint64 ((castlingBits q.epc &&& not64 (setbit (getMoveInfo fromMask m))) &&&
          not64 (setbit (getMoveInfo toMask m))) ∧
      (∀ s, s < 64 → (s < 8 ∨ (56 ≤ s ∧ s < 64)) →
        (q.makeMove m).epc.testBit (flip s) =
          (q.epc.testBit s && !decide (s = getMoveInfo fromMask m) &&
            !decide (s = getMoveInfo toMask m))) := by
  refine ⟨?_, fun s hs hb => makeMove_castling_bit q m hlo hhi hfrom s hs hb⟩
  apply Nat.eq_of_testBit_eq
  intro j
  by_cases hj : j < 64
  · have hs := flip_lt j hj
    have hb := flip_backRank j hj
    rw [testBit_castlingBits, testBit_byteswap_at _ _ hj]
    simp only [Nat.testBit_and, testBit_castlingBits, testBit_not64, testBit_setbit]
    by_cases hm : j < 8 ∨ (56 ≤ j ∧ j < 64)
    · have hm2 := hb.mpr hm
      have h := makeMove_castling_bit q m hlo hhi hfrom (flip j) hs hm2
      rw [flip_flip j hj] at h
      rw [h]
      generalize getMoveInfo fromMask m = F
      generalize getMoveInfo toMask m = T
      have hm3 : j < 8 ∨ 56 ≤ j := by omega
      have hm4 : flip j < 8 ∨ 56 ≤ flip j := by omega
      by_cases h1 : F = flip j
      · have h1b : flip j = F := h1.symm
        by_cases h2 : T = flip j
        · have h2b : flip j = T := h2.symm
          simp [h1, h2, hm, hm2, hm3, hm4, hs]
        · have h2b : ¬ (flip j = T) := fun h => h2 h.symm
          simp [h1, h2, h2b, hm, hm2, hm3, hm4, hs]
      · have h1b : ¬ (flip j = F) := fun h => h1 h.symm
        by_cases h2 : T = flip j
        · have h2b : flip j = T := h2.symm
          simp [h1, h1b, h2, hm, hm2, hm3, hm4, hs]
        · have h2b : ¬ (flip j = T) := fun h => h2 h.symm
          simp [h1, h1b, h2, h2b, hm, hm2, hm3, hm4, hs]
    · have hm2 : ¬ (flip j < 8 ∨ (56 ≤ flip j ∧ flip j < 64)) := fun h => hm (hb.mp h)
      simp [hm, hm2]
  · rw [testBit_castlingBits, testBit_high _ j (byteswap_lt _) hj]
    have hm : ¬ (j < 8 ∨ (56 ≤ j ∧ j < 64)) := by omega
    simp [hm]

/-- C8 (amended), at an instance: e2e4 from the start position revokes nothing, and the
kingside castle from `r3k2r/8/8/8/8/8/8/R3K2R w KQkq - 0 1` clears the e1 bit only. -/
theorem castling_revocation_witness :
    (castlingBits (startPos.makeMove 1804).epc =
        byteswap_uint64 ((castlingBits startPos.epc &&&
          not64 (setbit (getMoveInfo fromMask 1804))) &&&
          not64 (setbit (getMoveInfo toMask 1804))) ∧
      (∀ s, s < 64 → (s < 8 ∨ (56 ≤ s ∧ s < 64)) →
        (startPos.makeMove 1804).epc.testBit (flip s) =
          (startPos.epc.testBit s && !decide (s = getMoveInfo fromMask 1804) &&
            !decide (s = getMoveInfo toMask 1804)))) ∧
    castlingBits (startPos.makeMove 1804).epc = byteswap_uint64 (castlingBits startPos.epc) ∧
    castlingBits (castlePos.makeMove 8580).epc = 0x8100000000000091 :=
  ⟨castling_revocation startPos 1804 (by decide) (by decide) (by decide), by decide,
    by decide⟩

theorem bit_eq_testBit (w s : Nat) : (w >>> s) &&& 1 = (w.testBit s).toNat := by
  rw [Nat.and_one_is_mod, Nat.shiftRight_eq_div_pow, Nat.toNat_testBit]

/-- C10: for all words `side`, `pbq`, `nbk`, `rqk` and every square `s` in 0..63, the
vector-shift, movemask and `pext` realization of `getPieceType` equals the four-shifts
reference `side_bit + 2 * pbq_bit + 4 * nbk_bit + 8 * rqk_bit` with
`w_bit = (w >> s) & 1`; so it is 0 on a square with no bit set, odd on a square whose
side bit is set, and even and non-zero on an occupied square whose side bit is clear. -/
theorem getPieceType_refines (side pbq nbk rqk epc s : Nat) (hs : s < 64) :
    (QBB.mk side pbq nbk rqk epc).getPieceType s = getPieceTypeRef side pbq nbk rqk s ∧
    (((side >>> s) &&& 1 = 0 ∧ (pbq >>> s) &&& 1 = 0 ∧ (nbk >>> s) &&& 1 = 0 ∧
        (rqk >>> s) &&& 1 = 0) →
      (QBB.mk side pbq nbk rqk epc).getPieceType s = 0) ∧
    ((side >>> s) &&& 1 = 1 → (QBB.mk side pbq nbk rqk epc).getPieceType s % 2 = 1) ∧
    ((side >>> s) &&& 1 = 0 →
      ((pbq >>> s) &&& 1 = 1 ∨ (nbk >>> s) &&& 1 = 1 ∨ (rqk >>> s) &&& 1 = 1) →
      (QBB.mk side pbq nbk rqk epc).getPieceType s % 2 = 0 ∧
        (QBB.mk side pbq nbk rqk epc).getPieceType s ≠ 0) := by
  rw [getPieceType_bits _ s hs]
  simp only [getPieceTypeRef, bit_eq_testBit]
  cases side.testBit s <;> cases pbq.testBit s <;> cases nbk.testBit s <;>
    cases rqk.testBit s <;> simp

/-- C10, at an instance: the own knight on g1 and the opponent queen on d8 of the start
position. -/
theorem getPieceType_refines_witness :
    ((QBB.mk 0xFFFF 0x2CFF00000000FF2C 0x7600000000000076 0x9900000000000099
        0x9100008080000091).getPieceType 6 =
      getPieceTypeRef 0xFFFF 0x2CFF00000000FF2C 0x7600000000000076 0x9900000000000099 6) ∧
    (QBB.mk 0xFFFF 0x2CFF00000000FF2C 0x7600000000000076 0x9900000000000099
        0x9100008080000091).getPieceType 6 = myPiece PieceKind.knights ∧
    (QBB.mk 0xFFFF 0x2CFF00000000FF2C 0x7600000000000076 0x9900000000000099
        0x9100008080000091).getPieceType 59 = theirPiece PieceKind.queens :=
  ⟨(getPieceType_refines 0xFFFF 0x2CFF00000000FF2C 0x7600000000000076 0x9900000000000099
      0x9100008080000091 6 (by decide)).1, by decide, by decide⟩

/-! ## The FEN constructor field by field -/

theorem ofFen_eq (fen : String) (b : Bool) :
    QBB.ofFen fen b =
      (do
        let splitfen := splitString fen.toList ' '
        let placement ← splitfen[0]?
        let active ← splitfen[1]?
        let ranks ← (List.range 8).mapM (fun i => (splitString placement '/')[i]?)
        let castling ← splitfen[2]?
        let enp ← splitfen[3]?
        let q := fenBoard active ranks castling enp
        if b then
          let clock ← splitfen[4]?
          let n ← stoi clock
          pure (fenClock q n)
        else pure q) := by
  rfl

theorem ofFen_fields (fen : String) (b : Bool) (q : QBB)
    (placement active castling enp : List Char) (rest : List (List Char))
    (hs : splitString fen.toList ' ' = placement :: active :: castling :: enp :: rest)
    (h : QBB.ofFen fen b = some q) :
    ∃ ranks, (List.range 8).mapM (fun i => (splitString placement '/')[i]?) = some ranks ∧
      (b = false → q = fenBoard active ranks castling enp) ∧
      (b = true → ∃ clock n, rest[0]? = some clock ∧ stoi clock = some n ∧
        q = fenClock (fenBoard active ranks castling enp) n) := by
  rw [ofFen_eq] at h
  simp only [hs, List.getElem?_cons_zero, List.getElem?_cons_succ, Option.bind_eq_bind,
    Option.some_bind, bind_pure_comp] at h
  cases hm : (List.range 8).mapM (fun i => (splitString placement '/')[i]?) with
  | none => rw [hm] at h; simp at h
  | some ranks =>
    rw [hm] at h
    refine ⟨ranks, rfl, ?_, ?_⟩
    · intro hb
      subst hb
      simp at h
      exact h.symm
    · intro hb
      subst hb
      simp only [Option.some_bind, if_true] at h
      cases hc : rest[0]? with
      | none => rw [hc] at h; simp at h
      | some clock =>
        rw [hc] at h
        cases hn : stoi clock with
        | none => simp [hn] at h
        | some n =>
          refine ⟨clock, n, rfl, hn, ?_⟩
          simp [hn] at h
          exact h.symm

theorem isPiece_kind :
    ∀ c ∈ "KQRBNPkqrbnp".toList,
      (makeSquare c).2 ≠ PieceKind.other ∧
        (pbqOf (makeSquare c).2 || nbkOf (makeSquare c).2 || rqkOf (makeSquare c).2) = true ∧
        ¬ (pbqOf (makeSquare c).2 = true ∧ nbkOf (makeSquare c).2 = true ∧
          rqkOf (makeSquare c).2 = true) := by
  decide

theorem isPiece_mem (j : Char) (h : isPiece j = true) : j ∈ "KQRBNPkqrbnp".toList := by
  unfold isPiece at h
  exact List.mem_of_elem_eq_true h

theorem placeChar_piece (w : Bool) (i : Nat) (p : Placement) (j : Char)
    (h : isPiece j = true) :
    placeChar w i p j =
      { side := if w = (makeSquare j).1 then p.side ||| setbit (index (7 - i) p.currFile)
                else p.side
        pbq := if pbqOf (makeSquare j).2 then p.pbq ||| setbit (index (7 - i) p.currFile)
               else p.pbq
        nbk := if nbkOf (makeSquare j).2 then p.nbk ||| setbit (index (7 - i) p.currFile)
               else p.nbk
        rqk := if rqkOf (makeSquare j).2 then p.rqk ||| setbit (index (7 - i) p.currFile)
               else p.rqk
        currFile := incFile p.currFile 1 } := by
  unfold placeChar
  rw [if_pos h]
  generalize makeSquare j = ck
  obtain ⟨c, k⟩ := ck
  cases k <;> by_cases hw : w = c <;> simp [hw, pbqOf, nbkOf, rqkOf]

theorem placeChar_number (w : Bool) (i : Nat) (p : Placement) (j : Char)
    (h : isPiece j = false) (hn : isNumber j = true) :
    placeChar w i p j = { p with currFile := incFile p.currFile (j.toNat - '0'.toNat) } := by
  unfold placeChar
  simp [h, hn]

theorem placeChar_other (w : Bool) (i : Nat) (p : Placement) (j : Char)
    (h : isPiece j = false) (hn : isNumber j = false) :
    placeChar w i p j = p := by
  unfold placeChar
  simp [h, hn]

theorem foldl_preserves {α β : Type} (P : β → Prop) (f : β → α → β)
    (hf : ∀ b a, P b → P (f b a)) : ∀ (l : List α) (b : β), P b → P (l.foldl f b) := by
  intro l
  induction l with
  | nil => intro b hb; exact hb
  | cons a l ih => intro b hb; exact ih (f b a) (hf b a hb)

theorem placeChar_occupied (w : Bool) (i : Nat) (p : Placement) (j : Char)
    (h : ∀ s, p.side.testBit s = true →
      (p.pbq.testBit s || p.nbk.testBit s || p.rqk.testBit s) = true) :
    ∀ s, (placeChar w i p j).side.testBit s = true →
      ((placeChar w i p j).pbq.testBit s || (placeChar w i p j).nbk.testBit s ||
        (placeChar w i p j).rqk.testBit s) = true := by
  intro s
  by_cases hp : isPiece j = true
  · rw [placeChar_piece w i p j hp]
    have hk := (isPiece_kind j (isPiece_mem j hp)).2.1
    have hs := h s
    generalize (makeSquare j).2 = k at hk ⊢
    generalize (makeSquare j).1 = c
    generalize setbit (index (7 - i) p.currFile) = b
    cases hS : p.side.testBit s <;> cases hb : b.testBit s <;>
      cases hP : pbqOf k <;> cases hN : nbkOf k <;> cases hR : rqkOf k <;>
      by_cases hw : w = c <;>
      simp [hw, hP, hN, hR, hS, hb, Nat.testBit_or] at hk hs ⊢ <;> exact hs
  · have hp2 : isPiece j = false := by simpa using hp
    by_cases hn : isNumber j = true
    · rw [placeChar_number w i p j hp2 hn]
      exact h s
    · have hn2 : isNumber j = false := by simpa using hn
      rw [placeChar_other w i p j hp2 hn2]
      exact h s

theorem fenPlacement_occupied (w : Bool) (ranks : List (List Char)) :
    ∀ s, (fenPlacement w ranks).side.testBit s = true →
      ((fenPlacement w ranks).pbq.testBit s || (fenPlacement w ranks).nbk.testBit s ||
        (fenPlacement w ranks).rqk.testBit s) = true := by
  unfold fenPlacement
  apply foldl_preserves (fun p : Placement => ∀ s, p.side.testBit s = true →
      (p.pbq.testBit s || p.nbk.testBit s || p.rqk.testBit s) = true)
  · intro p i hp
    exact foldl_preserves _ _ (fun b a hb => placeChar_occupied w i b a hb) _ p hp
  · intro s hs
    simp at hs

theorem testBit_byteswap_any (x j : Nat) :
    (byteswap_uint64 x).testBit j = (decide (j < 64) && x.testBit (flip j)) := by
  by_cases hj : j < 64
  · rw [testBit_byteswap_at x j hj]; simp [hj]
  · rw [testBit_high _ j (byteswap_lt x) hj]; simp [hj]

theorem subset_of_bits (a b : Nat) (h : ∀ s, a.testBit s = true → b.testBit s = true) :
    a &&& b = a := by
  apply Nat.eq_of_testBit_eq
  intro s
  rw [Nat.testBit_and]
  cases ha : a.testBit s
  · simp
  · simp [h s ha]

theorem fenBoard_occupied (active : List Char) (ranks : List (List Char))
    (castling enp : List Char) :
    ∀ s, (fenBoard active ranks castling enp).side.testBit s = true →
      ((fenBoard active ranks castling enp).pbq.testBit s ||
        (fenBoard active ranks castling enp).nbk.testBit s ||
        (fenBoard active ranks castling enp).rqk.testBit s) = true := by
  intro s
  have h := fenPlacement_occupied (decide (active = ['w'])) ranks
  unfold fenBoard
  by_cases hw : active = ['w']
  · simp only [hw, decide_True, if_true]
    simpa [hw] using h s
  · simp only [hw, decide_False, Bool.false_eq_true, if_false, QBB.flipQBB,
      testBit_byteswap_any]
    intro hs
    have h2 := h (flip s)
    simp only [hw, decide_False] at h2
    simp only [Bool.and_eq_true, decide_eq_true_eq] at hs
    simp [hs.1, h2 hs.2]

theorem rowBit_replicate (pred : Char → Bool) (rest : List (Option Char)) (col : Nat) :
    ∀ (d c0 : Nat), rowBit pred (List.replicate d none ++ rest) c0 col =
      rowBit pred rest (c0 + d) col := by
  intro d
  induction d with
  | zero => intro c0; simp
  | succ d ih =>
    intro c0
    rw [List.replicate_succ, List.cons_append, rowBit, ih (c0 + 1)]
    simp [cellHas]
    congr 1
    omega

theorem rowBit_get (pred : Char → Bool) (col : Nat) :
    ∀ (cells : List (Option Char)) (c0 : Nat),
      rowBit pred cells c0 col = (decide (c0 ≤ col) && cellHas pred cells[col - c0]?) := by
  intro cells
  induction cells with
  | nil => intro c0; simp [rowBit, cellHas]
  | cons o rest ih =>
    intro c0
    rw [rowBit, ih (c0 + 1)]
    by_cases h1 : col = c0
    · subst h1
      simp
    · by_cases h2 : c0 ≤ col
      · have h3 : c0 + 1 ≤ col := by omega
        have h4 : col - c0 = (col - (c0 + 1)) + 1 := by omega
        rw [h4, List.getElem?_cons_succ]
        simp [h1, h2, h3]
      · have h3 : ¬ (c0 + 1 ≤ col) := by omega
        simp [h1, h2, h3]

theorem setbit_index (r c s : Nat) (hc : c < 8) :
    (setbit (index r c)).testBit s =
      (decide (s < 64) && decide (s / 8 = r) && decide (s % 8 = c)) := by
  rw [testBit_setbit, index, Bool.eq_iff_iff]
  simp only [Bool.and_eq_true, decide_eq_true_eq]
  omega

theorem rowBit_nil_of_length (pred : Char → Bool) (cells : List (Option Char))
    (h : cells.length = 0) (c0 c1 col : Nat) :
    rowBit pred cells c0 col = rowBit pred cells c1 col := by
  have h2 : cells = [] := List.length_eq_zero.mp h
  subst h2
  rfl

theorem row_fold (w : Bool) (i : Nat) :
    ∀ (cs : List Char) (p : Placement), p.currFile < 8 →
      p.currFile + (expandRank cs).length ≤ 8 →
      (cs.foldl (placeChar w i) p).currFile = (p.currFile + (expandRank cs).length) % 8 ∧
      ∀ s,
        ((cs.foldl (placeChar w i) p).side.testBit s =
          (p.side.testBit s ||
            rowAt (fun c => decide (w = (makeSquare c).1)) i (expandRank cs) p.currFile s)) ∧
        ((cs.foldl (placeChar w i) p).pbq.testBit s =
          (p.pbq.testBit s ||
            rowAt (fun c => pbqOf (makeSquare c).2) i (expandRank cs) p.currFile s)) ∧
        ((cs.foldl (placeChar w i) p).nbk.testBit s =
          (p.nbk.testBit s ||
            rowAt (fun c => nbkOf (makeSquare c).2) i (expandRank cs) p.currFile s)) ∧
        ((cs.foldl (placeChar w i) p).rqk.testBit s =
          (p.rqk.testBit s ||
            rowAt (fun c => rqkOf (makeSquare c).2) i (expandRank cs) p.currFile s)) := by
  intro cs
  induction cs with
  | nil =>
    intro p hp _
    refine ⟨?_, fun s => ?_⟩
    · simp [expandRank, Nat.mod_eq_of_lt hp]
    · simp [expandRank, rowAt, rowBit]
  | cons j cs ih =>
    intro p hp hlen
    rw [List.foldl_cons]
    by_cases hpc : isPiece j = true
    · have hE : expandRank (j :: cs) = some j :: expandRank cs := by
        simp [expandRank, hpc]
      rw [hE] at hlen ⊢
      simp only [List.length_cons] at hlen ⊢
      have hcur : (placeChar w i p j).currFile = (p.currFile + 1) % 8 := by
        rw [placeChar_piece w i p j hpc, incFile]
      obtain ⟨ih1, ih2⟩ := ih (placeChar w i p j) (by rw [hcur]; exact Nat.mod_lt _ (by norm_num))
        (by rw [hcur]; omega)
      refine ⟨by rw [ih1, hcur]; omega, fun s => ?_⟩
      obtain ⟨i1, i2, i3, i4⟩ := ih2 s
      have hrow : ∀ pred, rowAt pred i (expandRank cs) (placeChar w i p j).currFile s =
          rowAt pred i (expandRank cs) (p.currFile + 1) s := by
        intro pred
        rw [hcur]
        by_cases h8 : p.currFile + 1 < 8
        · rw [Nat.mod_eq_of_lt h8]
        · unfold rowAt
          rw [rowBit_nil_of_length pred _ (by omega) _ (p.currFile + 1)]
      rw [i1, i2, i3, i4, hrow, hrow, hrow, hrow]
      rw [placeChar_piece w i p j hpc]
      simp only [rowAt, rowBit, cellHas]
      have hb := setbit_index (7 - i) p.currFile s hp
      generalize setbit (index (7 - i) p.currFile) = b at hb ⊢
      refine ⟨?_, ?_, ?_, ?_⟩
      · by_cases hw : w = (makeSquare j).1 <;>
          simp only [hw, if_true, if_false, Nat.testBit_or, hb, decide_True, decide_False] <;>
          cases p.side.testBit s <;> cases decide (s < 64) <;> cases decide (s / 8 = 7 - i) <;>
          cases decide (s % 8 = p.currFile) <;> simp
      · cases pbqOf (makeSquare j).2 <;>
          simp only [if_true, if_false, Nat.testBit_or, hb, Bool.false_eq_true] <;>
          cases p.pbq.testBit s <;> cases decide (s < 64) <;> cases decide (s / 8 = 7 - i) <;>
          cases decide (s % 8 = p.currFile) <;> simp
      · cases nbkOf (makeSquare j).2 <;>
          simp only [if_true, if_false, Nat.testBit_or, hb, Bool.false_eq_true] <;>
          cases p.nbk.testBit s <;> cases decide (s < 64) <;> cases decide (s / 8 = 7 - i) <;>
          cases decide (s % 8 = p.currFile) <;> simp
      · cases rqkOf (makeSquare j).2 <;>
          simp only [if_true, if_false, Nat.testBit_or, hb, Bool.false_eq_true] <;>
          cases p.rqk.testBit s <;> cases decide (s < 64) <;> cases decide (s / 8 = 7 - i) <;>
          cases decide (s % 8 = p.currFile) <;> simp
    · have hpc2 : isPiece j = false := by simpa using hpc
      by_cases hn : isNumber j = true
      · have hE : expandRank (j :: cs) =
            List.replicate (j.toNat - '0'.toNat) none ++ expandRank cs := by
          simp [expandRank, hpc2, hn]
        rw [hE] at hlen ⊢
        simp only [List.length_append, List.length_replicate] at hlen ⊢
        rw [placeChar_number w i p j hpc2 hn]
        generalize j.toNat - '0'.toNat = d at hlen ⊢
        obtain ⟨ih1, ih2⟩ := ih { p with currFile := incFile p.currFile d }
          (by simp only [incFile]; exact Nat.mod_lt _ (by norm_num))
          (by simp only [incFile]; omega)
        refine ⟨by rw [ih1]; simp only [incFile]; omega, fun s => ?_⟩
        obtain ⟨i1, i2, i3, i4⟩ := ih2 s
        have hrow : ∀ pred, rowAt pred i (expandRank cs) (incFile p.currFile d) s =
            rowAt pred i (List.replicate d none ++ expandRank cs) p.currFile s := by
          intro pred
          unfold rowAt
          rw [rowBit_replicate]
          by_cases h8 : p.currFile + d < 8
          · rw [incFile, Nat.mod_eq_of_lt h8]
          · rw [rowBit_nil_of_length pred _ (by omega) _ (p.currFile + d)]
        simp only [hrow] at i1 i2 i3 i4
        exact ⟨i1, i2, i3, i4⟩
      · have hn2 : isNumber j = false := by simpa using hn
        have hE : expandRank (j :: cs) = expandRank cs := by
          simp [expandRank, hpc2, hn2]
        rw [hE] at hlen ⊢
        rw [placeChar_other w i p j hpc2 hn2]
        exact ih p hp hlen

theorem rows_fold (w : Bool) (R : Nat → List Char) :
    ∀ (rows : List Nat) (p : Placement), p.currFile = 0 →
      (∀ i ∈ rows, (expandRank (R i)).length = 8) →
      (rows.foldl (fun p i => (R i).foldl (placeChar w i) p) p).currFile = 0 ∧
      ∀ s,
        ((rows.foldl (fun p i => (R i).foldl (placeChar w i) p) p).side.testBit s =
          (p.side.testBit s || rows.any (fun i =>
            rowAt (fun c => decide (w = (makeSquare c).1)) i (expandRank (R i)) 0 s))) ∧
        ((rows.foldl (fun p i => (R i).foldl (placeChar w i) p) p).pbq.testBit s =
          (p.pbq.testBit s || rows.any (fun i =>
            rowAt (fun c => pbqOf (makeSquare c).2) i (expandRank (R i)) 0 s))) ∧
        ((rows.foldl (fun p i => (R i).foldl (placeChar w i) p) p).nbk.testBit s =
          (p.nbk.testBit s || rows.any (fun i =>
            rowAt (fun c => nbkOf (makeSquare c).2) i (expandRank (R i)) 0 s))) ∧
        ((rows.foldl (fun p i => (R i).foldl (placeChar w i) p) p).rqk.testBit s =
          (p.rqk.testBit s || rows.any (fun i =>
            rowAt (fun c => rqkOf (makeSquare c).2) i (expandRank (R i)) 0 s))) := by
  intro rows
  induction rows with
  | nil =>
    intro p hp _
    exact ⟨hp, fun s => by simp⟩
  | cons i rows ih =>
    intro p hp hwf
    rw [List.foldl_cons]
    have hi := hwf i (List.mem_cons_self i rows)
    obtain ⟨r1, r2⟩ := row_fold w i (R i) p (by omega) (by omega)
    have hcur : ((R i).foldl (placeChar w i) p).currFile = 0 := by
      rw [r1, hp, hi]
    obtain ⟨ih1, ih2⟩ := ih ((R i).foldl (placeChar w i) p) hcur
      (fun k hk => hwf k (List.mem_cons_of_mem i hk))
    refine ⟨ih1, fun s => ?_⟩
    obtain ⟨i1, i2, i3, i4⟩ := ih2 s
    obtain ⟨j1, j2, j3, j4⟩ := r2 s
    rw [i1, i2, i3, i4, j1, j2, j3, j4, hp]
    simp only [List.any_cons, Bool.or_assoc, and_self]

theorem range8 : List.range 8 = [0, 1, 2, 3, 4, 5, 6, 7] := by decide

theorem any_row (pred : Char → Bool) (E : Nat → List (Option Char)) (s : Nat) :
    (List.range 8).any (fun i => rowAt pred i (E i) 0 s) =
      (decide (s < 64) && cellHas pred (E (7 - s / 8))[s % 8]?) := by
  rw [range8]
  simp only [List.any_cons, List.any_nil, rowAt, rowBit_get, Nat.sub_zero, Nat.zero_le,
    decide_True, Bool.true_and, Bool.or_false]
  by_cases hs : s < 64
  · have hr : s / 8 < 8 := by omega
    generalize s / 8 = r at hr ⊢
    generalize s % 8 = c
    interval_cases r <;> simp [hs]
  · simp [hs]

theorem fenPlacement_bits (w : Bool) (ranks : List (List Char))
    (hwf : ∀ i, i < 8 → (expandRank (ranks.getD i [])).length = 8) (s : Nat) :
    ((fenPlacement w ranks).side.testBit s =
      (decide (s < 64) && cellHas (fun c => decide (w = (makeSquare c).1))
        (expandRank (ranks.getD (7 - s / 8) []))[s % 8]?)) ∧
    ((fenPlacement w ranks).pbq.testBit s =
      (decide (s < 64) && cellHas (fun c => pbqOf (makeSquare c).2)
        (expandRank (ranks.getD (7 - s / 8) []))[s % 8]?)) ∧
    ((fenPlacement w ranks).nbk.testBit s =
      (decide (s < 64) && cellHas (fun c => nbkOf (makeSquare c).2)
        (expandRank (ranks.getD (7 - s / 8) []))[s % 8]?)) ∧
    ((fenPlacement w ranks).rqk.testBit s =
      (decide (s < 64) && cellHas (fun c => rqkOf (makeSquare c).2)
        (expandRank (ranks.getD (7 - s / 8) []))[s % 8]?)) := by
  obtain ⟨_, h⟩ := rows_fold w (fun i => ranks.getD i []) (List.range 8) ⟨0, 0, 0, 0, 0⟩ rfl
    (fun i hi => hwf i (List.mem_range.mp hi))
  obtain ⟨h1, h2, h3, h4⟩ := h s
  unfold fenPlacement
  rw [h1, h2, h3, h4]
  simp only [Nat.zero_testBit, Bool.false_or]
  exact ⟨any_row _ (fun i => expandRank (ranks.getD i [])) s,
    any_row _ (fun i => expandRank (ranks.getD i [])) s,
    any_row _ (fun i => expandRank (ranks.getD i [])) s,
    any_row _ (fun i => expandRank (ranks.getD i [])) s⟩

theorem kind_code (k : PieceKind) :
    (pbqOf k).toNat + 2 * (nbkOf k).toNat + 4 * (rqkOf k).toNat = pieceCode k := by
  cases k <;> rfl

theorem fenPlacement_type (w : Bool) (ranks : List (List Char))
    (hwf : ∀ i, i < 8 → (expandRank (ranks.getD i [])).length = 8) (s : Nat) (hs : s < 64) :
    ((fenPlacement w ranks).side.testBit s).toNat +
        2 * ((fenPlacement w ranks).pbq.testBit s).toNat +
        4 * ((fenPlacement w ranks).nbk.testBit s).toNat +
        8 * ((fenPlacement w ranks).rqk.testBit s).toNat =
      cellType w (expandRank (ranks.getD (7 - s / 8) []))[s % 8]? := by
  obtain ⟨h1, h2, h3, h4⟩ := fenPlacement_bits w ranks hwf s
  rw [h1, h2, h3, h4]
  simp only [hs, decide_True, Bool.true_and]
  generalize (expandRank (ranks.getD (7 - s / 8) []))[s % 8]? = cell
  match cell with
  | none => rfl
  | some none => rfl
  | some (some ch) =>
    simp only [cellHas, cellType]
    rw [← kind_code]
    omega

theorem flip_index : ∀ i, i < 8 → ∀ f, f < 8 →
    flip (index (7 - i) f) = index i f ∧ index (7 - i) f < 64 ∧ index i f < 64 ∧
      index (7 - i) f / 8 = 7 - i ∧ index (7 - i) f % 8 = f ∧ 7 - (7 - i) = i := by
  unfold flip index; decide

theorem fenBoard_type (active : List Char) (ranks : List (List Char))
    (castling enp : List Char)
    (hwf : ∀ i, i < 8 → (expandRank (ranks.getD i [])).length = 8)
    (i f : Nat) (hi : i < 8) (hf : f < 8) :
    (fenBoard active ranks castling enp).getPieceType
        (if active = ['w'] then index (7 - i) f else index i f) =
      cellType (decide (active = ['w'])) (expandRank (ranks.getD i []))[f]? := by
  obtain ⟨e1, e2, e3, e4, e5, e6⟩ := flip_index i hi f hf
  have h := fenPlacement_type (decide (active = ['w'])) ranks hwf (index (7 - i) f) e2
  rw [e4, e5, e6] at h
  rw [← h]
  unfold fenBoard
  by_cases hw : active = ['w']
  · simp only [hw, decide_True, if_true]
    rw [getPieceType_bits _ _ e2]
  · simp only [hw, decide_False, Bool.false_eq_true, if_false]
    rw [getPieceType_bits _ _ e3, ← e1]
    simp only [QBB.flipQBB, testBit_byteswap _ _ e2]

theorem mapM_ranks (l : List (List Char)) (hl : l.length = 8) :
    (List.range 8).mapM (fun i => l[i]?) = some l := by
  rw [range8]
  match l, hl with
  | [r0, r1, r2, r3, r4, r5, r6, r7], _ => rfl

theorem getPieceType_fenClock (q : QBB) (n : Int) (s : Nat) :
    (fenClock q n).getPieceType s = q.getPieceType s := by
  rfl

/-- The constructor square by square, for a placement of eight rank fields that each
describe eight files. -/
theorem ofFen_square (fen : String) (b : Bool) (q : QBB)
    (placement active castling enp : List Char) (rest : List (List Char))
    (hs : splitString fen.toList ' ' = placement :: active :: castling :: enp :: rest)
    (hl : (splitString placement '/').length = 8)
    (hwf : ∀ r ∈ splitString placement '/', (expandRank r).length = 8)
    (h : QBB.ofFen fen b = some q) (i f : Nat) (hi : i < 8) (hf : f < 8) :
    q.getPieceType (if active = ['w'] then index (7 - i) f else index i f) =
      cellType (decide (active = ['w']))
        (expandRank ((splitString placement '/').getD i []))[f]? := by
  obtain ⟨ranks, hm, h0, h1⟩ := ofFen_fields fen b q placement active castling enp rest hs h
  rw [mapM_ranks _ hl] at hm
  have hr : ranks = splitString placement '/' := (Option.some.inj hm).symm
  subst hr
  have hwf2 : ∀ k, k < 8 → (expandRank ((splitString placement '/').getD k [])).length = 8 := by
    intro k hk
    apply hwf
    rw [List.getD_eq_getElem _ _ (by omega)]
    exact List.getElem_mem _
  cases b with
  | false =>
    rw [h0 rfl]
    exact fenBoard_type active _ castling enp hwf2 i f hi hf
  | true =>
    obtain ⟨clock, n, _, _, hq⟩ := h1 rfl
    rw [hq, getPieceType_fenClock]
    exact fenBoard_type active _ castling enp hwf2 i f hi hf

theorem makeSquare_fst (ch : Char) : (makeSquare ch).1 = decide ('A' ≤ ch ∧ ch ≤ 'Z') := by
  unfold makeSquare
  split_ifs <;> rfl

theorem expandRank_letters (r : List Char) :
    ∀ ch, some ch ∈ expandRank r → isPiece ch = true := by
  induction r with
  | nil => intro ch h; simp [expandRank] at h
  | cons c cs ih =>
    intro ch h
    unfold expandRank at h
    by_cases hp : isPiece c = true
    · rw [if_pos hp] at h
      rcases List.mem_cons.mp h with h1 | h1
      · rw [Option.some.inj h1]; exact hp
      · exact ih ch h1
    · rw [if_neg hp] at h
      by_cases hn : isNumber c = true
      · rw [if_pos hn] at h
        rcases List.mem_append.mp h with h1 | h1
        · simp [List.mem_replicate] at h1
        · exact ih ch h1
      · rw [if_neg hn] at h
        exact ih ch h

theorem letter_codes :
    ∀ c ∈ "KQRBNPkqrbnp".toList,
      ((c = 'P' ∨ c = 'p') → pieceCode (makeSquare c).2 = 1) ∧
      ((c = 'N' ∨ c = 'n') → pieceCode (makeSquare c).2 = 2) ∧
      ((c = 'B' ∨ c = 'b') → pieceCode (makeSquare c).2 = 3) ∧
      ((c = 'R' ∨ c = 'r') → pieceCode (makeSquare c).2 = 4) ∧
      ((c = 'Q' ∨ c = 'q') → pieceCode (makeSquare c).2 = 5) ∧
      ((c = 'K' ∨ c = 'k') → pieceCode (makeSquare c).2 = 6) ∧
      pieceCode (makeSquare c).2 ≠ 0 ∧ pieceCode (makeSquare c).2 ≤ 6 := by
  decide

theorem type_code (q : QBB) (s : Nat) (b : Bool) (k : Nat)
    (h : q.getPieceType s = b.toNat + 2 * k) :
    q.getPieceCode s = k ∧ q.isMyPiece s = b := by
  unfold QBB.getPieceCode QBB.isMyPiece
  rw [h, Nat.shiftRight_eq_div_pow, Nat.and_one_is_mod]
  cases b
  · simp
  · simp; omega

/-- C19: for every FEN whose placement has eight rank fields that each describe exactly
eight files, the piece written at rank field `i` (0 is the first field, the top rank)
and file `f` is stored on square `(7 - i) * 8 + f` when white is to move and on square
`i * 8 + f` when black is to move; its side bit is set iff the colour of the letter
(upper case is white) is the active colour; and a square no letter describes has `side`,
`pbq`, `nbk` and `rqk` all clear. -/
theorem fen_placement_squares (fen : String) (b : Bool) (q : QBB)
    (placement active castling enp : List Char) (rest : List (List Char))
    (hs : splitString fen.toList ' ' = placement :: active :: castling :: enp :: rest)
    (hl : (splitString placement '/').length = 8)
    (hwf : ∀ r ∈ splitString placement '/', (expandRank r).length = 8)
    (h : QBB.ofFen fen b = some q) (i f : Nat) (hi : i < 8) (hf : f < 8) :
    (∀ ch, (expandRank ((splitString placement '/').getD i []))[f]? = some (some ch) →
      q.getPieceCode (if active = ['w'] then (7 - i) * 8 + f else i * 8 + f) =
          pieceCode (makeSquare ch).2 ∧
        q.getPieceCode (if active = ['w'] then (7 - i) * 8 + f else i * 8 + f) ≠ 0 ∧
        q.isMyPiece (if active = ['w'] then (7 - i) * 8 + f else i * 8 + f) =
          decide (decide (active = ['w']) = decide ('A' ≤ ch ∧ ch ≤ 'Z'))) ∧
    ((expandRank ((splitString placement '/').getD i []))[f]? = some none →
      q.getPieceType (if active = ['w'] then (7 - i) * 8 + f else i * 8 + f) = 0 ∧
        q.side.testBit (if active = ['w'] then (7 - i) * 8 + f else i * 8 + f) = false ∧
        q.pbq.testBit (if active = ['w'] then (7 - i) * 8 + f else i * 8 + f) = false ∧
        q.nbk.testBit (if active = ['w'] then (7 - i) * 8 + f else i * 8 + f) = false ∧
        q.rqk.testBit (if active = ['w'] then (7 - i) * 8 + f else i * 8 + f) = false) := by
  have hsq := ofFen_square fen b q placement active castling enp rest hs hl hwf h i f hi hf
  simp only [index] at hsq
  have hlt : (if active = ['w'] then (7 - i) * 8 + f else i * 8 + f) < 64 := by
    split <;> omega
  constructor
  · intro ch hch
    rw [hch] at hsq
    simp only [cellType] at hsq
    obtain ⟨c1, c2⟩ := type_code q _ _ _ hsq
    have hmem : some ch ∈ expandRank ((splitString placement '/').getD i []) :=
      List.getElem?_mem hch
    have hpiece := isPiece_mem ch (expandRank_letters _ ch hmem)
    refine ⟨c1, ?_, ?_⟩
    · rw [c1]
      exact (letter_codes ch hpiece).2.2.2.2.2.2.1
    · rw [c2, makeSquare_fst]
  · intro hnone
    rw [hnone] at hsq
    simp only [cellType] at hsq
    obtain ⟨b0, b1, b2, b3⟩ := type_bits q _ 0 hlt hsq
    exact ⟨hsq, by simpa using b0, by simpa using b1, by simpa using b2, by simpa using b3⟩

/-- C19, at the start position with white to move: `K` of the last rank field stands on
e1 as an own king, `k` of the first rank field on e8 as an opponent king. -/
theorem fen_placement_squares_witness :
    (startPos.getPieceCode (if ['w'] = ['w'] then (7 - 7) * 8 + 4 else 7 * 8 + 4) =
        pieceCode (makeSquare 'K').2 ∧
      startPos.getPieceCode (if ['w'] = ['w'] then (7 - 7) * 8 + 4 else 7 * 8 + 4) ≠ 0 ∧
      startPos.isMyPiece (if ['w'] = ['w'] then (7 - 7) * 8 + 4 else 7 * 8 + 4) =
        decide (decide (['w'] = ['w']) = decide ('A' ≤ 'K' ∧ 'K' ≤ 'Z'))) ∧
    startPos.getPieceType e1 = myPiece PieceKind.king ∧
    startPos.getPieceType e8 = theirPiece PieceKind.king :=
  ⟨(fen_placement_squares "rnbqkbnr/pppppppp/8/8/8/8/PPPPPPPP/RNBQKBNR w KQkq - 0 1" true
      startPos "rnbqkbnr/pppppppp/8/8/8/8/PPPPPPPP/RNBQKBNR".toList ['w'] "KQkq".toList ['-']
      [['0'], ['1']] (by decide) (by decide) (by decide) (by decide) 7 4 (by decide)
      (by decide)).1 'K' (by decide),
    by decide, by decide⟩

theorem cellType_code_le (w : Bool) (cell : Option (Option Char)) : cellType w cell / 2 ≤ 6 := by
  match cell with
  | none => simp [cellType]
  | some none => simp [cellType]
  | some (some ch) =>
    simp only [cellType]
    have hk : pieceCode (makeSquare ch).2 ≤ 6 := by
      cases (makeSquare ch).2 <;> decide
    cases decide (w = (makeSquare ch).1) <;> simp <;> omega

/-- C11, as stated, fails: in the start position the `Q` of the last rank field stands on
d1 and `getPieceCode` returns 5 there (not 6), and the `K` stands on e1 where it returns
6 (not 7); so 5 is returned on a square. -/
theorem piece_table_counterexample :
    QBB.ofFen "rnbqkbnr/pppppppp/8/8/8/8/PPPPPPPP/RNBQKBNR w KQkq - 0 1" true =
      some startPos ∧
    (expandRank "RNBQKBNR".toList)[3]? = some (some 'Q') ∧
    startPos.getPieceCode d1 = 5 ∧ startPos.getPieceCode d1 ≠ 6 ∧
    (expandRank "RNBQKBNR".toList)[4]? = some (some 'K') ∧
    startPos.getPieceCode e1 = 6 ∧ startPos.getPieceCode e1 ≠ 7 := by
  decide

/-- C11 (amended): for every position the FEN constructor builds from a placement of
eight rank fields that each describe eight files, `getPieceCode` at the square of a
piece letter returns 1 for P/p, 2 for N/n, 3 for B/b, 4 for R/r, 5 for Q/q and 6 for
K/k, returns 0 on a square no letter describes, and returns 7 on no square. -/
theorem fen_piece_table (fen : String) (b : Bool) (q : QBB)
    (placement active castling enp : List Char) (rest : List (List Char))
    (hs : splitString fen.toList ' ' = placement :: active :: castling :: enp :: rest)
    (hl : (splitString placement '/').length = 8)
    (hwf : ∀ r ∈ splitString placement '/', (expandRank r).length = 8)
    (h : QBB.ofFen fen b = some q) :
    (∀ i f ch, i < 8 → f < 8 →
      (expandRank ((splitString placement '/').getD i []))[f]? = some (some ch) →
      ((ch = 'P' ∨ ch = 'p') →
        q.getPieceCode (if active = ['w'] then (7 - i) * 8 + f else i * 8 + f) = 1) ∧
      ((ch = 'N' ∨ ch = 'n') →
        q.getPieceCode (if active = ['w'] then (7 - i) * 8 + f else i * 8 + f) = 2) ∧
      ((ch = 'B' ∨ ch = 'b') →
        q.getPieceCode (if active = ['w'] then (7 - i) * 8 + f else i * 8 + f) = 3) ∧
      ((ch = 'R' ∨ ch = 'r') →
        q.getPieceCode (if active = ['w'] then (7 - i) * 8 + f else i * 8 + f) = 4) ∧
      ((ch = 'Q' ∨ ch = 'q') →
        q.getPieceCode (if active = ['w'] then (7 - i) * 8 + f else i * 8 + f) = 5) ∧
      ((ch = 'K' ∨ ch = 'k') →
        q.getPieceCode (if active = ['w'] then (7 - i) * 8 + f else i * 8 + f) = 6)) ∧
    (∀ i f, i < 8 → f < 8 →
      (expandRank ((splitString placement '/').getD i []))[f]? = some none →
      q.getPieceCode (if active = ['w'] then (7 - i) * 8 + f else i * 8 + f) = 0) ∧
    (∀ s, s < 64 → q.getPieceCode s ≠ 7) := by
  refine ⟨?_, ?_, ?_⟩
  · intro i f ch hi hf hch
    have hsq := ofFen_square fen b q placement active castling enp rest hs hl hwf h i f hi hf
    simp only [index] at hsq
    rw [hch] at hsq
    simp only [cellType] at hsq
    obtain ⟨c1, _⟩ := type_code q _ _ _ hsq
    have hmem : some ch ∈ expandRank ((splitString placement '/').getD i []) :=
      List.getElem?_mem hch
    obtain ⟨t1, t2, t3, t4, t5, t6, _, _⟩ :=
      letter_codes ch (isPiece_mem ch (expandRank_letters _ ch hmem))
    rw [c1]
    exact ⟨t1, t2, t3, t4, t5, t6⟩
  · intro i f hi hf hnone
    have hsq := ofFen_square fen b q placement active castling enp rest hs hl hwf h i f hi hf
    simp only [index] at hsq
    rw [hnone] at hsq
    simp only [cellType] at hsq
    rw [QBB.getPieceCode, hsq]
    rfl
  · intro s hs64 h7
    have hcode : ∀ t w cell, q.getPieceType t = cellType w cell →
        q.getPieceCode t ≤ 6 := by
      intro t w cell ht
      rw [QBB.getPieceCode, ht, Nat.shiftRight_eq_div_pow]
      exact cellType_code_le _ cell
    by_cases hw : active = ['w']
    · have hsq := ofFen_square fen b q placement active castling enp rest hs hl hwf h
        (7 - s / 8) (s % 8) (by omega) (by omega)
      simp only [index, hw, if_true] at hsq
      have e : (7 - (7 - s / 8)) * 8 + s % 8 = s := by omega
      rw [e] at hsq
      have := hcode s _ _ hsq
      omega
    · have hsq := ofFen_square fen b q placement active castling enp rest hs hl hwf h
        (s / 8) (s % 8) (by omega) (by omega)
      simp only [index, hw, if_false] at hsq
      have e : s / 8 * 8 + s % 8 = s := by omega
      rw [e] at hsq
      have := hcode s _ _ hsq
      omega

/-- C11 (amended), at the start position: the `Q` on d1 has code 5, the `K` on e1 code 6. -/
theorem fen_piece_table_witness :
    startPos.getPieceCode (if ['w'] = ['w'] then (7 - 7) * 8 + 3 else 7 * 8 + 3) = 5 ∧
    startPos.getPieceCode (if ['w'] = ['w'] then (7 - 7) * 8 + 4 else 7 * 8 + 4) = 6 ∧
    (∀ s, s < 64 → startPos.getPieceCode s ≠ 7) :=
  ⟨((fen_piece_table "rnbqkbnr/pppppppp/8/8/8/8/PPPPPPPP/RNBQKBNR w KQkq - 0 1" true
      startPos "rnbqkbnr/pppppppp/8/8/8/8/PPPPPPPP/RNBQKBNR".toList ['w'] "KQkq".toList ['-']
      [['0'], ['1']] (by decide) (by decide) (by decide) (by decide)).1 7 3 'Q' (by decide)
      (by decide) (by decide)).2.2.2.2.1 (Or.inl rfl),
    ((fen_piece_table "rnbqkbnr/pppppppp/8/8/8/8/PPPPPPPP/RNBQKBNR w KQkq - 0 1" true
      startPos "rnbqkbnr/pppppppp/8/8/8/8/PPPPPPPP/RNBQKBNR".toList ['w'] "KQkq".toList ['-']
      [['0'], ['1']] (by decide) (by decide) (by decide) (by decide)).1 7 4 'K' (by decide)
      (by decide) (by decide)).2.2.2.2.2 (Or.inl rfl),
    (fen_piece_table "rnbqkbnr/pppppppp/8/8/8/8/PPPPPPPP/RNBQKBNR w KQkq - 0 1" true
      startPos "rnbqkbnr/pppppppp/8/8/8/8/PPPPPPPP/RNBQKBNR".toList ['w'] "KQkq".toList ['-']
      [['0'], ['1']] (by decide) (by decide) (by decide) (by decide)).2.2⟩

theorem makeMove_applied (q : QBB) (m : Move) :
    q.makeMove m =
      QBB.flipQBB
        { q.applied m with
          side := not64 (q.applied m).side &&&
            ((q.applied m).pbq ||| (q.applied m).nbk ||| (q.applied m).rqk) } := by
  rfl

theorem ofFen_split (fen : String) (b : Bool) (q : QBB) (h : QBB.ofFen fen b = some q) :
    ∃ placement active castling enp rest,
      splitString fen.toList ' ' = placement :: active :: castling :: enp :: rest := by
  rw [ofFen_eq] at h
  dsimp only at h
  generalize splitString fen.toList ' ' = l at h ⊢
  match l with
  | [] => simp at h
  | [_] => simp at h
  | [a, _] =>
    simp only [List.getElem?_cons_zero, List.getElem?_cons_succ, Option.bind_eq_bind,
      Option.some_bind] at h
    generalize List.mapM (fun i => (splitString a '/')[i]?) (List.range 8) = o at h
    cases o <;> simp at h
  | [a, _, _] =>
    simp only [List.getElem?_cons_zero, List.getElem?_cons_succ, Option.bind_eq_bind,
      Option.some_bind] at h
    generalize List.mapM (fun i => (splitString a '/')[i]?) (List.range 8) = o at h
    cases o <;> simp at h
  | placement :: active :: castling :: enp :: rest => exact ⟨_, _, _, _, _, rfl⟩

theorem ofFen_board (fen : String) (b : Bool) (q : QBB) (h : QBB.ofFen fen b = some q) :
    ∃ active ranks castling enp,
      q.side = (fenBoard active ranks castling enp).side ∧
      q.pbq = (fenBoard active ranks castling enp).pbq ∧
      q.nbk = (fenBoard active ranks castling enp).nbk ∧
      q.rqk = (fenBoard active ranks castling enp).rqk := by
  obtain ⟨placement, active, castling, enp, rest, hs⟩ := ofFen_split fen b q h
  obtain ⟨ranks, _, h0, h1⟩ := ofFen_fields fen b q placement active castling enp rest hs h
  refine ⟨active, ranks, castling, enp, ?_⟩
  cases b with
  | false => rw [h0 rfl]; exact ⟨rfl, rfl, rfl, rfl⟩
  | true =>
    obtain ⟨clock, n, _, _, hq⟩ := h1 rfl
    rw [hq]; exact ⟨rfl, rfl, rfl, rfl⟩

theorem flipped_subset (S P N R : Nat) :
    byteswap_uint64 (not64 S &&& (P ||| N ||| R)) &&&
        (byteswap_uint64 P ||| byteswap_uint64 N ||| byteswap_uint64 R) =
      byteswap_uint64 (not64 S &&& (P ||| N ||| R)) := by
  apply subset_of_bits
  intro s
  simp only [testBit_byteswap_any, Nat.testBit_and, Nat.testBit_or, Bool.and_eq_true,
    Bool.or_eq_true, decide_eq_true_eq]
  tauto

/-- C12: own squares are occupied (`side ⊆ pbq | nbk | rqk`) after the FEN constructor
for any accepted FEN, after `makeMove` for any position and any move, and after
`doNullMove` for any position; and the new `side` is exactly the mirror image (byte
swap) of the squares that were occupied and not in the mover's side once the move was
applied. -/
theorem own_squares_occupied (fen : String) (b : Bool) (p : QBB)
    (h : QBB.ofFen fen b = some p) (q : QBB) (m : Move) :
    p.side &&& (p.pbq ||| p.nbk ||| p.rqk) = p.side ∧
    ((q.makeMove m).side &&&
        ((q.makeMove m).pbq ||| (q.makeMove m).nbk ||| (q.makeMove m).rqk) =
      (q.makeMove m).side ∧
      (q.makeMove m).side =
        byteswap_uint64 (not64 (q.applied m).side &&&
          ((q.applied m).pbq ||| (q.applied m).nbk ||| (q.applied m).rqk)) ∧
      (q.makeMove m).pbq = byteswap_uint64 (q.applied m).pbq ∧
      (q.makeMove m).nbk = byteswap_uint64 (q.applied m).nbk ∧
      (q.makeMove m).rqk = byteswap_uint64 (q.applied m).rqk) ∧
    (q.doNullMove.side &&& (q.doNullMove.pbq ||| q.doNullMove.nbk ||| q.doNullMove.rqk) =
      q.doNullMove.side ∧
      q.doNullMove.side = byteswap_uint64 (not64 q.side &&& (q.pbq ||| q.nbk ||| q.rqk))) := by
  refine ⟨?_, ⟨?_, ?_, ?_, ?_, ?_⟩, ?_, ?_⟩
  · obtain ⟨active, ranks, castling, enp, e1, e2, e3, e4⟩ := ofFen_board fen b p h
    rw [e1, e2, e3, e4]
    apply subset_of_bits
    intro s hs
    have := fenBoard_occupied active ranks castling enp s hs
    simpa [Nat.testBit_or] using this
  · rw [makeMove_applied]
    exact flipped_subset _ _ _ _
  · rw [makeMove_applied]; rfl
  · rw [makeMove_applied]; rfl
  · rw [makeMove_applied]; rfl
  · rw [makeMove_applied]; rfl
  · exact flipped_subset _ _ _ _
  · rfl

/-- C12, at the start position and the move e2e4. -/
theorem own_squares_occupied_witness :
    startPos.side &&& (startPos.pbq ||| startPos.nbk ||| startPos.rqk) = startPos.side ∧
    (startPos.makeMove 1804).side &&&
        ((startPos.makeMove 1804).pbq ||| (startPos.makeMove 1804).nbk |||
          (startPos.makeMove 1804).rqk) =
      (startPos.makeMove 1804).side ∧
    startPos.doNullMove.side &&&
        (startPos.doNullMove.pbq ||| startPos.doNullMove.nbk ||| startPos.doNullMove.rqk) =
      startPos.doNullMove.side :=
  ⟨(own_squares_occupied "rnbqkbnr/pppppppp/8/8/8/8/PPPPPPPP/RNBQKBNR w KQkq - 0 1" true
      startPos (by decide) startPos 1804).1,
    (own_squares_occupied "rnbqkbnr/pppppppp/8/8/8/8/PPPPPPPP/RNBQKBNR w KQkq - 0 1" true
      startPos (by decide) startPos 1804).2.1.1,
    (own_squares_occupied "rnbqkbnr/pppppppp/8/8/8/8/PPPPPPPP/RNBQKBNR w KQkq - 0 1" true
      startPos (by decide) startPos 1804).2.2.1⟩

theorem castlingChar_eq (epc : Nat) (c : Char) :
    castlingChar epc c = epc ||| castlingSquares c := by
  unfold castlingChar castlingSquares
  by_cases h1 : c = 'K'
  · subst h1; simp
  by_cases h2 : c = 'Q'
  · subst h2; simp
  by_cases h3 : c = 'k'
  · subst h3; simp
  by_cases h4 : c = 'q'
  · subst h4; simp
  simp [h1, h2, h3, h4]

theorem foldl_or_acc (l : List Nat) (acc : Nat) :
    l.foldl (· ||| ·) acc = acc ||| l.foldl (· ||| ·) 0 := by
  induction l generalizing acc with
  | nil => simp
  | cons x xs ih =>
    simp only [List.foldl_cons]
    rw [ih (acc ||| x), ih (0 ||| x), Nat.zero_or, Nat.lor_assoc]

theorem castling_fold (castling : List Char) (acc : Nat) :
    castling.foldl castlingChar acc = acc ||| castlingUnion castling := by
  induction castling generalizing acc with
  | nil => simp [castlingUnion]
  | cons c cs ih =>
    simp only [List.foldl_cons]
    rw [ih, castlingChar_eq]
    unfold castlingUnion
    simp only [List.map_cons, List.foldl_cons]
    rw [foldl_or_acc _ (0 ||| castlingSquares c), Nat.zero_or, Nat.lor_assoc]

theorem castlingSquares_bits (c : Char) (j : Nat) (h : (castlingSquares c).testBit j = true) :
    j < 8 ∨ (56 ≤ j ∧ j < 64) := by
  unfold castlingSquares at h
  split_ifs at h <;>
    simp only [Nat.testBit_or, testBit_setbit, Bool.or_eq_true, Bool.and_eq_true,
      decide_eq_true_eq, e1, h1, a1, e8, h8, a8, Nat.zero_testBit, index] at h <;>
    first | omega | exact absurd h (by simp)

theorem castlingUnion_bits (castling : List Char) (j : Nat)
    (h : (castlingUnion castling).testBit j = true) : j < 8 ∨ (56 ≤ j ∧ j < 64) := by
  induction castling with
  | nil => simp [castlingUnion] at h
  | cons c cs ih =>
    unfold castlingUnion at h
    simp only [List.map_cons, List.foldl_cons] at h
    rw [foldl_or_acc, Nat.zero_or, Nat.testBit_or, Bool.or_eq_true] at h
    rcases h with h | h
    · exact castlingSquares_bits c j h
    · exact ih h

theorem testBit_fenEpc (active castling enp : List Char) (j : Nat) :
    (fenEpc active castling enp).testBit j =
      ((castlingUnion castling).testBit j ||
        (decide (enp ≠ ['-']) && decide (j < 64) && decide (epSquare enp = j)) ||
        (decide (active = ['w']) && decide (j = 31 ∨ j = 39))) := by
  unfold fenEpc
  simp only [castling_fold, Nat.zero_or]
  by_cases he : enp = ['-'] <;> by_cases hw : active = ['w'] <;>
    simp [he, hw, Nat.testBit_or, testBit_setbit, testBit_sentinel, epSquare]

theorem halfMoves_small : ∀ N, N < 128 →
    shl64 N 24 ||| shl64 (shl64 N 24) 8 = (N <<< 32) ||| (N <<< 24) := by
  decide

theorem fenClock_epc (q : QBB) (n : Int) (h0 : 0 ≤ n) (h1 : n ≤ 127) :
    (fenClock q n).epc = (q.epc + ((n.toNat <<< 32) ||| (n.toNat <<< 24))) % 2 ^ 64 := by
  unfold fenClock
  have e : (n % 2 ^ 64).toNat = n.toNat := by
    rw [Int.emod_eq_of_lt h0 (by omega)]
  simp only [e]
  rw [halfMoves_small n.toNat (by omega)]

theorem fenBoard_epc (active : List Char) (ranks : List (List Char)) (castling enp : List Char) :
    (fenBoard active ranks castling enp).epc =
      if active = ['w'] then fenEpc active castling enp
      else byteswap_uint64 (fenEpc active castling enp) := by
  unfold fenBoard
  by_cases hw : active = ['w'] <;> simp [hw, QBB.flipQBB]

theorem flip_slots : ∀ j, j < 64 → ((24 ≤ j ∧ j < 31) ∨ (32 ≤ j ∧ j < 39)) →
    ¬ (flip j < 8 ∨ (56 ≤ flip j ∧ flip j < 64)) ∧ ¬ (16 ≤ flip j ∧ flip j < 24) ∧
      ¬ (40 ≤ flip j ∧ flip j < 48) ∧ flip j ≠ 31 ∧ flip j ≠ 39 := by
  decide

theorem fenEpc_lt (active castling enp : List Char) : fenEpc active castling enp < 2 ^ 64 := by
  apply Nat.lt_pow_two_of_testBit
  intro i hi
  rw [testBit_fenEpc]
  have hU : (castlingUnion castling).testBit i = false := by
    by_contra hc
    have := castlingUnion_bits castling i (by simpa using hc)
    omega
  rw [hU]
  simp
  omega

theorem fenEpc_slots (active castling enp : List Char) (hep : EpField enp) (j : Nat)
    (hj : (24 ≤ j ∧ j < 31) ∨ (32 ≤ j ∧ j < 39)) :
    (fenEpc active castling enp).testBit j = false ∧
      (fenEpc active castling enp).testBit (flip j) = false := by
  have hf := flip_slots j (by omega) hj
  have hU : ∀ k, ¬ (k < 8 ∨ (56 ≤ k ∧ k < 64)) → (castlingUnion castling).testBit k = false := by
    intro k hk
    by_contra hc
    exact hk (castlingUnion_bits castling k (by simpa using hc))
  rw [testBit_fenEpc, testBit_fenEpc, hU j (by omega), hU (flip j) hf.1]
  unfold EpField at hep
  generalize epSquare enp = e at hep ⊢
  generalize flip j = fj at hf ⊢
  have a1 : decide (j = 31 ∨ j = 39) = false := by
    rw [decide_eq_false_iff_not]; omega
  have a2 : decide (fj = 31 ∨ fj = 39) = false := by
    rw [decide_eq_false_iff_not]; omega
  rw [a1, a2]
  by_cases he : enp = ['-']
  · simp [he]
  · have hep2 : (16 ≤ e ∧ e < 24) ∨ (40 ≤ e ∧ e < 48) := by
      rcases hep with h | h
      · exact absurd h he
      · exact h
    have b1 : decide (e = j) = false := by
      rw [decide_eq_false_iff_not]; omega
    have b2 : decide (e = fj) = false := by
      rw [decide_eq_false_iff_not]; omega
    rw [b1, b2]
    simp

theorem ofFen_epc (fen : String) (b : Bool) (q : QBB)
    (placement active castling enp : List Char) (rest : List (List Char))
    (hs : splitString fen.toList ' ' = placement :: active :: castling :: enp :: rest)
    (hep : EpField enp)
    (hclock : b = true → ∀ clock n, rest[0]? = some clock → stoi clock = some n →
      0 ≤ n ∧ n ≤ 127)
    (h : QBB.ofFen fen b = some q) :
    ∃ N : Nat, N < 128 ∧
      (b = true → ∃ clock, rest[0]? = some clock ∧ stoi clock = some (N : Int)) ∧
      (b = false → N = 0) ∧
      q.epc =
        (if active = ['w'] then fenEpc active castling enp
          else byteswap_uint64 (fenEpc active castling enp)) |||
          ((N <<< 32) ||| (N <<< 24)) := by
  obtain ⟨ranks, _, h0, h1⟩ := ofFen_fields fen b q placement active castling enp rest hs h
  cases b with
  | false =>
    refine ⟨0, by omega, by simp, fun _ => rfl, ?_⟩
    rw [h0 rfl, fenBoard_epc]
    simp
  | true =>
    obtain ⟨clock, n, hc, hn, hq⟩ := h1 rfl
    obtain ⟨n0, n1⟩ := hclock rfl clock n hc hn
    refine ⟨n.toNat, by omega, fun _ => ⟨clock, hc, ?_⟩, by simp, ?_⟩
    · rw [hn, Int.toNat_of_nonneg n0]
    · rw [hq, fenClock_epc _ n n0 n1, fenBoard_epc]
      have hN : n.toNat < 128 := by omega
      apply add_mod_eq_or
      · split
        · exact fenEpc_lt _ _ _
        · exact byteswap_lt _
      · exact slots_lt _ _ hN hN
      · apply Nat.eq_of_testBit_eq
        intro j
        rw [Nat.testBit_and, testBit_slots _ _ _ hN hN, Nat.zero_testBit]
        by_cases hj : (24 ≤ j ∧ j < 31) ∨ (32 ≤ j ∧ j < 39)
        · obtain ⟨s1, s2⟩ := fenEpc_slots active castling enp hep j hj
          have : (if active = ['w'] then fenEpc active castling enp
              else byteswap_uint64 (fenEpc active castling enp)).testBit j = false := by
            split
            · exact s1
            · rw [testBit_byteswap_any, s2]; simp
          rw [this]; simp
        · have c1 : decide (32 ≤ j ∧ j < 39) = false := by
            rw [decide_eq_false_iff_not]; omega
          have c2 : decide (24 ≤ j ∧ j < 31) = false := by
            rw [decide_eq_false_iff_not]; omega
          rw [c1, c2]; simp

theorem makeMove_sentinel (q : QBB) (m : Move) (hlo : clockLo q.epc ≤ 126)
    (hhi : clockHi q.epc ≤ 126) (hfrom : q.getPieceCode (getMoveInfo fromMask m) ≠ 0) :
    (q.makeMove m).epc.testBit 31 = !q.epc.testBit 39 ∧
      (q.makeMove m).epc.testBit 39 = !q.epc.testBit 31 := by
  rw [makeMove_epc]
  have f1 : flip 31 = 39 := by decide
  have f2 : flip 39 = 31 := by decide
  rw [testBit_byteswap_at _ 31 (by norm_num), testBit_byteswap_at _ 39 (by norm_num), f1, f2,
    testBit_epcStep, testBit_epcStep, clockStep_eq _ _ _ hlo hhi hfrom]
  simp only [Nat.testBit_xor, Nat.testBit_or, testBit_sentinel, testBit_rest]
  constructor
  · split
    · rw [testBit_slots _ _ _ (by omega) (by omega)]
      simp
    · simp
  · split
    · rw [testBit_slots _ _ _ (by omega) (by omega)]
      simp
    · simp

theorem doNullMove_sentinel (q : QBB) :
    q.doNullMove.epc.testBit 31 = !q.epc.testBit 39 ∧
      q.doNullMove.epc.testBit 39 = !q.epc.testBit 31 := by
  have e : rankMask a6 = rank6 := by decide
  have f1 : flip 31 = 39 := by decide
  have f2 : flip 39 = 31 := by decide
  simp only [QBB.doNullMove, QBB.flipQBB, e]
  rw [testBit_byteswap_at _ 31 (by norm_num), testBit_byteswap_at _ 39 (by norm_num), f1, f2]
  simp [Nat.testBit_xor, Nat.testBit_and, testBit_not64, testBit_rank6, testBit_sentinel]

theorem ofFen_sentinel (fen : String) (b : Bool) (q : QBB)
    (placement active castling enp : List Char) (rest : List (List Char))
    (hs : splitString fen.toList ' ' = placement :: active :: castling :: enp :: rest)
    (hep : EpField enp)
    (hclock : b = true → ∀ clock n, rest[0]? = some clock → stoi clock = some n →
      0 ≤ n ∧ n ≤ 127)
    (h : QBB.ofFen fen b = some q) :
    q.epc.testBit 31 = decide (active = ['w']) ∧ q.epc.testBit 39 = decide (active = ['w']) := by
  obtain ⟨N, hN, _, _, hq⟩ := ofFen_epc fen b q placement active castling enp rest hs hep hclock h
  have f1 : flip 31 = 39 := by decide
  have f2 : flip 39 = 31 := by decide
  have hU : ∀ k, ¬ (k < 8 ∨ (56 ≤ k ∧ k < 64)) → (castlingUnion castling).testBit k = false := by
    intro k hk
    by_contra hc
    exact hk (castlingUnion_bits castling k (by simpa using hc))
  have hE : ∀ k, k = 31 ∨ k = 39 →
      (fenEpc active castling enp).testBit k = decide (active = ['w']) := by
    intro k hk
    rw [testBit_fenEpc, hU k (by omega)]
    have a1 : decide (k = 31 ∨ k = 39) = true := by simpa using hk
    rw [a1]
    by_cases he : enp = ['-']
    · simp [he]
    · have hep2 : (16 ≤ epSquare enp ∧ epSquare enp < 24) ∨
          (40 ≤ epSquare enp ∧ epSquare enp < 48) := by
        rcases hep with h | h
        · exact absurd h he
        · exact h
      have b1 : decide (epSquare enp = k) = false := by
        rw [decide_eq_false_iff_not]; omega
      rw [b1]; simp
  rw [hq]
  simp only [Nat.testBit_or, testBit_slots _ _ _ hN hN]
  constructor
  · by_cases hw : active = ['w']
    · simp only [hw, if_true]
      rw [← hw, hE 31 (by omega)]; simp [hw]
    · simp only [hw, if_false]
      rw [testBit_byteswap_at _ 31 (by norm_num), f1, hE 39 (by omega)]; simp [hw]
  · by_cases hw : active = ['w']
    · simp only [hw, if_true]
      rw [← hw, hE 39 (by omega)]; simp [hw]
    · simp only [hw, if_false]
      rw [testBit_byteswap_at _ 39 (by norm_num), f2, hE 31 (by omega)]; simp [hw]

/-- C18: for a FEN whose en-passant field is `-` or a square of the third or sixth rank
and whose halfmove field (when it is read) is a number from 0 to 127, the constructor
leaves bit 31 and bit 39 of `epc` both set when the active colour is `w` and both clear
otherwise. `makeMove` on a position with both clock slots at most 126 and an occupied
from-square, and `doNullMove` on any position, put the inverse of the old bit 39 into
bit 31 and the inverse of the old bit 31 into bit 39 (the toggle, then the byte swap that
exchanges bytes 3 and 4); so when the two copies were equal both bits are inverted and the
copies are equal again. -/
theorem sentinel_toggles (fen : String) (b : Bool) (p : QBB)
    (placement active castling enp : List Char) (rest : List (List Char))
    (hs : splitString fen.toList ' ' = placement :: active :: castling :: enp :: rest)
    (hep : EpField enp)
    (hclock : b = true → ∀ clock n, rest[0]? = some clock → stoi clock = some n →
      0 ≤ n ∧ n ≤ 127)
    (h : QBB.ofFen fen b = some p)
    (q : QBB) (m : Move) (hlo : clockLo q.epc ≤ 126) (hhi : clockHi q.epc ≤ 126)
    (hfrom : q.getPieceCode (getMoveInfo fromMask m) ≠ 0) :
    (p.epc.testBit 31 = decide (active = ['w']) ∧
      p.epc.testBit 39 = decide (active = ['w'])) ∧
    ((q.makeMove m).epc.testBit 31 = !q.epc.testBit 39 ∧
      (q.makeMove m).epc.testBit 39 = !q.epc.testBit 31 ∧
      (q.epc.testBit 31 = q.epc.testBit 39 →
        (q.makeMove m).epc.testBit 31 = !q.epc.testBit 31 ∧
        (q.makeMove m).epc.testBit 39 = !q.epc.testBit 39 ∧
        (q.makeMove m).epc.testBit 31 = (q.makeMove m).epc.testBit 39)) ∧
    (q.doNullMove.epc.testBit 31 = !q.epc.testBit 39 ∧
      q.doNullMove.epc.testBit 39 = !q.epc.testBit 31 ∧
      (q.epc.testBit 31 = q.epc.testBit 39 →
        q.doNullMove.epc.testBit 31 = !q.epc.testBit 31 ∧
        q.doNullMove.epc.testBit 39 = !q.epc.testBit 39 ∧
        q.doNullMove.epc.testBit 31 = q.doNullMove.epc.testBit 39)) := by
  obtain ⟨m1, m2⟩ := makeMove_sentinel q m hlo hhi hfrom
  obtain ⟨n1, n2⟩ := doNullMove_sentinel q
  refine ⟨ofFen_sentinel fen b p placement active castling enp rest hs hep hclock h,
    ⟨m1, m2, ?_⟩, ⟨n1, n2, ?_⟩⟩
  · intro heq
    rw [m1, m2, heq]
    exact ⟨rfl, rfl, rfl⟩
  · intro heq
    rw [n1, n2, heq]
    exact ⟨rfl, rfl, rfl⟩

/-- C18, at the start position (white to move, both bits set) and the move e2e4, after
which both bits are clear. -/
theorem sentinel_toggles_witness :
    (startPos.epc.testBit 31 = decide (['w'] = ['w']) ∧
      startPos.epc.testBit 39 = decide (['w'] = ['w'])) ∧
    (startPos.makeMove 1804).epc.testBit 31 = false ∧
    (startPos.makeMove 1804).epc.testBit 39 = false ∧
    startPos.doNullMove.epc.testBit 31 = false ∧
    startPos.doNullMove.epc.testBit 39 = false :=
  have hw := sentinel_toggles "rnbqkbnr/pppppppp/8/8/8/8/PPPPPPPP/RNBQKBNR w KQkq - 0 1" true
    startPos "rnbqkbnr/pppppppp/8/8/8/8/PPPPPPPP/RNBQKBNR".toList ['w'] "KQkq".toList ['-']
    [['0'], ['1']] (by decide) (by decide)
    (by
      intro _ clock n hc hn
      have e : clock = ['0'] := by simpa using hc.symm
      subst e
      have e0 : stoi ['0'] = some 0 := by decide
      rw [e0] at hn
      cases hn
      decide)
    (by decide) startPos 1804 (by decide) (by decide) (by decide)
  ⟨hw.1, by rw [hw.2.1.1]; decide, by rw [hw.2.1.2.1]; decide,
    by rw [hw.2.2.1]; decide, by rw [hw.2.2.2.1]; decide⟩

theorem castlingBits_union (castling : List Char) :
    castlingBits (castlingUnion castling) = castlingUnion castling := by
  unfold castlingBits
  apply subset_of_bits
  intro s hs
  have := castlingUnion_bits castling s hs
  have e : (0xFF000000000000FF : Nat) = rankMask a1 ||| rankMask a8 := by decide
  rw [e, testBit_backRanks]
  simpa using this

theorem getMoveInfo_tag_lt (m : Nat) : getMoveInfo moveTypeMask m < 16 := by
  have hlt : m &&& moveTypeMask < 2 ^ 16 := by
    apply Nat.lt_of_le_of_lt (Nat.and_le_right)
    unfold moveTypeMask; norm_num
  have h : getMoveInfo moveTypeMask m = (m &&& moveTypeMask) / 2 ^ 12 := by
    simp [getMoveInfo, maskOffset, fromMask, toMask, moveTypeMask, moveTypeOffset,
      Nat.shiftRight_eq_div_pow]
  rw [h]
  apply Nat.div_lt_of_lt_mul
  calc m &&& moveTypeMask < 2 ^ 16 := hlt
    _ = 2 ^ 12 * 16 := by norm_num

theorem mask_rank3 :
    ∀ g, g < 16 → ∀ f, f < 8 → ∀ s, s < 8 →
      (castleMask g).testBit (24 + s) = false ∧ (enpMask g f).testBit (24 + s) = false ∧
      (promoMask g f 8).testBit (24 + s) = false ∧
      (promoMask g f 16).testBit (24 + s) = false ∧
      (promoMask g f 24).testBit (24 + s) = false := by
  decide

theorem pushed_pawn (q : QBB) (m : Move) (f : Nat) (hf : f < 8)
    (hT : getMoveInfo toMask m = 24 + f) (hF : getMoveInfo fromMask m = 8 + f)
    (hpawn : q.getPieceCode (getMoveInfo fromMask m) = 1) :
    (q.makeMove m).getPieceType (32 + f) = 2 := by
  obtain ⟨mc, me, m8, m16, m24⟩ :=
    mask_rank3 _ (getMoveInfo_tag_lt m) (file (getMoveInfo toMask m)) (file_lt _) f hf
  have hfl : flip (24 + f) = 32 + f := (flip_clock f hf).2
  have hs : 24 + f < 64 := by omega
  have hb := getPieceCode_bits q _ (getMoveInfo_from_lt m)
  rw [hpawn] at hb
  have hty := getPieceType_bits (q.makeMove m) (32 + f) (by omega)
  have e1 := makeMove_side_bit q m _ hs
  have e2 := makeMove_pbq_bit q m _ hs
  have e3 := makeMove_nbk_bit q m _ hs
  have e4 := makeMove_rqk_bit q m _ hs
  rw [hfl] at e1 e2 e3 e4
  rw [mc] at e1 e4
  rw [m8, me] at e2
  rw [m16] at e3
  rw [m24] at e4
  have hne : ¬ (24 + f = 8 + f) := by omega
  rw [hty, e1, e2, e3, e4]
  simp only [hT, hF, relocBit, hne, if_false, if_true, Bool.xor_false,
    decide_True, Bool.or_true, Bool.not_true, Bool.false_and]
  rw [hF] at hb
  revert hb
  cases q.pbq.testBit (8 + f) <;> cases q.nbk.testBit (8 + f) <;>
    cases q.rqk.testBit (8 + f) <;> simp

/-- C16: for every position whose `epc` byte 2 (bits 16–23) is zero and every move with a
piece on its from-square, if byte 5 of `epc` (the en-passant byte, rank index 5) is
non-zero after `makeMove`, then it is exactly one bit, of some file `f`, and the square of
rank index 4 on file `f` holds a pawn of the side that is not to move
(`getPieceType = 0b0010`). -/
theorem enPassant_capturable (q : QBB) (m : Move) (hzero : byteAt q.epc 2 = 0)
    (hfrom : q.getPieceCode (getMoveInfo fromMask m) ≠ 0)
    (hnz : byteAt (q.makeMove m).epc 5 ≠ 0) :
    ∃ f, f < 8 ∧ byteAt (q.makeMove m).epc 5 = setbit f ∧
      (∀ i, (byteAt (q.makeMove m).epc 5).testBit i = decide (i = f)) ∧
      (q.makeMove m).getPieceType (index 4 f) = theirPiece PieceKind.pawns ∧
      (q.makeMove m).getPieceType (index 4 f) = 0b0010 := by
  have hb := makeMove_enpByte q m hzero hfrom
  by_cases hc : q.getPieceCode (getMoveInfo fromMask m) = pieceCode PieceKind.pawns ∧
      rank (getMoveInfo fromMask m) = 1 ∧
      getMoveInfo toMask m = getMoveInfo fromMask m + 16
  · rw [if_pos hc] at hb
    obtain ⟨c1, c2, c3⟩ := hc
    simp only [rank, pieceCode] at c1 c2
    have hF : getMoveInfo fromMask m = 8 + file (getMoveInfo toMask m) := by
      simp only [file]; omega
    have hT : getMoveInfo toMask m = 24 + file (getMoveInfo toMask m) := by
      simp only [file]; omega
    have hp := pushed_pawn q m (file (getMoveInfo toMask m)) (file_lt _) hT hF c1
    refine ⟨file (getMoveInfo toMask m), file_lt _, hb, ?_, ?_, ?_⟩
    · intro i
      rw [hb, testBit_setbit]
      have := file_lt (getMoveInfo toMask m)
      rw [Bool.eq_iff_iff]
      simp only [Bool.and_eq_true, decide_eq_true_eq]
      omega
    · simp only [index, theirPiece, pieceCode]
      exact hp
    · simp only [index]
      exact hp
  · rw [if_neg hc] at hb
    exact absurd hb hnz

/-- C16, at the start position and the move e2e4: the en-passant byte is the e-file bit
and e4, seen from black as rank index 4, holds a white pawn. -/
theorem enPassant_capturable_witness :
    ∃ f, f < 8 ∧ byteAt (startPos.makeMove 1804).epc 5 = setbit f ∧
      (∀ i, (byteAt (startPos.makeMove 1804).epc 5).testBit i = decide (i = f)) ∧
      (startPos.makeMove 1804).getPieceType (index 4 f) = theirPiece PieceKind.pawns ∧
      (startPos.makeMove 1804).getPieceType (index 4 f) = 0b0010 :=
  enPassant_capturable startPos 1804 (by decide) (by decide) (by decide)

theorem makeMoves_clock (q : QBB) (ms : List Move)
    (heq : clockLo q.epc = clockHi q.epc) (hocc : fromOccupied q ms)
    (hb : clockLo q.epc + ms.length ≤ 127) :
    clockLo (makeMoves q ms).epc = clockHi (makeMoves q ms).epc ∧
      clockLo (makeMoves q ms).epc ≤ clockLo q.epc + ms.length := by
  induction ms generalizing q with
  | nil => exact ⟨heq, by simp [makeMoves]⟩
  | cons m ms ih =>
    obtain ⟨h1, h2⟩ := hocc
    simp only [List.length_cons] at hb
    obtain ⟨c1, c2⟩ := makeMove_clock q m (by omega) (by omega) h1
    have heq2 : clockLo (q.makeMove m).epc = clockHi (q.makeMove m).epc := by
      rw [c1, c2, heq]
    have hle : clockLo (q.makeMove m).epc ≤ clockLo q.epc + 1 := by
      rw [c1]; split <;> omega
    obtain ⟨i1, i2⟩ := ih (q.makeMove m) heq2 h2 (by omega)
    have e : makeMoves q (m :: ms) = makeMoves (q.makeMove m) ms := rfl
    rw [e]
    refine ⟨i1, ?_⟩
    simp only [List.length_cons]
    omega

theorem ofFen_clock (fen : String) (q : QBB)
    (placement active castling enp : List Char) (rest : List (List Char))
    (hs : splitString fen.toList ' ' = placement :: active :: castling :: enp :: rest)
    (hep : EpField enp)
    (hclock : ∀ clock n, rest[0]? = some clock → stoi clock = some n → 0 ≤ n ∧ n ≤ 127)
    (h : QBB.ofFen fen true = some q) :
    ∃ clock, ∃ N : Nat, rest[0]? = some clock ∧ stoi clock = some (N : Int) ∧
      clockLo q.epc = N ∧ clockHi q.epc = N := by
  obtain ⟨N, hN, h1, _, hq⟩ :=
    ofFen_epc fen true q placement active castling enp rest hs hep (fun _ => hclock) h
  obtain ⟨clock, hc, hn⟩ := h1 rfl
  have hE : ∀ j, ((24 ≤ j ∧ j < 31) ∨ (32 ≤ j ∧ j < 39)) →
      (if active = ['w'] then fenEpc active castling enp
        else byteswap_uint64 (fenEpc active castling enp)).testBit j = false := by
    intro j hj
    obtain ⟨s1, s2⟩ := fenEpc_slots active castling enp hep j hj
    split
    · exact s1
    · rw [testBit_byteswap_any, s2]; simp
  refine ⟨clock, N, hc, hn, ?_, ?_⟩
  · apply Nat.eq_of_testBit_eq
    intro j
    rw [testBit_clockLo, hq, Nat.testBit_or, testBit_slots _ _ _ hN hN]
    by_cases hj : j < 7
    · rw [hE (24 + j) (by omega)]
      have c1 : decide (32 ≤ 24 + j ∧ 24 + j < 39) = false := by
        rw [decide_eq_false_iff_not]; omega
      have c2 : decide (24 ≤ 24 + j ∧ 24 + j < 31) = true := by
        rw [decide_eq_true_eq]; omega
      rw [c1, c2]
      simp [hj]
    · have : N.testBit j = false :=
        Nat.testBit_lt_two_pow (Nat.lt_of_lt_of_le hN
          (by calc 128 = 2 ^ 7 := by norm_num
                _ ≤ 2 ^ j := Nat.pow_le_pow_right (by norm_num) (by omega)))
      rw [this]; simp [hj]
  · apply Nat.eq_of_testBit_eq
    intro j
    rw [testBit_clockHi, hq, Nat.testBit_or, testBit_slots _ _ _ hN hN]
    by_cases hj : j < 7
    · rw [hE (32 + j) (by omega)]
      have c1 : decide (32 ≤ 32 + j ∧ 32 + j < 39) = true := by
        rw [decide_eq_true_eq]; omega
      have c2 : decide (24 ≤ 32 + j ∧ 32 + j < 31) = false := by
        rw [decide_eq_false_iff_not]; omega
      rw [c1, c2]
      simp [hj]
    · have : N.testBit j = false :=
        Nat.testBit_lt_two_pow (Nat.lt_of_lt_of_le hN
          (by calc 128 = 2 ^ 7 := by norm_num
                _ ≤ 2 ^ j := Nat.pow_le_pow_right (by norm_num) (by omega)))
      rw [this]; simp [hj]

/-- C17, as stated, fails: the start position parsed with halfmove field 100 has clock
100, an own knight on g1 and f3 empty, and after the move g1f3 (from 6, to 21, tag 0)
both clock slots hold 101. -/
theorem halfmove_cap_counterexample :
    QBB.ofFen "rnbqkbnr/pppppppp/8/8/8/8/PPPPPPPP/RNBQKBNR w KQkq - 100 1" true =
      some startPos100 ∧
    stoi "100".toList = some 100 ∧
    clockLo startPos100.epc = 100 ∧ clockHi startPos100.epc = 100 ∧
    startPos100.getPieceType g1 = myPiece PieceKind.knights ∧
    startPos100.getPieceType 21 = 0 ∧
    clockLo (startPos100.makeMove (mkMove g1 21 0)).epc = 101 ∧
    clockHi (startPos100.makeMove (mkMove g1 21 0)).epc = 101 ∧
    ¬ clockLo (startPos100.makeMove (mkMove g1 21 0)).epc ≤ 100 := by
  decide

/-- C17 (amended): `makeMove` has no cap at 100; the clock grows by at most one per call.
For a FEN whose en-passant field is `-` or a square of the third or sixth rank and whose
halfmove field is a number `N` from 0 to 127, the constructed position holds `N` in both
clock slots, and after any sequence of `k` calls of `makeMove`, each with a piece on its
from-square, with `N + k ≤ 127`, both slots are equal and at most `N + k`. -/
theorem halfmove_clock_growth (fen : String) (q : QBB)
    (placement active castling enp : List Char) (rest : List (List Char))
    (hs : splitString fen.toList ' ' = placement :: active :: castling :: enp :: rest)
    (hep : EpField enp)
    (hclock : ∀ clock n, rest[0]? = some clock → stoi clock = some n → 0 ≤ n ∧ n ≤ 127)
    (h : QBB.ofFen fen true = some q) (ms : List Move) (hocc : fromOccupied q ms) :
    ∃ clock, ∃ N : Nat, rest[0]? = some clock ∧ stoi clock = some (N : Int) ∧
      clockLo q.epc = N ∧ clockHi q.epc = N ∧
      (N + ms.length ≤ 127 →
        clockLo (makeMoves q ms).epc = clockHi (makeMoves q ms).epc ∧
        clockLo (makeMoves q ms).epc ≤ N + ms.length) := by
  obtain ⟨clock, N, hc, hn, l1, l2⟩ :=
    ofFen_clock fen q placement active castling enp rest hs hep hclock h
  refine ⟨clock, N, hc, hn, l1, l2, ?_⟩
  intro hb
  have := makeMoves_clock q ms (by rw [l1, l2]) hocc (by rw [l1]; exact hb)
  rw [l1] at this
  exact this

/-- C17 (amended), at the start position parsed with halfmove field 100 and the move
g1f3: both slots hold 100 before and agree, at most 101, after. -/
theorem halfmove_clock_growth_witness :
    ∃ clock, ∃ N : Nat, ([['1', '0', '0'], ['1']] : List (List Char))[0]? = some clock ∧
      stoi clock = some (N : Int) ∧
      clockLo startPos100.epc = N ∧
      clockHi startPos100.epc = N ∧
      (N + [mkMove g1 21 0].length ≤ 127 →
        clockLo (makeMoves startPos100 [mkMove g1 21 0]).epc =
          clockHi (makeMoves startPos100 [mkMove g1 21 0]).epc ∧
        clockLo (makeMoves startPos100 [mkMove g1 21 0]).epc ≤ N + [mkMove g1 21 0].length) :=
  halfmove_clock_growth "rnbqkbnr/pppppppp/8/8/8/8/PPPPPPPP/RNBQKBNR w KQkq - 100 1"
    startPos100
    "rnbqkbnr/pppppppp/8/8/8/8/PPPPPPPP/RNBQKBNR".toList ['w'] "KQkq".toList ['-']
    [['1', '0', '0'], ['1']] (by decide) (by decide)
    (by
      intro clock n hc hn
      have e : clock = ['1', '0', '0'] := by simpa using hc.symm
      subst e
      have e0 : stoi ['1', '0', '0'] = some 100 := by decide
      rw [e0] at hn
      cases hn
      decide)
    (by decide) [mkMove g1 21 0] ⟨by decide, trivial⟩

theorem bits_of_type (q : QBB) (s : Nat) (hs : s < 64) (a b c d : Bool)
    (h : q.getPieceType s = a.toNat + 2 * b.toNat + 4 * c.toNat + 8 * d.toNat) :
    q.side.testBit s = a ∧ q.pbq.testBit s = b ∧ q.nbk.testBit s = c ∧ q.rqk.testBit s = d := by
  rw [getPieceType_bits q s hs] at h
  revert h
  cases q.side.testBit s <;> cases q.pbq.testBit s <;> cases q.nbk.testBit s <;>
    cases q.rqk.testBit s <;> cases a <;> cases b <;> cases c <;> cases d <;> decide

theorem bits_of_code (a b c : Bool) (h : a.toNat + 2 * b.toNat + 4 * c.toNat = 1) :
    a = true ∧ b = false ∧ c = false := by
  revert h
  cases a <;> cases b <;> cases c <;> decide

theorem shaped_type (q : QBB) (m : Move) (h : MovegenShaped q m) (s : Nat) (hs : s < 64) :
    (q.makeMove m).getPieceType (flip s) =
      movedType (getMoveInfo fromMask m) (getMoveInfo toMask m) (getMoveInfo moveTypeMask m) s
        (q.getPieceType (getMoveInfo fromMask m)) (q.getPieceType s) := by
  obtain ⟨hg, ⟨hmine, hocc⟩, hto, hpromo, hc1, hc2, hep⟩ := h
  have hF := getMoveInfo_from_lt m
  have hT := getMoveInfo_to_lt m
  rw [makeMove_square q m s hs hg]
  rw [isMyPiece_bits q _ hF, getPieceCode_bits q _ hF] at *
  rw [isMyPiece_bits q _ hT, getPieceCode_bits q _ hT] at hto
  rw [getPieceType_bits q _ hF, getPieceType_bits q s hs]
  have hf8 := file_lt (getMoveInfo toMask m)
  have he64 : index 4 (file (getMoveInfo toMask m)) < 64 := by simp only [index]; omega
  simp only [movedType, relocBit]
  simp only [pieceCode, rank, index, a1, d1, e1, f1, h1, myPiece, theirPiece] at *
  generalize getMoveInfo fromMask m = F at *
  generalize getMoveInfo toMask m = T at *
  generalize getMoveInfo moveTypeMask m = g at *
  simp only [file] at *
  interval_cases g
  · by_cases h1 : s = F
    · subst h1
      simp
    · by_cases h2 : s = T
      · subst h2
        have h3 : ¬ (F = s) := fun h => h1 h.symm
        simp [h1, h3]
        revert hocc
        cases q.pbq.testBit F <;> cases q.nbk.testBit F <;> cases q.rqk.testBit F <;>
          cases q.side.testBit F <;> simp
      · have h3 : ¬ (F = s) := fun h => h1 h.symm
        have h4 : ¬ (T = s) := fun h => h2 h.symm
        simp [h1, h2, h3, h4]
        cases q.pbq.testBit s <;> cases q.nbk.testBit s <;> cases q.rqk.testBit s <;>
          cases q.side.testBit s <;> simp
  · obtain ⟨hFe, hk, hr, hd⟩ := hc1 rfl
    subst hFe
    obtain ⟨k0, k1, k2, k3⟩ :=
      bits_of_type q 4 (by norm_num) true false true true (hk.trans (by rfl))
    obtain ⟨r0, r1, r2, r3⟩ :=
      bits_of_type q 0 (by norm_num) true false false true (hr.trans (by rfl))
    obtain ⟨d0, d1, d2, d3⟩ :=
      bits_of_type q 3 (by norm_num) false false false false (hd.trans (by rfl))
    have hT0 : T ≠ 0 := by
      intro h0; subst h0; apply hto; rw [r0, r1, r2, r3]; simp
    by_cases h1 : s = 4
    · subst h1
      simp
    · by_cases h2 : s = T
      · subst h2
        by_cases h3 : s = 3
        · subst h3
          simp [k0, k1, k2, k3]
        · simp [h1, h3, hT0, k0, k1, k2, k3]
      · have h4 : ¬ (T = s) := fun h => h2 h.symm
        by_cases h5 : s = 0
        · subst h5
          simp [h2, h4, r0, r1, r2, r3]
        · by_cases h6 : s = 3
          · subst h6
            simp [h2, h4, d0, d1, d2, d3]
          · have h7 : ¬ (4 = s) := fun h => h1 h.symm
            simp [h1, h2, h4, h5, h6, h7]
            cases q.pbq.testBit s <;> cases q.nbk.testBit s <;> cases q.rqk.testBit s <;>
              cases q.side.testBit s <;> simp
  · obtain ⟨hFe, hk, hr, hd⟩ := hc2 rfl
    subst hFe
    obtain ⟨k0, k1, k2, k3⟩ :=
      bits_of_type q 4 (by norm_num) true false true true (hk.trans (by rfl))
    obtain ⟨r0, r1, r2, r3⟩ :=
      bits_of_type q 7 (by norm_num) true false false true (hr.trans (by rfl))
    obtain ⟨d0, d1, d2, d3⟩ :=
      bits_of_type q 5 (by norm_num) false false false false (hd.trans (by rfl))
    have hT0 : T ≠ 7 := by
      intro h0; subst h0; apply hto; rw [r0, r1, r2, r3]; simp
    by_cases h1 : s = 4
    · subst h1
      simp
    · by_cases h2 : s = T
      · subst h2
        by_cases h3 : s = 5
        · subst h3
          simp [k0, k1, k2, k3]
        · simp [h1, h3, hT0, k0, k1, k2, k3]
      · have h4 : ¬ (T = s) := fun h => h2 h.symm
        by_cases h5 : s = 7
        · subst h5
          simp [h2, h4, r0, r1, r2, r3]
        · by_cases h6 : s = 5
          · subst h6
            simp [h2, h4, d0, d1, d2, d3]
          · have h7 : ¬ (4 = s) := fun h => h1 h.symm
            simp [h1, h2, h4, h5, h6, h7]
            cases q.pbq.testBit s <;> cases q.nbk.testBit s <;> cases q.rqk.testBit s <;>
              cases q.side.testBit s <;> simp
  · obtain ⟨hpawn, hcap⟩ := hep rfl
    obtain ⟨c0, c1, c2, c3⟩ :=
      bits_of_type q (4 * 8 + T % 8) he64 false true false false (hcap.trans (by rfl))
    obtain ⟨p1, p2, p3⟩ := bits_of_code _ _ _ hpawn
    have hEF : ¬ (F = 4 * 8 + T % 8) := by
      intro h0; rw [← h0, hmine] at c0; exact Bool.noConfusion c0
    have hEF2 : ¬ (F = 32 + T % 8) := by omega
    by_cases h1 : s = F
    · subst h1
      simp [hEF, hEF2]
    · have h3 : ¬ (F = s) := fun h => h1 h.symm
      by_cases h2 : s = T
      · subst h2
        by_cases h5 : s = 32 + s % 8
        · have h6 : s = 4 * 8 + s % 8 := by omega
          simp [h1, h3, p1, p2, p3, ← h5, ← h6]
        · have h6 : ¬ (s = 4 * 8 + s % 8) := by omega
          simp [h1, h3, p1, p2, p3, h5, h6, hmine]
      · have h4 : ¬ (T = s) := fun h => h2 h.symm
        by_cases h5 : s = 32 + T % 8
        · have h6 : s = 4 * 8 + T % 8 := by omega
          rw [← h6] at c0 c1 c2 c3
          simp [h1, h2, h3, h4, ← h5, ← h6, c0, c1, c2, c3]
        · have h6 : ¬ (s = 4 * 8 + T % 8) := by omega
          simp [h1, h2, h3, h4, h5, h6]
          cases q.pbq.testBit s <;> cases q.nbk.testBit s <;> cases q.rqk.testBit s <;>
            cases q.side.testBit s <;> simp
  · obtain ⟨hpawn, hrank⟩ := hpromo (by norm_num)
    obtain ⟨p1, p2, p3⟩ := bits_of_code _ _ _ hpawn
    have hT7 : T = 56 + T % 8 := by omega
    have hFT : ¬ (F = T) := by
      intro h0; subst h0; apply hto; rw [hmine, p1, p2, p3]; simp
    have hF7 : ¬ (F = 56 + T % 8) := by omega
    by_cases h1 : s = F
    · subst h1
      simp [hF7]
    · have h3 : ¬ (F = s) := fun h => h1 h.symm
      by_cases h2 : s = T
      · subst h2
        simp [h1, h3, p1, p2, p3, ← hT7]
      · have h4 : ¬ (T = s) := fun h => h2 h.symm
        have h5 : ¬ (s = 56 + T % 8) := by omega
        simp [h1, h2, h3, h4, h5]
        cases q.pbq.testBit s <;> cases q.nbk.testBit s <;> cases q.rqk.testBit s <;>
          cases q.side.testBit s <;> simp
  · obtain ⟨hpawn, hrank⟩ := hpromo (by norm_num)
    obtain ⟨p1, p2, p3⟩ := bits_of_code _ _ _ hpawn
    have hT7 : T = 56 + T % 8 := by omega
    have hFT : ¬ (F = T) := by
      intro h0; subst h0; apply hto; rw [hmine, p1, p2, p3]; simp
    have hF7 : ¬ (F = 56 + T % 8) := by omega
    by_cases h1 : s = F
    · subst h1
      simp [hF7]
    · have h3 : ¬ (F = s) := fun h => h1 h.symm
      by_cases h2 : s = T
      · subst h2
        simp [h1, h3, p1, p2, p3, ← hT7]
      · have h4 : ¬ (T = s) := fun h => h2 h.symm
        have h5 : ¬ (s = 56 + T % 8) := by omega
        simp [h1, h2, h3, h4, h5]
        cases q.pbq.testBit s <;> cases q.nbk.testBit s <;> cases q.rqk.testBit s <;>
          cases q.side.testBit s <;> simp
  · obtain ⟨hpawn, hrank⟩ := hpromo (by norm_num)
    obtain ⟨p1, p2, p3⟩ := bits_of_code _ _ _ hpawn
    have hT7 : T = 56 + T % 8 := by omega
    have hFT : ¬ (F = T) := by
      intro h0; subst h0; apply hto; rw [hmine, p1, p2, p3]; simp
    have hF7 : ¬ (F = 56 + T % 8) := by omega
    by_cases h1 : s = F
    · subst h1
      simp [hF7]
    · have h3 : ¬ (F = s) := fun h => h1 h.symm
      by_cases h2 : s = T
      · subst h2
        simp [h1, h3, p1, p2, p3, ← hT7]
      · have h4 : ¬ (T = s) := fun h => h2 h.symm
        have h5 : ¬ (s = 56 + T % 8) := by omega
        simp [h1, h2, h3, h4, h5]
        cases q.pbq.testBit s <;> cases q.nbk.testBit s <;> cases q.rqk.testBit s <;>
          cases q.side.testBit s <;> simp
  · obtain ⟨hpawn, hrank⟩ := hpromo (by norm_num)
    obtain ⟨p1, p2, p3⟩ := bits_of_code _ _ _ hpawn
    have hT7 : T = 56 + T % 8 := by omega
    have hFT : ¬ (F = T) := by
      intro h0; subst h0; apply hto; rw [hmine, p1, p2, p3]; simp
    have hF7 : ¬ (F = 56 + T % 8) := by omega
    by_cases h1 : s = F
    · subst h1
      simp [hF7]
    · have h3 : ¬ (F = s) := fun h => h1 h.symm
      by_cases h2 : s = T
      · subst h2
        simp [h1, h3, p1, p2, p3, ← hT7]
      · have h4 : ¬ (T = s) := fun h => h2 h.symm
        have h5 : ¬ (s = 56 + T % 8) := by omega
        simp [h1, h2, h3, h4, h5]
        cases q.pbq.testBit s <;> cases q.nbk.testBit s <;> cases q.rqk.testBit s <;>
          cases q.side.testBit s <;> simp

theorem movedType_code_ne (F T g s fromT old : Nat) (hg : g ≤ 7) (hfrom : fromT / 2 ≠ 7)
    (hold : old / 2 ≠ 7) : movedType F T g s fromT old / 2 ≠ 7 := by
  unfold movedType
  split_ifs <;> clear * - hg hfrom hold <;> omega

theorem code_bits_ne (q : QBB) (s : Nat) (hs : s < 64) :
    q.getPieceCode s ≠ 7 ↔
      ¬ (q.pbq.testBit s = true ∧ q.nbk.testBit s = true ∧ q.rqk.testBit s = true) := by
  rw [getPieceCode_bits q s hs]
  cases q.pbq.testBit s <;> cases q.nbk.testBit s <;> cases q.rqk.testBit s <;> decide

theorem shaped_unused (q : QBB) (m : Move) (hq : ∀ s, s < 64 → q.getPieceCode s ≠ 7)
    (h : MovegenShaped q m) : ∀ s, s < 64 → (q.makeMove m).getPieceCode s ≠ 7 := by
  intro s hs
  have ht := shaped_type q m h (flip s) (flip_lt s hs)
  rw [flip_flip s hs] at ht
  rw [QBB.getPieceCode, ht, Nat.shiftRight_eq_div_pow]
  have a := hq _ (getMoveInfo_from_lt m)
  have b := hq _ (flip_lt s hs)
  rw [QBB.getPieceCode, Nat.shiftRight_eq_div_pow] at a b
  exact movedType_code_ne _ _ _ _ _ _ h.1 a b

theorem shapedPath_unused (q : QBB) (ms : List Move)
    (hq : ∀ s, s < 64 → q.getPieceCode s ≠ 7) (hpath : shapedPath q ms) :
    ∀ s, s < 64 → (makeMoves q ms).getPieceCode s ≠ 7 := by
  induction ms generalizing q with
  | nil => exact hq
  | cons m ms ih =>
    obtain ⟨h1, h2⟩ := hpath
    exact ih (q.makeMove m) (shaped_unused q m hq h1) h2

/-- C13, as stated, fails: in the position parsed from the standard start FEN the queen's
square d1 has `rqk` set, `nbk` clear and `pbq` set, and `getPieceCode` is 5 there. -/
theorem code_101_counterexample :
    QBB.ofFen "rnbqkbnr/pppppppp/8/8/8/8/PPPPPPPP/RNBQKBNR w KQkq - 0 1" true =
      some startPos ∧
    startPos.rqk.testBit d1 = true ∧ startPos.nbk.testBit d1 = false ∧
    startPos.pbq.testBit d1 = true ∧ startPos.getPieceCode d1 = 5 := by
  decide

/-- C13 (amended): the code no square carries is 111. In the position parsed from the
standard start FEN no square has `pbq`, `nbk` and `rqk` all set (`getPieceCode` is 7
nowhere), and for every position with no such square and every sequence of moves of the
move generator's shape, the position `makeMove` reaches has no such square either. -/
theorem unused_code_stays (q : QBB) (ms : List Move)
    (hq : ∀ s, s < 64 → q.getPieceCode s ≠ 7) (hpath : shapedPath q ms) :
    QBB.ofFen "rnbqkbnr/pppppppp/8/8/8/8/PPPPPPPP/RNBQKBNR w KQkq - 0 1" true =
      some startPos ∧
    (∀ s, s < 64 → startPos.getPieceCode s ≠ 7) ∧
    (∀ s, s < 64 → (makeMoves q ms).getPieceCode s ≠ 7) ∧
    (∀ s, s < 64 →
      ¬ ((makeMoves q ms).pbq.testBit s = true ∧ (makeMoves q ms).nbk.testBit s = true ∧
        (makeMoves q ms).rqk.testBit s = true)) := by
  have h := shapedPath_unused q ms hq hpath
  refine ⟨by decide, by decide, h, ?_⟩
  intro s hs
  exact (code_bits_ne _ s hs).mp (h s hs)

/-- C13 (amended), from the start position over e2e4 and the reply e7e5 (the same move
number in the flipped view): the queen's square d1 of the position reached does not have
code 7. -/
theorem unused_code_stays_witness :
    (makeMoves startPos [1804, 1804]).getPieceCode d1 ≠ 7 ∧
    ¬ ((makeMoves startPos [1804, 1804]).pbq.testBit d1 = true ∧
      (makeMoves startPos [1804, 1804]).nbk.testBit d1 = true ∧
      (makeMoves startPos [1804, 1804]).rqk.testBit d1 = true) :=
  ⟨(unused_code_stays startPos [1804, 1804] (by decide)
      ⟨by decide, by decide, trivial⟩).2.2.1 d1 (by decide),
    (unused_code_stays startPos [1804, 1804] (by decide)
      ⟨by decide, by decide, trivial⟩).2.2.2 d1 (by decide)⟩

theorem movedType_pawn (F T g s fromT old : Nat) (hg : g ≤ 7)
    (hold : old / 2 ≠ 1) (hp : fromT / 2 = 1 → T / 8 = 7 → 4 ≤ g)
    (hadv : fromT / 2 = 1 → T / 8 ≠ 0) (hrank : s / 8 = 0 ∨ s / 8 = 7) :
    movedType F T g s fromT old / 2 ≠ 1 := by
  unfold movedType
  by_cases a : s = F
  · rw [if_pos a]; decide
  rw [if_neg a]
  by_cases b : s = T
  · rw [if_pos b]
    by_cases c : 4 ≤ g
    · rw [if_pos c]; omega
    rw [if_neg c]
    split
    · decide
    split
    · decide
    · subst b
      clear * - hp hadv hrank c
      omega
  rw [if_neg b]
  split
  · decide
  split
  · decide
  split
  · decide
  split
  · decide
  · clear * - hold
    omega

theorem flip_rank : ∀ s, s < 64 → rank (flip s) = 7 - rank s := by
  decide

/-- C15, as stated, fails: in `4k3/8/8/8/8/8/P7/4K3 w - - 0 1` no pawn stands on rank
index 0 or 7, and the move a2a1 with tag 0 (the move `uciMove2boardMove` gives for the
string `a2a1`) has the move generator's shape: an own pawn on the from-square, an empty
to-square, no tag to justify, and the pawn does not arrive on rank index 7. `makeMove`
relocates the pawn to a1, and after the flip it stands on rank index 7. -/
theorem pawn_end_rank_counterexample :
    QBB.ofFen "4k3/8/8/8/8/8/P7/4K3 w - - 0 1" true = some backPawnPos ∧
    (∀ s, s < 64 → (rank s = 0 ∨ rank s = 7) → backPawnPos.getPieceCode s ≠ 1) ∧
    uciMove2boardMove backPawnPos "a2a1" = mkMove 8 0 0 ∧
    MovegenShaped backPawnPos (mkMove 8 0 0) ∧
    backPawnPos.getPieceCode (getMoveInfo fromMask (mkMove 8 0 0)) = 1 ∧
    rank (getMoveInfo toMask (mkMove 8 0 0)) ≠ 7 ∧
    rank 56 = 7 ∧
    (backPawnPos.makeMove (mkMove 8 0 0)).getPieceCode 56 = 1 ∧
    (backPawnPos.makeMove (mkMove 8 0 0)).pbq.testBit 56 = true ∧
    (backPawnPos.makeMove (mkMove 8 0 0)).nbk.testBit 56 = false ∧
    (backPawnPos.makeMove (mkMove 8 0 0)).rqk.testBit 56 = false := by
  decide

/-- C15 (amended): for every position in which no pawn (`getPieceCode` 1: `pbq` set, `nbk`
and `rqk` clear) stands on rank index 0 or 7 and every move of the move generator's shape
in which a pawn does not arrive on rank index 0 and a pawn arriving on rank index 7
carries a promotion tag (4–7), the position after `makeMove` has no pawn on rank index 0
or 7. -/
theorem no_pawn_on_end_ranks (q : QBB) (m : Move)
    (hq : ∀ s, s < 64 → (rank s = 0 ∨ rank s = 7) → q.getPieceCode s ≠ 1)
    (h : MovegenShaped q m)
    (hadv : q.getPieceCode (getMoveInfo fromMask m) = 1 →
      rank (getMoveInfo toMask m) ≠ 0)
    (hpromo : q.getPieceCode (getMoveInfo fromMask m) = 1 →
      rank (getMoveInfo toMask m) = 7 → 4 ≤ getMoveInfo moveTypeMask m) :
    ∀ s, s < 64 → (rank s = 0 ∨ rank s = 7) →
      (q.makeMove m).getPieceCode s ≠ 1 ∧
      ¬ ((q.makeMove m).pbq.testBit s = true ∧ (q.makeMove m).nbk.testBit s = false ∧
        (q.makeMove m).rqk.testBit s = false) := by
  intro s hs hr
  have hfr := flip_rank s hs
  have hr2 : rank (flip s) = 0 ∨ rank (flip s) = 7 := by omega
  have ht := shaped_type q m h (flip s) (flip_lt s hs)
  rw [flip_flip s hs] at ht
  have b := hq _ (flip_lt s hs) hr2
  simp only [QBB.getPieceCode, Nat.shiftRight_eq_div_pow, pow_one, rank] at b hadv hpromo hr2
  have hcode : (q.makeMove m).getPieceCode s ≠ 1 := by
    rw [QBB.getPieceCode, ht, Nat.shiftRight_eq_div_pow, pow_one]
    exact movedType_pawn _ _ _ _ _ _ h.1 b hpromo hadv hr2
  refine ⟨hcode, ?_⟩
  rw [getPieceCode_bits _ s hs] at hcode
  revert hcode
  cases (q.makeMove m).pbq.testBit s <;> cases (q.makeMove m).nbk.testBit s <;>
    cases (q.makeMove m).rqk.testBit s <;> decide

/-- C15 (amended), at scenario S4: in `8/P6k/8/8/8/8/8/7K w - - 0 1` the pawn move a7a8 with the
queen tag 7 leaves no pawn on the mirrored a8. -/
theorem no_pawn_on_end_ranks_witness :
    (promoPos.makeMove (mkMove 48 56 7)).getPieceCode (flip 56) ≠ 1 ∧
    ¬ ((promoPos.makeMove (mkMove 48 56 7)).pbq.testBit (flip 56) = true ∧
      (promoPos.makeMove (mkMove 48 56 7)).nbk.testBit (flip 56) = false ∧
      (promoPos.makeMove (mkMove 48 56 7)).rqk.testBit (flip 56) = false) :=
  no_pawn_on_end_ranks promoPos (mkMove 48 56 7) (by decide) (by decide) (by decide) (by decide)
    (flip 56) (by decide) (by decide)

theorem knightPos_fen :
    QBB.ofFen "4k3/8/8/8/8/8/8/R2NK2R w KQ - 0 1" true = some knightPos := by
  decide

theorem filter_eq_single : ∀ k, k < 64 →
    (List.range 64).filter (fun i => decide (i = k)) = [k] := by
  decide

theorem popcnt_one_iff (x : Nat) :
    popcnt64 x = 1 ↔ ∃ k, k < 64 ∧ ∀ i, i < 64 → (x.testBit i = true ↔ i = k) := by
  unfold popcnt64
  constructor
  · intro h
    obtain ⟨k, hk⟩ := List.length_eq_one.mp h
    have hmem : ∀ i, i ∈ (List.range 64).filter (fun i => x.testBit i) ↔ i = k := by
      intro i; rw [hk]; simp
    have hk64 : k < 64 := by
      have := (hmem k).mpr rfl
      rw [List.mem_filter, List.mem_range] at this
      exact this.1
    refine ⟨k, hk64, ?_⟩
    intro i hi
    rw [← hmem i, List.mem_filter, List.mem_range]
    simp [hi]
  · rintro ⟨k, hk, h⟩
    have e : (List.range 64).filter (fun i => x.testBit i) =
        (List.range 64).filter (fun i => decide (i = k)) := by
      apply List.filter_congr
      intro i hi
      rw [List.mem_range] at hi
      rw [Bool.eq_iff_iff, decide_eq_true_eq]
      exact h i hi
    rw [e, filter_eq_single k hk]
    rfl

theorem getPieceType_lt (q : QBB) (s : Nat) (hs : s < 64) : q.getPieceType s < 16 := by
  rw [getPieceType_bits q s hs]
  cases q.side.testBit s <;> cases q.pbq.testBit s <;> cases q.nbk.testBit s <;>
    cases q.rqk.testBit s <;> decide

theorem king_inside_iff (q : QBB) (s : Nat) (hs : s < 64) :
    (q.rqk &&& q.nbk &&& q.side).testBit s = true ↔
      (q.getPieceType s / 4 = 3 ∧ q.getPieceType s % 2 = 1) := by
  rw [getPieceType_bits q s hs]
  simp only [Nat.testBit_and]
  cases q.side.testBit s <;> cases q.pbq.testBit s <;> cases q.nbk.testBit s <;>
    cases q.rqk.testBit s <;> decide

theorem king_outside_iff (q : QBB) (s : Nat) (hs : s < 64) :
    (q.rqk &&& q.nbk &&& not64 q.side).testBit s = true ↔
      (q.getPieceType s / 4 = 3 ∧ q.getPieceType s % 2 = 0) := by
  rw [getPieceType_bits q s hs]
  simp only [Nat.testBit_and, testBit_not64, hs, decide_True, Bool.true_and]
  cases q.side.testBit s <;> cases q.pbq.testBit s <;> cases q.nbk.testBit s <;>
    cases q.rqk.testBit s <;> decide

theorem movedType_theirKing (F T g s tF old : Nat) (hg : g ≤ 7)
    (hF : s = F → old % 2 = 1) (hT : s = T → old / 4 ≠ 3)
    (hsrc : (g = 1 ∧ s = a1) ∨ (g = 2 ∧ s = h1) → old = 9)
    (hdst : (g = 1 ∧ s = d1) ∨ (g = 2 ∧ s = f1) → old = 0)
    (hep : g = 3 ∧ s = index 4 (file T) → old = 2) :
    (movedType F T g s tF old / 4 = 3 ∧ movedType F T g s tF old % 2 = 1) ↔
      (old / 4 = 3 ∧ old % 2 = 0) := by
  unfold movedType
  by_cases a : s = F
  · rw [if_pos a]
    have := hF a
    clear * - this
    omega
  rw [if_neg a]
  by_cases b : s = T
  · rw [if_pos b]
    have := hT b
    split
    · clear * - this hg; omega
    split
    · clear * - this; omega
    split
    · clear * - this; omega
    · clear * - this; omega
  rw [if_neg b]
  by_cases c : (g = 1 ∧ s = a1) ∨ (g = 2 ∧ s = h1)
  · rw [if_pos c]
    have := hsrc c
    clear * - this
    omega
  rw [if_neg c]
  by_cases d : (g = 1 ∧ s = d1) ∨ (g = 2 ∧ s = f1)
  · rw [if_pos d]
    have := hdst d
    clear * - this
    omega
  rw [if_neg d]
  by_cases e : g = 3 ∧ s = index 4 (file T)
  · rw [if_pos e]
    have := hep e
    clear * - this
    omega
  rw [if_neg e]
  clear * -
  split <;> omega

theorem movedType_ownKing (F T g s tF old : Nat) (hg : g ≤ 7) (htF : tF < 16)
    (hpromo : 4 ≤ g → tF / 2 = 1)
    (hodd : ¬ ((g = 1 ∧ T = d1) ∨ (g = 2 ∧ T = f1)))
    (hpawn : g = 3 → tF / 2 = 1)
    (hsrc : (g = 1 ∧ s = a1) ∨ (g = 2 ∧ s = h1) → old = 9)
    (hdst : (g = 1 ∧ s = d1) ∨ (g = 2 ∧ s = f1) → old = 0)
    (hep : g = 3 ∧ s = index 4 (file T) → old = 2) :
    (movedType F T g s tF old / 4 = 3 ∧ movedType F T g s tF old % 2 = 0) ↔
      ((s ≠ F ∧ s = T ∧ tF / 4 = 3) ∨ (s ≠ F ∧ s ≠ T ∧ old / 4 = 3 ∧ old % 2 = 1)) := by
  unfold movedType
  by_cases a : s = F
  · rw [if_pos a]
    clear * - a
    constructor
    · intro h; omega
    · rintro (h | h)
      · exact absurd a h.1
      · exact absurd a h.1
  rw [if_neg a]
  by_cases b : s = T
  · rw [if_pos b]
    by_cases c : 4 ≤ g
    · rw [if_pos c]
      have := hpromo c
      clear * - this hg a b
      constructor
      · intro h; omega
      · rintro (h | h)
        · omega
        · exact absurd b h.2.1
    rw [if_neg c, if_neg hodd]
    by_cases d : g = 3 ∧ T = index 4 (file T)
    · rw [if_pos d]
      have := hpawn d.1
      clear * - this a b
      constructor
      · intro h; omega
      · rintro (h | h)
        · omega
        · exact absurd b h.2.1
    rw [if_neg d]
    clear * - htF a b
    constructor
    · intro h; left; exact ⟨a, b, by omega⟩
    · rintro (h | h)
      · omega
      · exact absurd b h.2.1
  rw [if_neg b]
  by_cases c : (g = 1 ∧ s = a1) ∨ (g = 2 ∧ s = h1)
  · rw [if_pos c]
    have := hsrc c
    clear * - this a b
    constructor
    · intro h; omega
    · rintro (h | h)
      · exact absurd h.2.1 b
      · omega
  rw [if_neg c]
  by_cases d : (g = 1 ∧ s = d1) ∨ (g = 2 ∧ s = f1)
  · rw [if_pos d]
    have := hdst d
    clear * - this a b
    constructor
    · intro h; omega
    · rintro (h | h)
      · exact absurd h.2.1 b
      · omega
  rw [if_neg d]
  by_cases e : g = 3 ∧ s = index 4 (file T)
  · rw [if_pos e]
    have := hep e
    clear * - this a b
    constructor
    · intro h; omega
    · rintro (h | h)
      · exact absurd h.2.1 b
      · omega
  rw [if_neg e]
  clear * - a b
  constructor
  · intro h
    right
    refine ⟨a, b, ?_⟩
    split at h <;> omega
  · rintro (h | h)
    · exact absurd h.2.1 b
    · obtain ⟨_, _, h3, h4⟩ := h
      split <;> omega

theorem one_king_step (q : QBB) (m : Move) (k1 k2 : Nat) (hk1 : k1 < 64) (hk2 : k2 < 64)
    (hin : ∀ i, i < 64 → ((q.rqk &&& q.nbk &&& q.side).testBit i = true ↔ i = k1))
    (hout : ∀ i, i < 64 → ((q.rqk &&& q.nbk &&& not64 q.side).testBit i = true ↔ i = k2))
    (h : MovegenShaped q m)
    (hking : ¬ (q.rqk.testBit (getMoveInfo toMask m) = true ∧
      q.nbk.testBit (getMoveInfo toMask m) = true))
    (hdest : (getMoveInfo moveTypeMask m = 1 → getMoveInfo toMask m ≠ d1) ∧
      (getMoveInfo moveTypeMask m = 2 → getMoveInfo toMask m ≠ f1)) :
    (∀ i, i < 64 →
      (((q.makeMove m).rqk &&& (q.makeMove m).nbk &&& (q.makeMove m).side).testBit i = true ↔
        i = flip k2)) ∧
    (∀ i, i < 64 →
      (((q.makeMove m).rqk &&& (q.makeMove m).nbk &&&
          not64 (q.makeMove m).side).testBit i = true ↔
        i = flip (if getMoveInfo fromMask m = k1 then getMoveInfo toMask m else k1))) := by
  obtain ⟨hg, ⟨hmine, hocc⟩, hto, hpromo, hc1, hc2, hep⟩ := h
  have hF := getMoveInfo_from_lt m
  have hT := getMoveInfo_to_lt m
  have hTk : ¬ (q.getPieceType (getMoveInfo toMask m) / 4 = 3) := by
    intro hc
    apply hking
    rw [getPieceType_bits q _ hT] at hc
    revert hc
    cases q.side.testBit (getMoveInfo toMask m) <;> cases q.pbq.testBit (getMoveInfo toMask m) <;>
      cases q.nbk.testBit (getMoveInfo toMask m) <;>
      cases q.rqk.testBit (getMoveInfo toMask m) <;> decide
  have hFodd : q.getPieceType (getMoveInfo fromMask m) % 2 = 1 := by
    rw [isMyPiece_bits q _ hF] at hmine
    rw [getPieceType_bits q _ hF, hmine]
    simp only [Bool.toNat_true]
    omega
  have hsrc : ∀ s, (getMoveInfo moveTypeMask m = 1 ∧ s = a1) ∨
      (getMoveInfo moveTypeMask m = 2 ∧ s = h1) → q.getPieceType s = 9 := by
    rintro s (⟨e, rfl⟩ | ⟨e, rfl⟩)
    · exact (hc1 e).2.2.1
    · exact (hc2 e).2.2.1
  have hdst : ∀ s, (getMoveInfo moveTypeMask m = 1 ∧ s = d1) ∨
      (getMoveInfo moveTypeMask m = 2 ∧ s = f1) → q.getPieceType s = 0 := by
    rintro s (⟨e, rfl⟩ | ⟨e, rfl⟩)
    · exact (hc1 e).2.2.2
    · exact (hc2 e).2.2.2
  have hepsq : ∀ s, getMoveInfo moveTypeMask m = 3 ∧ s = index 4 (file (getMoveInfo toMask m)) →
      q.getPieceType s = 2 := by
    rintro s ⟨e, rfl⟩
    exact (hep e).2
  have hshape : MovegenShaped q m := ⟨hg, ⟨hmine, hocc⟩, hto, hpromo, hc1, hc2, hep⟩
  have hFT : getMoveInfo fromMask m ≠ getMoveInfo toMask m := by
    intro e
    apply hto
    rw [← e]
    exact ⟨hmine, hocc⟩
  have hFk : q.getPieceType (getMoveInfo fromMask m) / 4 = 3 ↔ getMoveInfo fromMask m = k1 := by
    rw [← hin _ hF, king_inside_iff q _ hF]
    constructor
    · intro e; exact ⟨e, hFodd⟩
    · intro e; exact e.1
  have hTk1 : getMoveInfo toMask m ≠ k1 := by
    intro e
    have := (hin _ hT).mpr e
    rw [king_inside_iff q _ hT] at this
    exact hTk this.1
  constructor
  · intro i hi
    have hs := flip_lt i hi
    have ht := shaped_type q m hshape (flip i) hs
    rw [flip_flip i hi] at ht
    rw [king_inside_iff _ i hi, ht,
      movedType_theirKing _ _ _ _ _ _ hg (fun e => by rw [e]; exact hFodd)
        (fun e => by rw [e]; exact hTk) (hsrc _) (hdst _) (hepsq _),
      ← king_outside_iff q _ hs, hout _ hs]
    constructor
    · intro e; rw [← e, flip_flip i hi]
    · intro e; rw [e, flip_flip k2 hk2]
  · intro i hi
    have hs := flip_lt i hi
    have ht := shaped_type q m hshape (flip i) hs
    rw [flip_flip i hi] at ht
    have hodd : ¬ ((getMoveInfo moveTypeMask m = 1 ∧ getMoveInfo toMask m = d1) ∨
        (getMoveInfo moveTypeMask m = 2 ∧ getMoveInfo toMask m = f1)) := by
      rintro (⟨e1, e2⟩ | ⟨e1, e2⟩)
      · exact hdest.1 e1 e2
      · exact hdest.2 e1 e2
    have hp1 : 4 ≤ getMoveInfo moveTypeMask m →
        q.getPieceType (getMoveInfo fromMask m) / 2 = 1 := by
      intro e
      have := (hpromo e).1
      rw [QBB.getPieceCode, Nat.shiftRight_eq_div_pow] at this
      exact this
    have hp2 : getMoveInfo moveTypeMask m = 3 →
        q.getPieceType (getMoveInfo fromMask m) / 2 = 1 := by
      intro e
      have := (hep e).1
      rw [QBB.getPieceCode, Nat.shiftRight_eq_div_pow] at this
      exact this
    rw [king_outside_iff _ i hi, ht,
      movedType_ownKing _ _ _ _ _ _ hg (getPieceType_lt q _ hF) hp1 hodd hp2
        (hsrc _) (hdst _) (hepsq _),
      ← king_inside_iff q _ hs, hin _ hs, hFk]
    have hflip : ∀ k, k < 64 → (i = flip k ↔ flip i = k) := by
      intro k hk
      constructor
      · intro e; rw [e, flip_flip k hk]
      · intro e; rw [← e, flip_flip i hi]
    by_cases hc : getMoveInfo fromMask m = k1
    · rw [if_pos hc, hflip _ hT]
      generalize flip i = s at *
      generalize getMoveInfo fromMask m = F at *
      generalize getMoveInfo toMask m = T at *
      clear * - hc hFT hTk1
      omega
    · rw [if_neg hc, hflip _ hk1]
      generalize flip i = s at *
      generalize getMoveInfo fromMask m = F at *
      generalize getMoveInfo toMask m = T at *
      clear * - hc hFT hTk1
      omega

/-- C14, as stated, fails: in `4k3/8/8/8/8/8/8/R2NK2R w KQ - 0 1` each side has one king,
the own king stands on e1 with own rooks on both corners, and c1 is empty; the move
e1→c1 with the castle tag 1 meets every condition of the claim, but the tag's table entry
toggles `rqk` on d1, where the own knight stands, and turns it into a second king of the
side that is to move afterwards. -/
theorem one_king_counterexample :
    QBB.ofFen "4k3/8/8/8/8/8/8/R2NK2R w KQ - 0 1" true = some knightPos ∧
    popcnt64 (knightPos.rqk &&& knightPos.nbk &&& knightPos.side) = 1 ∧
    popcnt64 (knightPos.rqk &&& knightPos.nbk &&& not64 knightPos.side) = 1 ∧
    getMoveInfo fromMask (mkMove e1 c1 1) = e1 ∧ getMoveInfo toMask (mkMove e1 c1 1) = c1 ∧
    getMoveInfo moveTypeMask (mkMove e1 c1 1) = 1 ∧
    knightPos.getPieceType e1 = myPiece PieceKind.king ∧
    knightPos.getPieceType a1 = myPiece PieceKind.rooks ∧
    knightPos.getPieceType h1 = myPiece PieceKind.rooks ∧
    knightPos.getPieceType c1 = 0 ∧
    knightPos.getPieceType d1 = myPiece PieceKind.knights ∧
    (knightPos.makeMove (mkMove e1 c1 1)).getPieceType (flip d1) = myPiece PieceKind.king ∧
    popcnt64 ((knightPos.makeMove (mkMove e1 c1 1)).rqk &&&
      (knightPos.makeMove (mkMove e1 c1 1)).nbk &&&
      (knightPos.makeMove (mkMove e1 c1 1)).side) = 2 := by
  decide

/-- C14 (amended): for every position with `popcount (rqk & nbk & side) = 1` and
`popcount (rqk & nbk & ~side) = 1` and every move of the move generator's shape (which
for a castle tag includes an empty rook destination) whose to-square holds no king and
which, for a castle tag, does not put the king on the rook destination (d1 for tag 1, f1
for tag 2), the position after `makeMove` again has exactly one bit of `rqk & nbk` inside
`side` and exactly one outside. -/
theorem one_king_preserved (q : QBB) (m : Move)
    (hin : popcnt64 (q.rqk &&& q.nbk &&& q.side) = 1)
    (hout : popcnt64 (q.rqk &&& q.nbk &&& not64 q.side) = 1)
    (h : MovegenShaped q m)
    (hking : ¬ (q.rqk.testBit (getMoveInfo toMask m) = true ∧
      q.nbk.testBit (getMoveInfo toMask m) = true))
    (hdest : (getMoveInfo moveTypeMask m = 1 → getMoveInfo toMask m ≠ d1) ∧
      (getMoveInfo moveTypeMask m = 2 → getMoveInfo toMask m ≠ f1)) :
    popcnt64 ((q.makeMove m).rqk &&& (q.makeMove m).nbk &&& (q.makeMove m).side) = 1 ∧
    popcnt64 ((q.makeMove m).rqk &&& (q.makeMove m).nbk &&& not64 (q.makeMove m).side) = 1 := by
  obtain ⟨k1, hk1, h1⟩ := (popcnt_one_iff _).mp hin
  obtain ⟨k2, hk2, h2⟩ := (popcnt_one_iff _).mp hout
  obtain ⟨r1, r2⟩ := one_king_step q m k1 k2 hk1 hk2 h1 h2 h hking hdest
  constructor
  · exact (popcnt_one_iff _).mpr ⟨flip k2, flip_lt k2 hk2, r1⟩
  · refine (popcnt_one_iff _).mpr ⟨_, flip_lt _ ?_, r2⟩
    split
    · exact getMoveInfo_to_lt m
    · exact hk1

/-- C14 (amended), at `r3k2r/8/8/8/8/8/8/R3K2R w KQkq - 0 1` and the castle e1→c1 with
tag 1 (rook a1→d1). -/
theorem one_king_preserved_witness :
    popcnt64 ((castlePos.makeMove (mkMove e1 c1 1)).rqk &&&
      (castlePos.makeMove (mkMove e1 c1 1)).nbk &&&
      (castlePos.makeMove (mkMove e1 c1 1)).side) = 1 ∧
    popcnt64 ((castlePos.makeMove (mkMove e1 c1 1)).rqk &&&
      (castlePos.makeMove (mkMove e1 c1 1)).nbk &&&
      not64 (castlePos.makeMove (mkMove e1 c1 1)).side) = 1 :=
  one_king_preserved castlePos (mkMove e1 c1 1) (by decide) (by decide) (by decide)
    (by decide) (by decide)

theorem char_le_iff (a b : Char) : a ≤ b ↔ a.toNat ≤ b.toNat := Iff.rfl

theorem fileNumber_lt (c : Char) (h1 : 'a' ≤ c) (h2 : c ≤ 'h') : fileNumber c < 8 := by
  rw [char_le_iff] at h1 h2
  have e1 : 'a'.toNat = 97 := rfl
  have e2 : 'h'.toNat = 104 := rfl
  unfold fileNumber
  omega

theorem flip_inner : ∀ j, j < 64 → ((8 ≤ j ∧ j < 24) ∨ (40 ≤ j ∧ j < 56)) →
    ((8 ≤ flip j ∧ flip j < 24) ∨ (40 ≤ flip j ∧ flip j < 56)) := by
  decide

theorem flip_eq_iff (i j : Nat) (hi : i < 64) (hj : j < 64) : flip i = j ↔ i = flip j := by
  constructor
  · intro e; rw [← e, flip_flip i hi]
  · intro e; rw [e, flip_flip j hj]

theorem ofFen_inner (fen : String) (b : Bool) (q : QBB)
    (placement active castling enp : List Char) (rest : List (List Char))
    (hs : splitString fen.toList ' ' = placement :: active :: castling :: enp :: rest)
    (hep : EpField enp)
    (hclock : b = true → ∀ clock n, rest[0]? = some clock → stoi clock = some n →
      0 ≤ n ∧ n ≤ 127)
    (h : QBB.ofFen fen b = some q) (j : Nat)
    (hj : (8 ≤ j ∧ j < 24) ∨ (40 ≤ j ∧ j < 56)) :
    q.epc.testBit j =
      (decide (enp ≠ ['-']) &&
        decide (j = if active = ['w'] then epSquare enp else flip (epSquare enp))) := by
  obtain ⟨N, hN, _, _, hq⟩ := ofFen_epc fen b q placement active castling enp rest hs hep hclock h
  have hU : ∀ k, ((8 ≤ k ∧ k < 24) ∨ (40 ≤ k ∧ k < 56)) →
      (castlingUnion castling).testBit k = false := by
    intro k hk
    by_contra hc
    have := castlingUnion_bits castling k (by simpa using hc)
    omega
  have hE : ∀ k, ((8 ≤ k ∧ k < 24) ∨ (40 ≤ k ∧ k < 56)) →
      (fenEpc active castling enp).testBit k =
        (decide (enp ≠ ['-']) && decide (epSquare enp = k)) := by
    intro k hk
    rw [testBit_fenEpc, hU k hk]
    have a1 : decide (k = 31 ∨ k = 39) = false := by
      rw [decide_eq_false_iff_not]; omega
    have a2 : decide (k < 64) = true := by
      rw [decide_eq_true_eq]; omega
    rw [a1, a2]
    simp
  have c1 : decide (32 ≤ j ∧ j < 39) = false := by
    rw [decide_eq_false_iff_not]; omega
  have c2 : decide (24 ≤ j ∧ j < 31) = false := by
    rw [decide_eq_false_iff_not]; omega
  have hj64 : j < 64 := by omega
  rw [hq, Nat.testBit_or, testBit_slots _ _ _ hN hN, c1, c2]
  by_cases hw : active = ['w']
  · simp only [hw, if_true]
    rw [← hw, hE j hj]
    rw [Bool.eq_iff_iff]
    simp only [Bool.false_and, Bool.or_false, Bool.and_eq_true, decide_eq_true_eq]
    constructor
    · rintro ⟨a, b⟩; exact ⟨a, b.symm⟩
    · rintro ⟨a, b⟩; exact ⟨a, b.symm⟩
  · simp only [hw, if_false]
    rw [testBit_byteswap_at _ j hj64, hE (flip j) (flip_inner j hj64 hj)]
    rw [Bool.eq_iff_iff]
    simp only [Bool.false_and, Bool.or_false, Bool.and_eq_true, decide_eq_true_eq]
    by_cases he : enp = ['-']
    · simp [he]
    · have hep2 : (16 ≤ epSquare enp ∧ epSquare enp < 24) ∨
          (40 ≤ epSquare enp ∧ epSquare enp < 48) := by
        rcases hep with h | h
        · exact absurd h he
        · exact h
      have he64 : epSquare enp < 64 := by omega
      constructor
      · rintro ⟨a, b⟩
        refine ⟨a, ?_⟩
        rw [b, flip_flip j hj64]
      · rintro ⟨a, b⟩
        refine ⟨a, ?_⟩
        rw [b, flip_flip _ he64]

theorem epSquare_standard (c : Char) (h1 : 'a' ≤ c) (h2 : c ≤ 'h') :
    epSquare [c, '6'] = 40 + fileNumber c ∧ epSquare [c, '3'] = 16 + fileNumber c ∧
      flip (16 + fileNumber c) = 40 + fileNumber c := by
  have hf := fileNumber_lt c h1 h2
  have e6 : '6'.toNat - '0'.toNat - 1 = 5 := by decide
  have e3 : '3'.toNat - '0'.toNat - 1 = 2 := by decide
  have hfl : ∀ i, i < 8 → flip (16 + i) = 40 + i := by decide
  refine ⟨?_, ?_, hfl _ hf⟩
  · simp only [epSquare, List.getD_cons_succ, List.getD_cons_zero, e6, index]
  · simp only [epSquare, List.getD_cons_succ, List.getD_cons_zero, e3, index]

/-- C21, as stated, fails: for `8/8/8/8/8/8/8/k6K w - - 128 1` the en-passant field is
`-`, but the halfmove number 128 does not fit the 7-bit clock slots: the constructor's
addition of the sentinels carries out of byte 4 and bit 40, a bit outside the castling
bytes, the clock bytes and the sentinels, is set. And for `8/8/8/8/8/8/8/k6K w - e4 0 1`
the field names a square, but its bit 28 lies in clock byte 3: the bits set in `epc` are
28 and the sentinels 31 and 39, so no bit outside those bytes is set. -/
theorem fen_enPassant_counterexample :
    splitString "8/8/8/8/8/8/8/k6K w - - 128 1".toList ' ' =
      ["8/8/8/8/8/8/8/k6K".toList, ['w'], ['-'], ['-'], "128".toList, ['1']] ∧
    (QBB.ofFen "8/8/8/8/8/8/8/k6K w - - 128 1" true).map (fun q => q.epc) =
      some 0x10100000000 ∧
    (QBB.ofFen "8/8/8/8/8/8/8/k6K w - - 128 1" true).map (fun q => q.epc.testBit 40) =
      some true ∧
    splitString "8/8/8/8/8/8/8/k6K w - e4 0 1".toList ' ' =
      ["8/8/8/8/8/8/8/k6K".toList, ['w'], ['-'], ['e', '4'], ['0'], ['1']] ∧
    (QBB.ofFen "8/8/8/8/8/8/8/k6K w - e4 0 1" true).map
        (fun q => (List.range 64).filter (fun j => q.epc.testBit j)) =
      some [28, 31, 39] := by
  decide

/-- C21 (amended): for a FEN whose en-passant field is `-` or a square of the third or
sixth rank and whose halfmove field (when it is read) is a number from 0 to 127: among the
bits of
`epc` outside the castling bytes 0 and 7 and the clock and sentinel bytes 3 and 4 (bits
8–23 and 40–55), none is set when the field is `-`, and when the field names a square
exactly one is set, at the named square for `w` to move and at its mirror image
otherwise; for a sixth-rank square with `w` to move and for a third-rank square with
black to move that bit is on rank index 5 at the named file. -/
theorem fen_enPassant_field (fen : String) (b : Bool) (q : QBB)
    (placement active castling enp : List Char) (rest : List (List Char))
    (hs : splitString fen.toList ' ' = placement :: active :: castling :: enp :: rest)
    (hep : EpField enp)
    (hclock : b = true → ∀ clock n, rest[0]? = some clock → stoi clock = some n →
      0 ≤ n ∧ n ≤ 127)
    (h : QBB.ofFen fen b = some q) :
    (enp = ['-'] → ∀ j, (8 ≤ j ∧ j < 24) ∨ (40 ≤ j ∧ j < 56) → q.epc.testBit j = false) ∧
    (enp ≠ ['-'] →
      ((8 ≤ (if active = ['w'] then epSquare enp else flip (epSquare enp)) ∧
          (if active = ['w'] then epSquare enp else flip (epSquare enp)) < 24) ∨
        (40 ≤ (if active = ['w'] then epSquare enp else flip (epSquare enp)) ∧
          (if active = ['w'] then epSquare enp else flip (epSquare enp)) < 56)) ∧
      ∀ j, (8 ≤ j ∧ j < 24) ∨ (40 ≤ j ∧ j < 56) →
        (q.epc.testBit j = true ↔
          j = if active = ['w'] then epSquare enp else flip (epSquare enp))) ∧
    (∀ c, 'a' ≤ c → c ≤ 'h' →
      (active = ['w'] ∧ enp = [c, '6']) ∨ (active ≠ ['w'] ∧ enp = [c, '3']) →
      (if active = ['w'] then epSquare enp else flip (epSquare enp)) =
          index 5 (fileNumber c) ∧
        rank (index 5 (fileNumber c)) = 5 ∧ file (index 5 (fileNumber c)) = fileNumber c ∧
        q.epc.testBit (index 5 (fileNumber c)) = true) := by
  have hin := ofFen_inner fen b q placement active castling enp rest hs hep hclock h
  refine ⟨?_, ?_, ?_⟩
  · intro he j hj
    rw [hin j hj, he]
    simp
  · intro he
    have hep2 : (16 ≤ epSquare enp ∧ epSquare enp < 24) ∨
        (40 ≤ epSquare enp ∧ epSquare enp < 48) := by
      rcases hep with h | h
      · exact absurd h he
      · exact h
    constructor
    · split
      · omega
      · have := flip_inner (epSquare enp) (by omega) (by omega)
        exact this
    · intro j hj
      rw [hin j hj]
      simp [he]
  · intro c c1 c2 hstd
    obtain ⟨s6, s3, sfl⟩ := epSquare_standard c c1 c2
    have hf := fileNumber_lt c c1 c2
    have hk : (if active = ['w'] then epSquare enp else flip (epSquare enp)) =
        index 5 (fileNumber c) := by
      rcases hstd with ⟨hw, he⟩ | ⟨hw, he⟩
      · rw [if_pos hw, he, s6, index]
      · rw [if_neg hw, he, s3, sfl, index]
    have hne : enp ≠ ['-'] := by
      rcases hstd with ⟨_, he⟩ | ⟨_, he⟩
      · rw [he]; intro hc; cases hc
      · rw [he]; intro hc; cases hc
    refine ⟨hk, ?_, ?_, ?_⟩
    · simp only [rank, index]; omega
    · simp only [file, index]; omega
    · rw [hin _ (by simp only [index]; omega), hk]
      simp [hne]

/-- C21 (amended), at the position after e2e4 (`b` to move, field `e3`): the bit of rank
index 5 on the e-file is set. -/
theorem fen_enPassant_field_witness :
    (startPos.makeMove 1804).epc.testBit (index 5 (fileNumber 'e')) = true :=
  ((fen_enPassant_field "rnbqkbnr/pppppppp/8/8/4P3/8/PPPP1PPP/RNBQKBNR b KQkq e3 0 1" true
    (startPos.makeMove 1804) "rnbqkbnr/pppppppp/8/8/4P3/8/PPPP1PPP/RNBQKBNR".toList ['b']
    "KQkq".toList ['e', '3'] [['0'], ['1']] (by decide) (by decide)
    (by
      intro _ clock n hc hn
      have e : clock = ['0'] := by simpa using hc.symm
      subst e
      have e0 : stoi ['0'] = some 0 := by decide
      rw [e0] at hn
      cases hn
      decide)
    (by decide)).2.2 'e' (by decide) (by decide) (Or.inr ⟨by decide, rfl⟩)).2.2.2

theorem clock_of_or (E N : Nat) (hN : N < 128)
    (hE : ∀ j, ((24 ≤ j ∧ j < 31) ∨ (32 ≤ j ∧ j < 39)) → E.testBit j = false) :
    clockLo (E ||| ((N <<< 32) ||| (N <<< 24))) = N ∧
      clockHi (E ||| ((N <<< 32) ||| (N <<< 24))) = N := by
  have hhigh : ∀ j, ¬ j < 7 → N.testBit j = false := by
    intro j hj
    exact Nat.testBit_lt_two_pow (Nat.lt_of_lt_of_le hN
      (by calc 128 = 2 ^ 7 := by norm_num
            _ ≤ 2 ^ j := Nat.pow_le_pow_right (by norm_num) (by omega)))
  constructor
  · apply Nat.eq_of_testBit_eq
    intro j
    rw [testBit_clockLo, Nat.testBit_or, testBit_slots _ _ _ hN hN]
    by_cases hj : j < 7
    · rw [hE (24 + j) (by omega)]
      have c1 : decide (32 ≤ 24 + j ∧ 24 + j < 39) = false := by
        rw [decide_eq_false_iff_not]; omega
      have c2 : decide (24 ≤ 24 + j ∧ 24 + j < 31) = true := by
        rw [decide_eq_true_eq]; omega
      rw [c1, c2]
      simp [hj]
    · rw [hhigh j hj]; simp [hj]
  · apply Nat.eq_of_testBit_eq
    intro j
    rw [testBit_clockHi, Nat.testBit_or, testBit_slots _ _ _ hN hN]
    by_cases hj : j < 7
    · rw [hE (32 + j) (by omega)]
      have c1 : decide (32 ≤ 32 + j ∧ 32 + j < 39) = true := by
        rw [decide_eq_true_eq]; omega
      have c2 : decide (24 ≤ 32 + j ∧ 32 + j < 31) = false := by
        rw [decide_eq_false_iff_not]; omega
      rw [c1, c2]
      simp [hj]
    · rw [hhigh j hj]; simp [hj]

theorem fenBoard_slots (active : List Char) (ranks : List (List Char)) (castling enp : List Char)
    (hep : EpField enp) (j : Nat) (hj : (24 ≤ j ∧ j < 31) ∨ (32 ≤ j ∧ j < 39)) :
    (fenBoard active ranks castling enp).epc.testBit j = false := by
  obtain ⟨s1, s2⟩ := fenEpc_slots active castling enp hep j hj
  rw [fenBoard_epc]
  split
  · exact s1
  · rw [testBit_byteswap_any, s2]; simp

theorem ofFen_false (fen : String) (placement active castling enp : List Char)
    (rest : List (List Char)) (ranks : List (List Char))
    (hs : splitString fen.toList ' ' = placement :: active :: castling :: enp :: rest)
    (hm : (List.range 8).mapM (fun i => (splitString placement '/')[i]?) = some ranks) :
    QBB.ofFen fen false = some (fenBoard active ranks castling enp) := by
  rw [ofFen_eq]
  simp only [hs, List.getElem?_cons_zero, List.getElem?_cons_succ, Option.bind_eq_bind,
    Option.some_bind, hm]
  rfl

/-- C22: for a FEN whose en-passant field is `-` or a square of the third or sixth rank
and whose halfmove field is a number `n` from 0 to 127, the position constructed with
`moveNumInfo = true` holds `n` in both clock slots of `epc` (bits 24–30 and bits 32–38),
whichever colour is active; the position constructed from the same FEN with
`moveNumInfo = false` holds 0 in both slots, and the two positions agree on `side`,
`pbq`, `nbk`, `rqk` and on every bit of `epc` outside the two slots. -/
theorem fen_halfmove_field (fen : String) (q : QBB)
    (placement active castling enp : List Char) (rest : List (List Char))
    (hs : splitString fen.toList ' ' = placement :: active :: castling :: enp :: rest)
    (hep : EpField enp)
    (hclock : ∀ clock n, rest[0]? = some clock → stoi clock = some n → 0 ≤ n ∧ n ≤ 127)
    (h : QBB.ofFen fen true = some q) :
    ∃ clock, ∃ N : Nat, rest[0]? = some clock ∧ stoi clock = some (N : Int) ∧
      clockLo q.epc = N ∧ clockHi q.epc = N ∧
      ∃ q0, QBB.ofFen fen false = some q0 ∧ clockLo q0.epc = 0 ∧ clockHi q0.epc = 0 ∧
        q.side = q0.side ∧ q.pbq = q0.pbq ∧ q.nbk = q0.nbk ∧ q.rqk = q0.rqk ∧
        ∀ j, ¬ ((24 ≤ j ∧ j < 31) ∨ (32 ≤ j ∧ j < 39)) →
          q.epc.testBit j = q0.epc.testBit j := by
  obtain ⟨ranks, hm, _, h1⟩ := ofFen_fields fen true q placement active castling enp rest hs h
  obtain ⟨clock, n, hc, hn, hq⟩ := h1 rfl
  obtain ⟨n0, n1⟩ := hclock clock n hc hn
  have hN : n.toNat < 128 := by omega
  have hE := fenBoard_slots active ranks castling enp hep
  have hepc : q.epc = (fenBoard active ranks castling enp).epc |||
      ((n.toNat <<< 32) ||| (n.toNat <<< 24)) := by
    rw [hq, fenClock_epc _ n n0 n1]
    apply add_mod_eq_or
    · rw [fenBoard_epc]
      split
      · exact fenEpc_lt _ _ _
      · exact byteswap_lt _
    · exact slots_lt _ _ hN hN
    · apply Nat.eq_of_testBit_eq
      intro j
      rw [Nat.testBit_and, testBit_slots _ _ _ hN hN, Nat.zero_testBit]
      by_cases hj : (24 ≤ j ∧ j < 31) ∨ (32 ≤ j ∧ j < 39)
      · rw [hE j hj]; simp
      · have c1 : decide (32 ≤ j ∧ j < 39) = false := by
          rw [decide_eq_false_iff_not]; omega
        have c2 : decide (24 ≤ j ∧ j < 31) = false := by
          rw [decide_eq_false_iff_not]; omega
        rw [c1, c2]; simp
  obtain ⟨l1, l2⟩ := clock_of_or _ _ hN hE
  obtain ⟨z1, z2⟩ := clock_of_or (fenBoard active ranks castling enp).epc 0 (by norm_num) hE
  simp only [Nat.zero_shiftLeft, Nat.or_zero] at z1 z2
  refine ⟨clock, n.toNat, hc, ?_, ?_, ?_, fenBoard active ranks castling enp,
    ofFen_false fen placement active castling enp rest ranks hs hm, z1, z2, ?_, ?_, ?_, ?_, ?_⟩
  · rw [hn, Int.toNat_of_nonneg n0]
  · rw [hepc]; exact l1
  · rw [hepc]; exact l2
  · rw [hq]; rfl
  · rw [hq]; rfl
  · rw [hq]; rfl
  · rw [hq]; rfl
  · intro j hj
    rw [hepc, Nat.testBit_or, testBit_slots _ _ _ hN hN]
    have c1 : decide (32 ≤ j ∧ j < 39) = false := by
      rw [decide_eq_false_iff_not]; omega
    have c2 : decide (24 ≤ j ∧ j < 31) = false := by
      rw [decide_eq_false_iff_not]; omega
    rw [c1, c2]; simp

/-- C22, at the start position parsed with halfmove field 100: both slots hold 100, and
0 when the field is not read. -/
theorem fen_halfmove_field_witness :
    ∃ clock, ∃ N : Nat, ([['1', '0', '0'], ['1']] : List (List Char))[0]? = some clock ∧
      stoi clock = some (N : Int) ∧
      clockLo startPos100.epc = N ∧ clockHi startPos100.epc = N ∧
      ∃ q0, QBB.ofFen "rnbqkbnr/pppppppp/8/8/8/8/PPPPPPPP/RNBQKBNR w KQkq - 100 1" false =
          some q0 ∧
        clockLo q0.epc = 0 ∧ clockHi q0.epc = 0 ∧
        startPos100.side = q0.side ∧ startPos100.pbq = q0.pbq ∧ startPos100.nbk = q0.nbk ∧
        startPos100.rqk = q0.rqk ∧
        ∀ j, ¬ ((24 ≤ j ∧ j < 31) ∨ (32 ≤ j ∧ j < 39)) →
          startPos100.epc.testBit j = q0.epc.testBit j :=
  fen_halfmove_field "rnbqkbnr/pppppppp/8/8/8/8/PPPPPPPP/RNBQKBNR w KQkq - 100 1"
    startPos100 "rnbqkbnr/pppppppp/8/8/8/8/PPPPPPPP/RNBQKBNR".toList ['w'] "KQkq".toList ['-']
    [['1', '0', '0'], ['1']] (by decide) (by decide)
    (by
      intro clock n hc hn
      have e : clock = ['1', '0', '0'] := by simpa using hc.symm
      subst e
      have e0 : stoi ['1', '0', '0'] = some 100 := by decide
      rw [e0] at hn
      cases hn
      decide)
    (by decide)

theorem mapM_ranks_take (l : List (List Char)) (hl : 8 ≤ l.length) :
    (List.range 8).mapM (fun i => l[i]?) = some (l.take 8) := by
  rw [range8]
  match l, hl with
  | r0 :: r1 :: r2 :: r3 :: r4 :: r5 :: r6 :: r7 :: t, _ =>
    simp only [List.mapM_cons, List.mapM_nil, List.getElem?_cons_zero, List.getElem?_cons_succ,
      Option.pure_def, Option.bind_eq_bind, Option.some_bind, List.take_succ_cons, List.take_zero]

/-- C23, as stated, fails: the constructor has no rejection. A FEN with seven fields
yields the start position; a FEN whose third rank field `9` describes nine files yields a
position; and a FEN whose last rank field holds the character `X` (no piece letter, no
digit, no `/`) yields a position. -/
theorem fen_rejection_counterexample :
    (splitString "rnbqkbnr/pppppppp/8/8/8/8/PPPPPPPP/RNBQKBNR w KQkq - 0 1 x".toList ' ').length
        = 7 ∧
    QBB.ofFen "rnbqkbnr/pppppppp/8/8/8/8/PPPPPPPP/RNBQKBNR w KQkq - 0 1 x" true =
      some startPos ∧
    (expandRank "9".toList).length = 9 ∧
    (QBB.ofFen "rnbqkbnr/pppppppp/9/8/8/8/PPPPPPPP/RNBQKBNR w KQkq - 0 1" true).isSome = true ∧
    isPiece 'X' = false ∧ isNumber 'X' = false ∧ 'X' ≠ '/' ∧
    (QBB.ofFen "rnbqkbnr/pppppppp/8/8/8/8/PPPPPPPP/RNBQKBNX w KQkq - 0 1" true).isSome = true := by
  decide

/-- C23 (amended): the constructor has no parse-error result and checks neither the
number of fields beyond those it reads, nor the number of files a rank field describes,
nor the characters of the placement: for every string with at least four fields whose
placement has at least eight rank fields (and, when the halfmove field is read, a fifth
field that `std::stoi` converts) it produces a position, built from the first eight rank
fields. -/
theorem fen_no_rejection (fen : String) (b : Bool)
    (placement active castling enp : List Char) (rest : List (List Char))
    (hs : splitString fen.toList ' ' = placement :: active :: castling :: enp :: rest)
    (hr : 8 ≤ (splitString placement '/').length)
    (hclock : b = true → ∃ clock n, rest[0]? = some clock ∧ stoi clock = some n) :
    ∃ q, QBB.ofFen fen b = some q ∧
      q.side = (fenBoard active ((splitString placement '/').take 8) castling enp).side ∧
      q.pbq = (fenBoard active ((splitString placement '/').take 8) castling enp).pbq ∧
      q.nbk = (fenBoard active ((splitString placement '/').take 8) castling enp).nbk ∧
      q.rqk = (fenBoard active ((splitString placement '/').take 8) castling enp).rqk := by
  have hm := mapM_ranks_take _ hr
  cases b with
  | false =>
    exact ⟨_, ofFen_false fen placement active castling enp rest _ hs hm, rfl, rfl, rfl, rfl⟩
  | true =>
    obtain ⟨clock, n, hc, hn⟩ := hclock rfl
    refine ⟨fenClock (fenBoard active ((splitString placement '/').take 8) castling enp) n,
      ?_, rfl, rfl, rfl, rfl⟩
    rw [ofFen_eq]
    simp only [hs, List.getElem?_cons_zero, List.getElem?_cons_succ, Option.bind_eq_bind,
      Option.some_bind, hm, hc, hn]
    rfl

/-- C23 (amended), at the FEN with a rank field of nine files. -/
theorem fen_no_rejection_witness :
    ∃ q, QBB.ofFen "rnbqkbnr/pppppppp/9/8/8/8/PPPPPPPP/RNBQKBNR w KQkq - 0 1" true = some q ∧
      q.side = (fenBoard ['w']
        ((splitString "rnbqkbnr/pppppppp/9/8/8/8/PPPPPPPP/RNBQKBNR".toList '/').take 8)
        "KQkq".toList ['-']).side ∧
      q.pbq = (fenBoard ['w']
        ((splitString "rnbqkbnr/pppppppp/9/8/8/8/PPPPPPPP/RNBQKBNR".toList '/').take 8)
        "KQkq".toList ['-']).pbq ∧
      q.nbk = (fenBoard ['w']
        ((splitString "rnbqkbnr/pppppppp/9/8/8/8/PPPPPPPP/RNBQKBNR".toList '/').take 8)
        "KQkq".toList ['-']).nbk ∧
      q.rqk = (fenBoard ['w']
        ((splitString "rnbqkbnr/pppppppp/9/8/8/8/PPPPPPPP/RNBQKBNR".toList '/').take 8)
        "KQkq".toList ['-']).rqk :=
  fen_no_rejection "rnbqkbnr/pppppppp/9/8/8/8/PPPPPPPP/RNBQKBNR w KQkq - 0 1" true
    "rnbqkbnr/pppppppp/9/8/8/8/PPPPPPPP/RNBQKBNR".toList ['w'] "KQkq".toList ['-']
    [['0'], ['1']] (by decide) (by decide) (fun _ => ⟨['0'], 0, by decide, by decide⟩)

theorem testBit_toMask (k : Nat) : toMask.testBit k = decide (6 ≤ k ∧ k < 12) := by
  by_cases hk : k < 64
  · revert k; decide
  · rw [testBit_high _ k (by decide) hk]
    symm; apply decide_eq_false; omega

theorem testBit_moveTypeMask (k : Nat) : moveTypeMask.testBit k = decide (12 ≤ k ∧ k < 16) := by
  by_cases hk : k < 64
  · revert k; decide
  · rw [testBit_high _ k (by decide) hk]
    symm; apply decide_eq_false; omega

theorem getMoveInfo_eq (m : Nat) :
    getMoveInfo fromMask m = m % 64 ∧ getMoveInfo toMask m = m / 64 % 64 ∧
      getMoveInfo moveTypeMask m = m / 4096 % 16 := by
  have e6 : (64 : Nat) = 2 ^ 6 := by norm_num
  have e12 : (4096 : Nat) = 2 ^ 12 := by norm_num
  have e4 : (16 : Nat) = 2 ^ 4 := by norm_num
  refine ⟨?_, ?_, ?_⟩
  · have h : fromMask = 2 ^ 6 - 1 := by decide
    simp only [getMoveInfo, maskOffset, if_true, Nat.shiftRight_zero]
    rw [h, Nat.and_pow_two_sub_one_eq_mod]
  · apply Nat.eq_of_testBit_eq
    intro j
    have hmo : maskOffset toMask = 6 := by decide
    rw [getMoveInfo, hmo, Nat.testBit_shiftRight, Nat.testBit_and, testBit_toMask, e6,
      Nat.testBit_mod_two_pow, ← Nat.shiftRight_eq_div_pow, Nat.testBit_shiftRight]
    rw [Bool.eq_iff_iff]
    simp only [Bool.and_eq_true, decide_eq_true_eq]
    constructor
    · rintro ⟨a, b⟩; exact ⟨by omega, a⟩
    · rintro ⟨a, b⟩; exact ⟨b, by omega⟩
  · apply Nat.eq_of_testBit_eq
    intro j
    have hmo : maskOffset moveTypeMask = 12 := by decide
    rw [getMoveInfo, hmo, Nat.testBit_shiftRight, Nat.testBit_and, testBit_moveTypeMask, e12, e4,
      Nat.testBit_mod_two_pow, ← Nat.shiftRight_eq_div_pow, Nat.testBit_shiftRight]
    rw [Bool.eq_iff_iff]
    simp only [Bool.and_eq_true, decide_eq_true_eq]
    constructor
    · rintro ⟨a, b⟩; exact ⟨by omega, a⟩
    · rintro ⟨a, b⟩; exact ⟨b, by omega⟩

theorem mkMove_eq_add (f t g : Nat) (hf : f < 64) (ht : t < 64) :
    mkMove f t g = g * 4096 + t * 64 + f := by
  have h1 : f ||| (t <<< 6) = 2 ^ 6 * t + f := by
    rw [Nat.lor_comm, Nat.shiftLeft_eq, Nat.mul_comm]
    exact (Nat.mul_add_lt_is_or (by norm_num; exact hf) t).symm
  have h2 : 2 ^ 6 * t + f < 2 ^ 12 := by
    norm_num; omega
  have h3 : (2 ^ 6 * t + f) ||| (g <<< 12) = 2 ^ 12 * g + (2 ^ 6 * t + f) := by
    rw [Nat.lor_comm, Nat.shiftLeft_eq, Nat.mul_comm]
    exact (Nat.mul_add_lt_is_or h2 g).symm
  simp only [mkMove, toMaskOffset, moveTypeOffset]
  rw [h1, h3]
  clear h1 h2 h3
  have e1 : (2 : Nat) ^ 12 = 4096 := by norm_num
  have e2 : (2 : Nat) ^ 6 = 64 := by norm_num
  rw [e1, e2]
  ring

theorem getMoveInfo_mkMove (f t g : Nat) (hf : f < 64) (ht : t < 64) (hg : g < 16) :
    getMoveInfo fromMask (mkMove f t g) = f ∧ getMoveInfo toMask (mkMove f t g) = t ∧
      getMoveInfo moveTypeMask (mkMove f t g) = g := by
  obtain ⟨a, b, c⟩ := getMoveInfo_eq (mkMove f t g)
  rw [a, b, c, mkMove_eq_add f t g hf ht]
  omega

theorem uciRank_digit (c : Char) (h1 : '1' ≤ c) (h2 : c ≤ '8') :
    uciRank true c = c.toNat - '0'.toNat - 1 ∧ uciRank false c = 8 - (c.toNat - '0'.toNat) ∧
      uciRank true c < 8 ∧ uciRank false c < 8 := by
  rw [char_le_iff] at h1 h2
  have e1 : '1'.toNat = 49 := rfl
  have e8 : '8'.toNat = 56 := rfl
  have e0 : '0'.toNat = 48 := rfl
  simp only [uciRank, if_true, e0, Bool.false_eq_true, if_false]
  rw [e1] at h1
  rw [e8] at h2
  generalize c.toNat = n at *
  omega

theorem uci_eq (b : QBB) (s : String) :
    uciMove2boardMove b s =
      mkMove (uciSquare b.isWhiteToPlay (s.toList.getD 0 '\x00') (s.toList.getD 1 '\x00'))
        (uciSquare b.isWhiteToPlay (s.toList.getD 2 '\x00') (s.toList.getD 3 '\x00'))
        (uciTag b s) := by
  simp only [uciMove2boardMove, uciTag, uciSquare, mkMove]
  split_ifs <;> simp

theorem uciTag_le (b : QBB) (s : String) : uciTag b s ≤ 7 := by
  unfold uciTag
  have hp : ∀ k, getPromoType k ≤ 7 := by
    intro k; cases k <;> decide
  simp only [enPCap, KSCastle, QSCastle]
  split_ifs
  · omega
  · exact hp _
  · omega
  · omega
  · omega
  · omega
  · omega

theorem uciSquare_valid (w : Bool) (c r : Char) (hc : 'a' ≤ c ∧ c ≤ 'h')
    (hr : '1' ≤ r ∧ r ≤ '8') :
    uciSquare w c r =
        (if w = true then (r.toNat - '0'.toNat - 1) * 8 + (c.toNat - 'a'.toNat)
          else (8 - (r.toNat - '0'.toNat)) * 8 + (c.toNat - 'a'.toNat)) ∧
      uciSquare w c r < 64 ∧ uciRank w r < 8 ∧ fileNumber c < 8 := by
  obtain ⟨r1, r2, r3, r4⟩ := uciRank_digit r hr.1 hr.2
  have hf := fileNumber_lt c hc.1 hc.2
  cases w with
  | true =>
    simp only [uciSquare, index, if_true, r1]
    rw [r1] at r3
    refine ⟨rfl, by unfold fileNumber at hf ⊢; omega, r3, hf⟩
  | false =>
    simp only [uciSquare, index, Bool.false_eq_true, if_false, r2]
    rw [r2] at r4
    refine ⟨rfl, by unfold fileNumber at hf ⊢; omega, r4, hf⟩

/-- C24: for every position and every move string whose first four characters are a file
letter a–h, a rank digit 1–8, a file letter and a rank digit, bits 0–5 of the result of
`uciMove2boardMove` hold the from-square and bits 6–11 the to-square, where the square of
file `F` and rank digit `R` is `(R − 1) · 8 + F` when white is to play and
`(8 − R) · 8 + F` when black is to play. -/
theorem uci_squares_frame (q : QBB) (c0 c1 c2 c3 : Char) (rest : List Char)
    (h0 : 'a' ≤ c0 ∧ c0 ≤ 'h') (h1 : '1' ≤ c1 ∧ c1 ≤ '8')
    (h2 : 'a' ≤ c2 ∧ c2 ≤ 'h') (h3 : '1' ≤ c3 ∧ c3 ≤ '8') :
    getMoveInfo fromMask (uciMove2boardMove q (String.mk (c0 :: c1 :: c2 :: c3 :: rest))) =
        (if q.isWhiteToPlay = true then (c1.toNat - '0'.toNat - 1) * 8 + (c0.toNat - 'a'.toNat)
          else (8 - (c1.toNat - '0'.toNat)) * 8 + (c0.toNat - 'a'.toNat)) ∧
    getMoveInfo toMask (uciMove2boardMove q (String.mk (c0 :: c1 :: c2 :: c3 :: rest))) =
        (if q.isWhiteToPlay = true then (c3.toNat - '0'.toNat - 1) * 8 + (c2.toNat - 'a'.toNat)
          else (8 - (c3.toNat - '0'.toNat)) * 8 + (c2.toNat - 'a'.toNat)) ∧
    getMoveInfo fromMask (uciMove2boardMove q (String.mk (c0 :: c1 :: c2 :: c3 :: rest))) < 64 ∧
    getMoveInfo toMask (uciMove2boardMove q (String.mk (c0 :: c1 :: c2 :: c3 :: rest))) < 64 := by
  obtain ⟨f1, f2, _, _⟩ := uciSquare_valid q.isWhiteToPlay c0 c1 h0 h1
  obtain ⟨t1, t2, _, _⟩ := uciSquare_valid q.isWhiteToPlay c2 c3 h2 h3
  have hg := uciTag_le q (String.mk (c0 :: c1 :: c2 :: c3 :: rest))
  have hl : (String.mk (c0 :: c1 :: c2 :: c3 :: rest)).toList = c0 :: c1 :: c2 :: c3 :: rest :=
    rfl
  rw [uci_eq, hl]
  simp only [List.getD_cons_zero, List.getD_cons_succ]
  obtain ⟨a, b, _⟩ := getMoveInfo_mkMove _ _ _ f2 t2 (Nat.lt_of_le_of_lt hg (by norm_num))
  rw [a, b]
  exact ⟨f1, t1, f2, t2⟩

/-- C24, at the position after e2e4 (black to play) and the string `e7e5`: the from-square
is e2 and the to-square e4 of the mirrored frame. -/
theorem uci_squares_frame_witness :
    getMoveInfo fromMask (uciMove2boardMove (startPos.makeMove 1804) "e7e5") = 12 ∧
    getMoveInfo toMask (uciMove2boardMove (startPos.makeMove 1804) "e7e5") = 28 ∧
    (startPos.makeMove 1804).isWhiteToPlay = false :=
  ⟨(uci_squares_frame (startPos.makeMove 1804) 'e' '7' 'e' '5' [] (by decide) (by decide)
      (by decide) (by decide)).1.trans (by decide),
    (uci_squares_frame (startPos.makeMove 1804) 'e' '7' 'e' '5' [] (by decide) (by decide)
      (by decide) (by decide)).2.1.trans (by decide),
    by decide⟩

theorem tzcntAux_le (n x : Nat) : tzcntAux n x ≤ n := by
  induction n generalizing x with
  | zero => simp [tzcntAux]
  | succ n ih =>
    unfold tzcntAux
    split
    · omega
    · have := ih (x / 2); omega

theorem uci_fields (q : QBB) (c0 c1 c2 c3 : Char) (rest : List Char)
    (h0 : 'a' ≤ c0 ∧ c0 ≤ 'h') (h1 : '1' ≤ c1 ∧ c1 ≤ '8')
    (h2 : 'a' ≤ c2 ∧ c2 ≤ 'h') (h3 : '1' ≤ c3 ∧ c3 ≤ '8') :
    getMoveInfo fromMask (uciMove2boardMove q (String.mk (c0 :: c1 :: c2 :: c3 :: rest))) =
        uciSquare q.isWhiteToPlay c0 c1 ∧
    getMoveInfo toMask (uciMove2boardMove q (String.mk (c0 :: c1 :: c2 :: c3 :: rest))) =
        uciSquare q.isWhiteToPlay c2 c3 ∧
    getMoveInfo moveTypeMask (uciMove2boardMove q (String.mk (c0 :: c1 :: c2 :: c3 :: rest))) =
        uciTag q (String.mk (c0 :: c1 :: c2 :: c3 :: rest)) ∧
    rank (uciSquare q.isWhiteToPlay c2 c3) = uciRank q.isWhiteToPlay c3 ∧
    rank (uciSquare q.isWhiteToPlay c0 c1) = uciRank q.isWhiteToPlay c1 ∧
    file (uciSquare q.isWhiteToPlay c0 c1) = fileNumber c0 ∧
    file (uciSquare q.isWhiteToPlay c2 c3) = fileNumber c2 ∧
    uciSquare q.isWhiteToPlay c0 c1 < 64 ∧ uciSquare q.isWhiteToPlay c2 c3 < 64 := by
  obtain ⟨_, f2, f3, f4⟩ := uciSquare_valid q.isWhiteToPlay c0 c1 h0 h1
  obtain ⟨_, t2, t3, t4⟩ := uciSquare_valid q.isWhiteToPlay c2 c3 h2 h3
  have hg := uciTag_le q (String.mk (c0 :: c1 :: c2 :: c3 :: rest))
  have hl : (String.mk (c0 :: c1 :: c2 :: c3 :: rest)).toList = c0 :: c1 :: c2 :: c3 :: rest :=
    rfl
  rw [uci_eq, hl]
  simp only [List.getD_cons_zero, List.getD_cons_succ]
  obtain ⟨a, b, c⟩ := getMoveInfo_mkMove _ _ _ f2 t2 (Nat.lt_of_le_of_lt hg (by norm_num))
  rw [a, b, c]
  refine ⟨rfl, rfl, rfl, ?_, ?_, ?_, ?_, f2, t2⟩
  · simp only [rank, uciSquare, index]; omega
  · simp only [rank, uciSquare, index]; omega
  · simp only [file, uciSquare, index]; omega
  · simp only [file, uciSquare, index]; omega

theorem prettyPrintMove_eq (m : Move) :
    prettyPrintMove m =
      String.mk ([file2char (file (getMoveInfo fromMask m))] ++
        Nat.toDigits 10 (rank (getMoveInfo fromMask m) + 1) ++
        [file2char (file (getMoveInfo toMask m))] ++
        Nat.toDigits 10 (rank (getMoveInfo toMask m) + 1) ++
        promoLetter (getMoveInfo moveTypeMask m)) := by
  simp only [prettyPrintMove, getPromoPiece]
  generalize getMoveInfo moveTypeMask m = g
  match g with
  | 0 => simp [promoLetter]
  | 1 => simp [promoLetter]
  | 2 => simp [promoLetter]
  | 3 => simp [promoLetter]
  | 4 => simp [promoLetter]
  | 5 => simp [promoLetter]
  | 6 => simp [promoLetter]
  | 7 => simp [promoLetter]
  | n + 8 => simp [promoLetter]

theorem toDigits_digit : ∀ n, n < 57 → 49 ≤ n →
    Nat.toDigits 10 (n - 48) = [Char.ofNat n] ∧
      Nat.toDigits 10 (8 - (n - 48) + 1) = [Char.ofNat (57 + 48 - n)] := by
  decide

theorem file2char_fileNumber (c : Char) (h1 : 'a' ≤ c) :
    file2char (fileNumber c) = c := by
  rw [char_le_iff] at h1
  have e1 : 'a'.toNat = 97 := rfl
  unfold file2char fileNumber
  rw [e1] at h1 ⊢
  have : 97 + (c.toNat - 97) = c.toNat := by omega
  rw [this]
  exact Char.ofNat_toNat c

theorem print_rank (w : Bool) (r : Char) (hr : '1' ≤ r ∧ r ≤ '8') :
    Nat.toDigits 10 (uciRank w r + 1) = [if w = true then r else mirrorRank r] := by
  obtain ⟨r1, r2, _, _⟩ := uciRank_digit r hr.1 hr.2
  have h1 := hr.1
  have h2 := hr.2
  rw [char_le_iff] at h1 h2
  have e1 : '1'.toNat = 49 := rfl
  have e8 : '8'.toNat = 56 := rfl
  have e0 : '0'.toNat = 48 := rfl
  have e9 : '9'.toNat = 57 := rfl
  rw [e1] at h1
  rw [e8] at h2
  obtain ⟨d1, d2⟩ := toDigits_digit r.toNat (by omega) h1
  cases w with
  | true =>
    rw [r1, e0]
    have : r.toNat - 48 - 1 + 1 = r.toNat - 48 := by omega
    rw [this, d1, Char.ofNat_toNat]
    rfl
  | false =>
    rw [r2, e0, d2]
    simp only [mirrorRank, e9, e0, Bool.false_eq_true, if_false]

theorem uciTag_small (q : QBB) (s : String) (h : s.toList.length ≠ 5) : uciTag q s ≤ 3 := by
  unfold uciTag
  simp only [enPCap, KSCastle, QSCastle]
  split_ifs with a b c d e f
  · omega
  · exact absurd c.2 h
  · omega
  · omega
  · omega
  · omega
  · omega

theorem promoLetter_small (g : Nat) (h : g ≤ 3) : promoLetter g = [] := by
  match g, h with
  | 0, _ => rfl
  | 1, _ => rfl
  | 2, _ => rfl
  | 3, _ => rfl

/-- C26, as stated, fails: with black to play `prettyPrintMove` prints the move of the
string `e7e5` as `e2e4` (it gets no position and prints the squares of the frame of the
side to move), and with white to play it prints the promotion `a7a8q` as `a7a8Q`. -/
theorem print_parse_counterexample :
    (startPos.makeMove 1804).isWhiteToPlay = false ∧
    prettyPrintMove (uciMove2boardMove (startPos.makeMove 1804) "e7e5") = "e2e4" ∧
    prettyPrintMove (uciMove2boardMove (startPos.makeMove 1804) "e7e5") ≠ "e7e5" ∧
    promoPos.isWhiteToPlay = true ∧
    prettyPrintMove (uciMove2boardMove promoPos "a7a8q") = "a7a8Q" ∧
    prettyPrintMove (uciMove2boardMove promoPos "a7a8q") ≠ "a7a8q" := by
  decide

/-- C26 (amended): for every position and every move string that starts with a file
letter a–h, a rank digit 1–8, a file letter and a rank digit, `prettyPrintMove` of the
result of `uciMove2boardMove` is the two file letters as given, each rank digit as given
when white is to play and mirrored (the digit of 9 − R) when black is to play, followed
by the upper-case letter N, B, R or Q when the move got a promotion tag; for white to
play and a string of four characters it is the string itself. -/
theorem print_after_parse (q : QBB) (k0 k1 k2 k3 : Char) (rest : List Char)
    (h0 : 'a' ≤ k0 ∧ k0 ≤ 'h') (h1 : '1' ≤ k1 ∧ k1 ≤ '8')
    (h2 : 'a' ≤ k2 ∧ k2 ≤ 'h') (h3 : '1' ≤ k3 ∧ k3 ≤ '8') :
    prettyPrintMove (uciMove2boardMove q (String.mk (k0 :: k1 :: k2 :: k3 :: rest))) =
      String.mk ([k0, (if q.isWhiteToPlay = true then k1 else mirrorRank k1), k2,
          (if q.isWhiteToPlay = true then k3 else mirrorRank k3)] ++
        promoLetter (getMoveInfo moveTypeMask
          (uciMove2boardMove q (String.mk (k0 :: k1 :: k2 :: k3 :: rest))))) ∧
    (q.isWhiteToPlay = true → rest = [] →
      prettyPrintMove (uciMove2boardMove q (String.mk (k0 :: k1 :: k2 :: k3 :: rest))) =
        String.mk (k0 :: k1 :: k2 :: k3 :: rest)) := by
  obtain ⟨eF, eT, eG, rT, rF, fF, fT, _, _⟩ := uci_fields q k0 k1 k2 k3 rest h0 h1 h2 h3
  have hmain : prettyPrintMove (uciMove2boardMove q (String.mk (k0 :: k1 :: k2 :: k3 :: rest))) =
      String.mk ([k0, (if q.isWhiteToPlay = true then k1 else mirrorRank k1), k2,
          (if q.isWhiteToPlay = true then k3 else mirrorRank k3)] ++
        promoLetter (getMoveInfo moveTypeMask
          (uciMove2boardMove q (String.mk (k0 :: k1 :: k2 :: k3 :: rest))))) := by
    rw [prettyPrintMove_eq, eF, eT, rT, rF, fF, fT, file2char_fileNumber k0 h0.1,
      file2char_fileNumber k2 h2.1, print_rank _ k1 h1, print_rank _ k3 h3]
    rfl
  refine ⟨hmain, ?_⟩
  intro hw hr
  rw [hmain, eG, hw, hr]
  have hl : (String.mk [k0, k1, k2, k3]).toList.length ≠ 5 := by
    show [k0, k1, k2, k3].length ≠ 5
    simp
  rw [promoLetter_small _ (uciTag_small q _ hl)]
  rfl

/-- C26 (amended), at the position after e2e4 (black to play) and the string `e7e5`. -/
theorem print_after_parse_witness :
    prettyPrintMove (uciMove2boardMove (startPos.makeMove 1804) "e7e5") = "e2e4" :=
  (print_after_parse (startPos.makeMove 1804) 'e' '7' 'e' '5' [] (by decide) (by decide)
    (by decide) (by decide)).1.trans (by decide)

/-- C27, as stated, fails: `uciMove2boardMove` returns a bare `Move` whatever the string.
In the start position e3 is empty, and the string `e3e4` is converted to the move from 20
to 28 with tag 0; the string `z9z9`, which names no square, is converted to a move too. -/
theorem uci_error_counterexample :
    startPos.isWhiteToPlay = true ∧ uciSquare true 'e' '3' = 20 ∧
    startPos.getPieceType 20 = 0 ∧
    uciMove2boardMove startPos "e3e4" = mkMove 20 28 0 ∧
    uciMove2boardMove startPos "z9z9" = mkMove 89 89 0 := by
  decide

/-- C27 (amended): `uciMove2boardMove` has no failure result. For every position and
every move string that starts with a file letter a–h, a rank digit 1–8, a file letter and
a rank digit and whose from-square is empty in the position, it returns the move of the
two squares with the tag 0. -/
theorem uci_no_rejection (q : QBB) (k0 k1 k2 k3 : Char) (rest : List Char)
    (h0 : 'a' ≤ k0 ∧ k0 ≤ 'h') (h1 : '1' ≤ k1 ∧ k1 ≤ '8')
    (h2 : 'a' ≤ k2 ∧ k2 ≤ 'h') (h3 : '1' ≤ k3 ∧ k3 ≤ '8')
    (hempty : q.getPieceType (uciSquare q.isWhiteToPlay k0 k1) = 0) :
    uciMove2boardMove q (String.mk (k0 :: k1 :: k2 :: k3 :: rest)) =
        mkMove (uciSquare q.isWhiteToPlay k0 k1) (uciSquare q.isWhiteToPlay k2 k3) 0 ∧
    getMoveInfo fromMask (uciMove2boardMove q (String.mk (k0 :: k1 :: k2 :: k3 :: rest))) =
        uciSquare q.isWhiteToPlay k0 k1 ∧
    getMoveInfo toMask (uciMove2boardMove q (String.mk (k0 :: k1 :: k2 :: k3 :: rest))) =
        uciSquare q.isWhiteToPlay k2 k3 ∧
    getMoveInfo moveTypeMask (uciMove2boardMove q (String.mk (k0 :: k1 :: k2 :: k3 :: rest))) =
        0 := by
  obtain ⟨eF, eT, eG, _⟩ := uci_fields q k0 k1 k2 k3 rest h0 h1 h2 h3
  have hl : (String.mk (k0 :: k1 :: k2 :: k3 :: rest)).toList = k0 :: k1 :: k2 :: k3 :: rest :=
    rfl
  have htag : uciTag q (String.mk (k0 :: k1 :: k2 :: k3 :: rest)) = 0 := by
    simp only [uciTag, hl, List.getD_cons_zero, List.getD_cons_succ, hempty]
    have n1 : ¬ (0 = myPawn) := by decide
    have n2 : ¬ (0 = myKing) := by decide
    rw [if_neg n1, if_neg n2]
  refine ⟨?_, eF, eT, by rw [eG, htag]⟩
  rw [uci_eq, hl, htag]
  simp only [List.getD_cons_zero, List.getD_cons_succ]

/-- C27 (amended), at the start position and the string `e3e4`. -/
theorem uci_no_rejection_witness :
    uciMove2boardMove startPos "e3e4" = mkMove 20 28 0 :=
  (uci_no_rejection startPos 'e' '3' 'e' '4' [] (by decide) (by decide) (by decide)
    (by decide) (by decide)).1.trans (by decide)

theorem doNullMove_epc_bit (q : QBB) (j : Nat) (hj : j < 64) :
    q.doNullMove.epc.testBit (flip j) =
      (if 40 ≤ j ∧ j < 48 then false
        else if j = 31 ∨ j = 39 then !q.epc.testBit j else q.epc.testBit j) := by
  have e : rankMask a6 = rank6 := by decide
  simp only [QBB.doNullMove, QBB.flipQBB, e]
  rw [testBit_byteswap _ _ hj]
  simp only [Nat.testBit_xor, Nat.testBit_and, testBit_not64, testBit_rank6, testBit_sentinel]
  by_cases h1 : 40 ≤ j ∧ j < 48
  · have h2 : ¬ (j = 31 ∨ j = 39) := by omega
    simp [h1, h2]
  · by_cases h2 : j = 31 ∨ j = 39
    · simp [h1, h2, hj]
    · simp [h1, h2, hj]

theorem doNullMove_clock (q : QBB) :
    clockLo q.doNullMove.epc = clockHi q.epc ∧ clockHi q.doNullMove.epc = clockLo q.epc := by
  constructor
  · apply Nat.eq_of_testBit_eq
    intro j
    rw [testBit_clockLo, testBit_clockHi]
    by_cases hj : j < 7
    · have hb := doNullMove_epc_bit q (32 + j) (by omega)
      have hf : flip (32 + j) = 24 + j := (flip_clock j (by omega)).1
      rw [hf] at hb
      rw [hb]
      have h1 : ¬ (40 ≤ 32 + j ∧ 32 + j < 48) := by omega
      have h2 : ¬ (32 + j = 31 ∨ 32 + j = 39) := by omega
      rw [if_neg h1, if_neg h2]
    · simp [hj]
  · apply Nat.eq_of_testBit_eq
    intro j
    rw [testBit_clockLo, testBit_clockHi]
    by_cases hj : j < 7
    · have hb := doNullMove_epc_bit q (24 + j) (by omega)
      have hf : flip (24 + j) = 32 + j := (flip_clock j (by omega)).2
      rw [hf] at hb
      rw [hb]
      have h1 : ¬ (40 ≤ 24 + j ∧ 24 + j < 48) := by omega
      have h2 : ¬ (24 + j = 31 ∨ 24 + j = 39) := by omega
      rw [if_neg h1, if_neg h2]
    · simp [hj]

theorem doNullMove_castling (q : QBB) :
    castlingBits q.doNullMove.epc = byteswap_uint64 (castlingBits q.epc) := by
  apply Nat.eq_of_testBit_eq
  intro j
  rw [testBit_castlingBits, testBit_byteswap_any, testBit_castlingBits]
  by_cases hj : j < 64
  · have hb := doNullMove_epc_bit q (flip j) (flip_lt j hj)
    rw [flip_flip j hj] at hb
    have hfb := flip_backRank j hj
    rw [hb]
    by_cases hback : j < 8 ∨ (56 ≤ j ∧ j < 64)
    · have hback2 := hfb.mpr hback
      have h1 : ¬ (40 ≤ flip j ∧ flip j < 48) := by omega
      have h2 : ¬ (flip j = 31 ∨ flip j = 39) := by omega
      rw [if_neg h1, if_neg h2, decide_eq_true hback, decide_eq_true hback2, decide_eq_true hj]
      simp
    · have hback2 : ¬ (flip j < 8 ∨ (56 ≤ flip j ∧ flip j < 64)) := fun h => hback (hfb.mp h)
      rw [decide_eq_false hback, decide_eq_false hback2]
      simp
  · have hhigh : q.doNullMove.epc.testBit j = false := by
      apply testBit_high _ j _ hj
      exact byteswap_lt _
    rw [hhigh]
    simp [hj]

theorem doNullMove_enp (q : QBB) : byteAt q.doNullMove.epc 2 = 0 := by
  apply Nat.eq_of_testBit_eq
  intro i
  rw [testBit_byteAt, Nat.zero_testBit]
  by_cases hi : i < 8
  · have hb := doNullMove_epc_bit q (8 * 5 + i) (by omega)
    rw [flip_enp i hi] at hb
    have e : 8 * 2 + i = 16 + i := by omega
    rw [e, hb, if_pos (by omega)]
    rfl
  · simp [hi]

/-- C28: for every position, after `doNullMove` the words `pbq`, `nbk` and `rqk` are the
byte swaps of their old values, `side` is the byte swap of the old opponent squares
(occupied and not in `side`), and `epc` is the byte swap of the old `epc` with the
en-passant byte (rank index 5) cleared and both sentinel bits inverted: bit by bit, the
new bit at the mirror image of `j` is clear for `j` in the en-passant byte, the inverse
of the old bit for the sentinels 31 and 39 and the old bit everywhere else. So the
castling bits are the byte swap of the old castling bits, the two clock slots hold each
other's old value (the same value, when they were equal), and the cleared byte lies in
rank index 2 of the new position. -/
theorem doNullMove_frame (q : QBB) :
    q.doNullMove.pbq = byteswap_uint64 q.pbq ∧
    q.doNullMove.nbk = byteswap_uint64 q.nbk ∧
    q.doNullMove.rqk = byteswap_uint64 q.rqk ∧
    q.doNullMove.side = byteswap_uint64 ((q.pbq ||| q.nbk ||| q.rqk) &&& not64 q.side) ∧
    q.doNullMove.epc =
      byteswap_uint64 ((q.epc &&& not64 (rankMask (index 5 0))) ^^^ 0x8080000000) ∧
    (∀ j, j < 64 →
      q.doNullMove.epc.testBit (flip j) =
        (if 40 ≤ j ∧ j < 48 then false
          else if j = 31 ∨ j = 39 then !q.epc.testBit j else q.epc.testBit j)) ∧
    castlingBits q.doNullMove.epc = byteswap_uint64 (castlingBits q.epc) ∧
    clockLo q.doNullMove.epc = clockHi q.epc ∧ clockHi q.doNullMove.epc = clockLo q.epc ∧
    (clockLo q.epc = clockHi q.epc →
      clockLo q.doNullMove.epc = clockLo q.epc ∧ clockHi q.doNullMove.epc = clockHi q.epc) ∧
    byteAt q.doNullMove.epc 2 = 0 := by
  obtain ⟨c1, c2⟩ := doNullMove_clock q
  refine ⟨rfl, rfl, rfl, ?_, rfl, doNullMove_epc_bit q, doNullMove_castling q, c1, c2, ?_,
    doNullMove_enp q⟩
  · simp only [QBB.doNullMove, QBB.flipQBB]
    rw [Nat.land_comm]
  · intro heq
    rw [c1, c2, heq]
    exact ⟨rfl, rfl⟩

theorem byteswap_byteswap (x : Nat) (hx : x < 2 ^ 64) :
    byteswap_uint64 (byteswap_uint64 x) = x := by
  apply Nat.eq_of_testBit_eq
  intro j
  rw [testBit_byteswap_any, testBit_byteswap_any]
  by_cases hj : j < 64
  · rw [flip_flip j hj, decide_eq_true hj, decide_eq_true (flip_lt j hj)]
    simp
  · rw [testBit_high x j hx hj]
    simp [hj]

theorem byteswap_and (x y : Nat) :
    byteswap_uint64 (x &&& y) = byteswap_uint64 x &&& byteswap_uint64 y := by
  apply Nat.eq_of_testBit_eq
  intro j
  simp only [testBit_byteswap_any, Nat.testBit_and]
  cases decide (j < 64) <;> simp

theorem byteswap_or (x y : Nat) :
    byteswap_uint64 (x ||| y) = byteswap_uint64 x ||| byteswap_uint64 y := by
  apply Nat.eq_of_testBit_eq
  intro j
  simp only [testBit_byteswap_any, Nat.testBit_or]
  cases decide (j < 64) <;> simp

theorem doNullMove_twice_side (q : QBB) (hwf : q.WF)
    (hsub : q.side &&& (q.pbq ||| q.nbk ||| q.rqk) = q.side) :
    q.doNullMove.doNullMove.side = q.side := by
  obtain ⟨w1, w2, w3, w4, _⟩ := hwf
  apply Nat.eq_of_testBit_eq
  intro j
  by_cases hj : j < 64
  · have hs : q.side.testBit j = true →
        (q.pbq.testBit j || q.nbk.testBit j || q.rqk.testBit j) = true := by
      intro h
      have := subset_bit _ _ hsub j h
      simpa [Nat.testBit_or] using this
    simp only [QBB.doNullMove, QBB.flipQBB, testBit_byteswap_any, Nat.testBit_and,
      Nat.testBit_or, testBit_not64, flip_flip j hj, decide_eq_true hj,
      decide_eq_true (flip_lt j hj), Bool.true_and]
    revert hs
    cases q.side.testBit j <;> cases q.pbq.testBit j <;> cases q.nbk.testBit j <;>
      cases q.rqk.testBit j <;> simp
  · rw [testBit_high q.side j w1 hj]
    exact testBit_high _ j (byteswap_lt _) hj

theorem doNullMove_twice_epc (q : QBB) (hwf : q.WF) (j : Nat) :
    q.doNullMove.doNullMove.epc.testBit j =
      (q.epc.testBit j && !decide (16 ≤ j ∧ j < 24) && !decide (40 ≤ j ∧ j < 48)) := by
  obtain ⟨_, _, _, _, w5⟩ := hwf
  by_cases hj : j < 64
  · have hfj := flip_lt j hj
    have h2 := doNullMove_epc_bit q.doNullMove (flip j) hfj
    have h1 := doNullMove_epc_bit q j hj
    rw [flip_flip j hj] at h2
    rw [h2, h1]
    have hr : (40 ≤ flip j ∧ flip j < 48) ↔ (16 ≤ j ∧ j < 24) := by
      have : ∀ k, k < 64 → ((40 ≤ flip k ∧ flip k < 48) ↔ (16 ≤ k ∧ k < 24)) := by decide
      exact this j hj
    have hsn : (flip j = 31 ∨ flip j = 39) ↔ (j = 31 ∨ j = 39) := by
      have : ∀ k, k < 64 → ((flip k = 31 ∨ flip k = 39) ↔ (k = 31 ∨ k = 39)) := by decide
      exact this j hj
    by_cases a : 16 ≤ j ∧ j < 24
    · rw [if_pos (hr.mpr a), decide_eq_true a]
      simp
    · rw [if_neg (fun h => a (hr.mp h)), decide_eq_false a]
      by_cases b : 40 ≤ j ∧ j < 48
      · have nb : ¬ (j = 31 ∨ j = 39) := by omega
        rw [if_neg (fun h => nb (hsn.mp h)), if_pos b, decide_eq_true b]
        simp
      · rw [if_neg b, decide_eq_false b]
        by_cases c : j = 31 ∨ j = 39
        · rw [if_pos (hsn.mpr c), if_pos c]
          simp
        · rw [if_neg (fun h => c (hsn.mp h)), if_neg c]
          simp
  · have hh : q.doNullMove.doNullMove.epc.testBit j = false :=
      testBit_high _ j (byteswap_lt _) hj
    rw [testBit_high q.epc j w5 hj, hh]
    simp

/-- C29, as stated, fails: `doNullMove` does not step the halfmove clock. In the start
position (where `side` lies within the occupied squares) two null moves give back the
start position itself, with the clock still at 0. -/
theorem null_twice_counterexample :
    startPos.side &&& (startPos.pbq ||| startPos.nbk ||| startPos.rqk) = startPos.side ∧
    startPos.doNullMove.doNullMove = startPos ∧
    clockLo startPos.epc = 0 ∧ clockHi startPos.epc = 0 ∧
    clockLo startPos.doNullMove.doNullMove.epc = 0 ∧
    clockHi startPos.doNullMove.doNullMove.epc = 0 ∧
    clockLo startPos.doNullMove.doNullMove.epc ≠ clockLo startPos.epc + 2 := by
  decide

/-- C29 (amended): for every position of 64-bit words with `side` within the occupied
squares, `doNullMove` followed by `doNullMove` gives back `side`, `pbq`, `nbk` and `rqk`,
and the old `epc` with the bytes of rank index 2 and rank index 5 cleared; both clock
slots keep their value (the clock does not advance). When those two bytes were clear the
position is the original one. -/
theorem null_twice (q : QBB) (hwf : q.WF)
    (hsub : q.side &&& (q.pbq ||| q.nbk ||| q.rqk) = q.side) :
    q.doNullMove.doNullMove.side = q.side ∧
    q.doNullMove.doNullMove.pbq = q.pbq ∧
    q.doNullMove.doNullMove.nbk = q.nbk ∧
    q.doNullMove.doNullMove.rqk = q.rqk ∧
    q.doNullMove.doNullMove.epc = q.epc &&& not64 rank3 &&& not64 rank6 ∧
    clockLo q.doNullMove.doNullMove.epc = clockLo q.epc ∧
    clockHi q.doNullMove.doNullMove.epc = clockHi q.epc ∧
    (q.epc &&& not64 rank3 &&& not64 rank6 = q.epc → q.doNullMove.doNullMove = q) := by
  have hside := doNullMove_twice_side q hwf hsub
  obtain ⟨w1, w2, w3, w4, w5⟩ := hwf
  have hp : q.doNullMove.doNullMove.pbq = q.pbq := byteswap_byteswap q.pbq w2
  have hn : q.doNullMove.doNullMove.nbk = q.nbk := byteswap_byteswap q.nbk w3
  have hr : q.doNullMove.doNullMove.rqk = q.rqk := byteswap_byteswap q.rqk w4
  have he : q.doNullMove.doNullMove.epc = q.epc &&& not64 rank3 &&& not64 rank6 := by
    apply Nat.eq_of_testBit_eq
    intro j
    rw [doNullMove_twice_epc q ⟨w1, w2, w3, w4, w5⟩ j]
    simp only [Nat.testBit_and, testBit_not64, testBit_rank3, testBit_rank6]
    by_cases hj : j < 64
    · simp [hj]
    · rw [testBit_high q.epc j w5 hj]
      simp
  obtain ⟨a1, a2⟩ := doNullMove_clock q
  obtain ⟨b1, b2⟩ := doNullMove_clock q.doNullMove
  refine ⟨hside, hp, hn, hr, he, by rw [b1, a2], by rw [b2, a1], ?_⟩
  intro hz
  rw [hz] at he
  generalize q.doNullMove.doNullMove = q2 at *
  cases q2
  cases q
  simp only at hside hp hn hr he
  rw [hside, hp, hn, hr, he]

/-- C29 (amended), at the position after e2e4, whose en-passant byte is set: two null
moves keep the four piece words and the clock and clear the en-passant byte. -/
theorem null_twice_witness :
    (startPos.makeMove 1804).doNullMove.doNullMove.side = (startPos.makeMove 1804).side ∧
    clockLo (startPos.makeMove 1804).doNullMove.doNullMove.epc =
      clockLo (startPos.makeMove 1804).epc ∧
    byteAt (startPos.makeMove 1804).epc 5 = setbit 4 ∧
    byteAt (startPos.makeMove 1804).doNullMove.doNullMove.epc 5 = 0 :=
  ⟨(null_twice (startPos.makeMove 1804) (by decide) (by decide)).1,
    (null_twice (startPos.makeMove 1804) (by decide) (by decide)).2.2.2.2.2.1,
    by decide, by decide⟩

theorem doNullMove_type (q : QBB) (s : Nat) (hs : s < 64) :
    q.doNullMove.getPieceType (flip s) =
      if q.getPieceType s / 2 = 0 then 0
      else 2 * (q.getPieceType s / 2) + (1 - q.getPieceType s % 2) := by
  rw [getPieceType_bits _ _ (flip_lt s hs), getPieceType_bits q s hs]
  simp only [QBB.doNullMove, QBB.flipQBB, testBit_byteswap _ _ hs, Nat.testBit_and,
    Nat.testBit_or, testBit_not64, decide_eq_true hs, Bool.true_and]
  cases q.side.testBit s <;> cases q.pbq.testBit s <;> cases q.nbk.testBit s <;>
    cases q.rqk.testBit s <;> decide

theorem quiet_shaped (q : QBB) (m : Move) (htag : getMoveInfo moveTypeMask m = 0)
    (hown : q.isMyPiece (getMoveInfo fromMask m) = true)
    (hocc : q.getPieceCode (getMoveInfo fromMask m) ≠ 0)
    (hempty : q.getPieceType (getMoveInfo toMask m) = 0) : MovegenShaped q m := by
  refine ⟨by omega, ⟨hown, hocc⟩, ?_, by omega, by omega, by omega, by omega⟩
  rintro ⟨_, h⟩
  apply h
  rw [QBB.getPieceCode, hempty]
  rfl

theorem pair_arith (F T s tF old : Nat) (hodd : tF % 2 = 1) (hcode : tF / 2 ≠ 0)
    (hold : old ≠ 1) :
    (if movedType F T 0 s tF old / 2 = 0 then 0
      else 2 * (movedType F T 0 s tF old / 2) + (1 - movedType F T 0 s tF old % 2)) =
      if s = F then 0 else if s = T then tF else old := by
  unfold movedType
  by_cases a : s = F
  · rw [if_pos a, if_pos a]; rfl
  rw [if_neg a, if_neg a]
  by_cases b : s = T
  · rw [if_pos b, if_pos b]
    simp only [show ¬ (4 ≤ 0) by omega, if_false, show ¬ ((0 = 1 ∧ T = d1) ∨ (0 = 2 ∧ T = f1)) by omega,
      show ¬ (0 = 3 ∧ T = index 4 (file T)) by omega]
    clear a b
    split <;> omega
  rw [if_neg b, if_neg b]
  simp only [show ¬ ((0 = 1 ∧ s = a1) ∨ (0 = 2 ∧ s = h1)) by omega, if_false,
    show ¬ ((0 = 1 ∧ s = d1) ∨ (0 = 2 ∧ s = f1)) by omega,
    show ¬ (0 = 3 ∧ s = index 4 (file T)) by omega]
  clear a b
  split <;> split <;> omega

theorem pair_type (q : QBB) (m : Move) (htag : getMoveInfo moveTypeMask m = 0)
    (hown : q.isMyPiece (getMoveInfo fromMask m) = true)
    (hocc : q.getPieceCode (getMoveInfo fromMask m) ≠ 0)
    (hempty : q.getPieceType (getMoveInfo toMask m) = 0)
    (hsub : ∀ s, s < 64 → q.getPieceType s ≠ 1) (s : Nat) (hs : s < 64) :
    (q.makeMove m).doNullMove.getPieceType s =
      if s = getMoveInfo fromMask m then 0
      else if s = getMoveInfo toMask m then q.getPieceType (getMoveInfo fromMask m)
      else q.getPieceType s := by
  have hF := getMoveInfo_from_lt m
  have h1 := doNullMove_type (q.makeMove m) (flip s) (flip_lt s hs)
  rw [flip_flip s hs] at h1
  have h2 := shaped_type q m (quiet_shaped q m htag hown hocc hempty) s hs
  rw [h1, h2, htag]
  have hodd : q.getPieceType (getMoveInfo fromMask m) % 2 = 1 := by
    rw [isMyPiece_bits q _ hF] at hown
    rw [getPieceType_bits q _ hF, hown]
    simp only [Bool.toNat_true]
    omega
  have hcode : q.getPieceType (getMoveInfo fromMask m) / 2 ≠ 0 := by
    rw [QBB.getPieceCode, Nat.shiftRight_eq_div_pow] at hocc
    exact hocc
  exact pair_arith _ _ _ _ _ hodd hcode (hsub s hs)

theorem flip_ranges : ∀ k, k < 64 →
    ((40 ≤ flip k ∧ flip k < 48) ↔ (16 ≤ k ∧ k < 24)) ∧
    ((flip k = 31 ∨ flip k = 39) ↔ (k = 31 ∨ k = 39)) := by
  unfold flip; decide

/-- The `epc` bits outside the two clock slots after a quiet non-pawn move to an empty
square followed by a null move: both en-passant bytes are clear, the castling bits of
the from- and to-square are cleared, every other bit is the old one. -/
theorem pair_epc (q : QBB) (m : Move) (hlo : clockLo q.epc ≤ 126) (hhi : clockHi q.epc ≤ 126)
    (hocc : q.getPieceCode (getMoveInfo fromMask m) ≠ 0)
    (hnp : q.getPieceCode (getMoveInfo fromMask m) ≠ 1)
    (hto : q.getPieceCode (getMoveInfo toMask m) = 0) (j : Nat) (hj : j < 64)
    (hslot : ¬ ((24 ≤ j ∧ j < 31) ∨ (32 ≤ j ∧ j < 39))) :
    (q.makeMove m).doNullMove.epc.testBit j =
      (q.epc.testBit j && !decide (16 ≤ j ∧ j < 24) && !decide (40 ≤ j ∧ j < 48) &&
        !(decide (getMoveInfo fromMask m = j ∨ getMoveInfo toMask m = j) &&
          decide (j < 8 ∨ 56 ≤ j))) := by
  have hfj := flip_lt j hj
  have h1 := doNullMove_epc_bit (q.makeMove m) (flip j) hfj
  rw [flip_flip j hj] at h1
  have h2 : (q.makeMove m).epc.testBit (flip j) =
      (epcStep q.epc (getMoveInfo fromMask m) (getMoveInfo toMask m)
        (q.getPieceCode (getMoveInfo toMask m))
        (q.getPieceCode (getMoveInfo fromMask m))).testBit j := by
    rw [makeMove_epc, testBit_byteswap _ _ hj]
  have h7 := getPieceCode_le q _ (getMoveInfo_from_lt m)
  obtain ⟨r1, r2⟩ := flip_ranges j hj
  rw [h1, h2, testBit_epcStep, clockStep_eq _ _ _ hlo hhi hocc, hto]
  generalize getMoveInfo fromMask m = F at *
  generalize getMoveInfo toMask m = T at *
  generalize q.getPieceCode F = fromPc at *
  simp only [hnp, ne_eq, not_false_eq_true, and_self, if_true, Nat.testBit_xor,
    Nat.testBit_or, testBit_slots _ _ _ (show clockLo q.epc + 1 < 128 by omega)
      (show clockHi q.epc + 1 < 128 by omega), testBit_rest, testBit_sentinel]
  have s1 : ¬ (32 ≤ j ∧ j < 39) := fun h => hslot (Or.inr h)
  have s2 : ¬ (24 ≤ j ∧ j < 31) := fun h => hslot (Or.inl h)
  by_cases a : 16 ≤ j ∧ j < 24
  · rw [if_pos (r1.mpr a)]
    simp [a]
  · rw [if_neg (fun h => a (r1.mp h))]
    by_cases b : 40 ≤ j ∧ j < 48
    · have nb : ¬ (j = 31 ∨ j = 39) := by omega
      rw [if_neg (fun h => nb (r2.mp h))]
      simp [a, b, hj]
    · by_cases c : j = 31 ∨ j = 39
      · rw [if_pos (r2.mpr c)]
        have hb : ¬ (j < 8 ∨ 56 ≤ j) := by omega
        have hb2 : ¬ (j < 8 ∨ (56 ≤ j ∧ j < 64)) := by omega
        simp [a, b, c, hj, s1, s2, hb, hb2, hslot]
      · rw [if_neg (fun h => c (r2.mp h))]
        by_cases d : j < 8 ∨ 56 ≤ j
        · have d2 : j < 8 ∨ (56 ≤ j ∧ j < 64) := by omega
          by_cases e : F = j <;> by_cases f : T = j <;>
            simp [a, b, c, hj, s1, s2, d, d2, e, f, hslot]
        · have d2 : ¬ (j < 8 ∨ (56 ≤ j ∧ j < 64)) := by omega
          simp [a, b, c, hj, s1, s2, d, d2, hslot]

/-- The two clock slots after a quiet non-pawn move to an empty square followed by a
null move: each is one more than before. -/
theorem pair_clock (q : QBB) (m : Move) (hlo : clockLo q.epc ≤ 126)
    (hhi : clockHi q.epc ≤ 126)
    (hocc : q.getPieceCode (getMoveInfo fromMask m) ≠ 0)
    (hnp : q.getPieceCode (getMoveInfo fromMask m) ≠ 1)
    (hto : q.getPieceCode (getMoveInfo toMask m) = 0) :
    clockLo (q.makeMove m).doNullMove.epc = clockLo q.epc + 1 ∧
      clockHi (q.makeMove m).doNullMove.epc = clockHi q.epc + 1 := by
  obtain ⟨a1, a2⟩ := makeMove_clock q m hlo hhi hocc
  obtain ⟨b1, b2⟩ := doNullMove_clock (q.makeMove m)
  rw [if_pos ⟨hto, hnp⟩] at a1 a2
  exact ⟨by rw [b1, a2], by rw [b2, a1]⟩

theorem doNullMove_wf (q : QBB) : q.doNullMove.WF :=
  ⟨byteswap_lt _, byteswap_lt _, byteswap_lt _, byteswap_lt _, byteswap_lt _⟩

theorem type_ne_one (q : QBB) (hsub : q.side &&& (q.pbq ||| q.nbk ||| q.rqk) = q.side)
    (s : Nat) (hs : s < 64) : q.getPieceType s ≠ 1 := by
  have hb : q.side.testBit s = true →
      (q.pbq.testBit s || q.nbk.testBit s || q.rqk.testBit s) = true := by
    intro h
    have := subset_bit _ _ hsub s h
    simpa [Nat.testBit_or] using this
  rw [getPieceType_bits q s hs]
  revert hb
  cases q.side.testBit s <;> cases q.pbq.testBit s <;> cases q.nbk.testBit s <;>
    cases q.rqk.testBit s <;> simp

theorem words_of_types (r q : QBB) (hr : r.WF) (hq : q.WF)
    (h : ∀ s, s < 64 → r.getPieceType s = q.getPieceType s) :
    r.side = q.side ∧ r.pbq = q.pbq ∧ r.nbk = q.nbk ∧ r.rqk = q.rqk := by
  obtain ⟨r1, r2, r3, r4, _⟩ := hr
  obtain ⟨w1, w2, w3, w4, _⟩ := hq
  have hbit : ∀ s, s < 64 → r.side.testBit s = q.side.testBit s ∧
      r.pbq.testBit s = q.pbq.testBit s ∧ r.nbk.testBit s = q.nbk.testBit s ∧
      r.rqk.testBit s = q.rqk.testBit s := by
    intro s hs
    have e := h s hs
    rw [getPieceType_bits r s hs, getPieceType_bits q s hs] at e
    revert e
    cases r.side.testBit s <;> cases r.pbq.testBit s <;> cases r.nbk.testBit s <;>
      cases r.rqk.testBit s <;> cases q.side.testBit s <;> cases q.pbq.testBit s <;>
      cases q.nbk.testBit s <;> cases q.rqk.testBit s <;> simp
  refine ⟨?_, ?_, ?_, ?_⟩ <;> apply Nat.eq_of_testBit_eq <;> intro j <;>
    by_cases hj : j < 64
  · exact (hbit j hj).1
  · rw [testBit_high _ j r1 hj, testBit_high _ j w1 hj]
  · exact (hbit j hj).2.1
  · rw [testBit_high _ j r2 hj, testBit_high _ j w2 hj]
  · exact (hbit j hj).2.2.1
  · rw [testBit_high _ j r3 hj, testBit_high _ j w3 hj]
  · exact (hbit j hj).2.2.2
  · rw [testBit_high _ j r4 hj, testBit_high _ j w4 hj]

/-- The position after a quiet non-pawn move to an empty square and a null move meets
the conditions of the return move from the to-square to the from-square. -/
theorem pair_back (q : QBB) (m : Move)
    (hsub : q.side &&& (q.pbq ||| q.nbk ||| q.rqk) = q.side)
    (htag : getMoveInfo moveTypeMask m = 0)
    (hown : q.isMyPiece (getMoveInfo fromMask m) = true)
    (hocc : q.getPieceCode (getMoveInfo fromMask m) ≠ 0)
    (hempty : q.getPieceType (getMoveInfo toMask m) = 0) :
    (q.makeMove m).doNullMove.getPieceType (getMoveInfo toMask m) =
        q.getPieceType (getMoveInfo fromMask m) ∧
      (q.makeMove m).doNullMove.getPieceType (getMoveInfo fromMask m) = 0 ∧
      (∀ s, s < 64 → (q.makeMove m).doNullMove.getPieceType s ≠ 1) := by
  have hF := getMoveInfo_from_lt m
  have hT := getMoveInfo_to_lt m
  have t2 := pair_type q m htag hown hocc hempty (type_ne_one q hsub)
  have hne : getMoveInfo toMask m ≠ getMoveInfo fromMask m := by
    intro h
    rw [h] at hempty
    rw [QBB.getPieceCode, hempty] at hocc
    exact hocc rfl
  have hcode : q.getPieceType (getMoveInfo fromMask m) ≠ 1 := type_ne_one q hsub _ hF
  refine ⟨?_, ?_, ?_⟩
  · rw [t2 _ hT, if_neg hne, if_pos rfl]
  · rw [t2 _ hF, if_pos rfl]
  · intro s hs
    rw [t2 s hs]
    split
    · omega
    · split
      · exact hcode
      · exact type_ne_one q hsub s hs

/-- C30, as stated, fails. In `r3k2r/8/8/8/8/8/8/R3K2R w KQkq - 0 1` the rook move h1g1
(tag 0, own rook, empty to-square), a null move, the move back g1h1 and a null move give
back the four piece words, but the halfmove clock is advanced by 2, not by 4 (only
`makeMove` steps it), and the castling bit of h1 is cleared, so the position differs from
the start position in more than the clock and the en-passant target. -/
theorem move_return_counterexample :
    castlePos.WF ∧
    castlePos.side &&& (castlePos.pbq ||| castlePos.nbk ||| castlePos.rqk) = castlePos.side ∧
    getMoveInfo moveTypeMask (mkMove 7 6 0) = 0 ∧
    castlePos.isMyPiece 7 = true ∧ castlePos.getPieceCode 7 = 4 ∧
    castlePos.getPieceType 6 = 0 ∧
    clockLo castlePos.epc = 0 ∧
    clockLo (((castlePos.makeMove (mkMove 7 6 0)).doNullMove.makeMove
      (mkMove 6 7 0)).doNullMove).epc = 2 ∧
    clockLo (((castlePos.makeMove (mkMove 7 6 0)).doNullMove.makeMove
      (mkMove 6 7 0)).doNullMove).epc ≠ clockLo castlePos.epc + 4 ∧
    castlePos.epc.testBit 7 = true ∧
    (((castlePos.makeMove (mkMove 7 6 0)).doNullMove.makeMove
      (mkMove 6 7 0)).doNullMove).epc.testBit 7 = false := by
  decide

/-- C30 (amended): for every position of 64-bit words with `side` within the occupied
squares and both clock slots at most 125, and every move `m` with tag 0 whose from-square
holds an own non-pawn piece and whose to-square is empty, the sequence `makeMove m`,
`doNullMove`, `makeMove` of the move from `m`'s to-square back to its from-square,
`doNullMove` gives back `side`, `pbq`, `nbk` and `rqk`; both clock slots are advanced by
2; outside the clock slots the `epc` word is the old one with both en-passant bytes
cleared and the castling bits of the from- and the to-square cleared. -/
theorem move_return_cycle (q : QBB) (m : Move) (hwf : q.WF)
    (hsub : q.side &&& (q.pbq ||| q.nbk ||| q.rqk) = q.side)
    (htag : getMoveInfo moveTypeMask m = 0)
    (hown : q.isMyPiece (getMoveInfo fromMask m) = true)
    (hocc : q.getPieceCode (getMoveInfo fromMask m) ≠ 0)
    (hnp : q.getPieceCode (getMoveInfo fromMask m) ≠ 1)
    (hempty : q.getPieceType (getMoveInfo toMask m) = 0)
    (hlo : clockLo q.epc ≤ 125) (hhi : clockHi q.epc ≤ 125) :
    (((q.makeMove m).doNullMove.makeMove
        (mkMove (getMoveInfo toMask m) (getMoveInfo fromMask m) 0)).doNullMove).side = q.side ∧
    (((q.makeMove m).doNullMove.makeMove
        (mkMove (getMoveInfo toMask m) (getMoveInfo fromMask m) 0)).doNullMove).pbq = q.pbq ∧
    (((q.makeMove m).doNullMove.makeMove
        (mkMove (getMoveInfo toMask m) (getMoveInfo fromMask m) 0)).doNullMove).nbk = q.nbk ∧
    (((q.makeMove m).doNullMove.makeMove
        (mkMove (getMoveInfo toMask m) (getMoveInfo fromMask m) 0)).doNullMove).rqk = q.rqk ∧
    clockLo (((q.makeMove m).doNullMove.makeMove
        (mkMove (getMoveInfo toMask m) (getMoveInfo fromMask m) 0)).doNullMove).epc =
      clockLo q.epc + 2 ∧
    clockHi (((q.makeMove m).doNullMove.makeMove
        (mkMove (getMoveInfo toMask m) (getMoveInfo fromMask m) 0)).doNullMove).epc =
      clockHi q.epc + 2 ∧
    ∀ j, ¬ ((24 ≤ j ∧ j < 31) ∨ (32 ≤ j ∧ j < 39)) →
      (((q.makeMove m).doNullMove.makeMove
        (mkMove (getMoveInfo toMask m) (getMoveInfo fromMask m) 0)).doNullMove).epc.testBit j =
      (q.epc.testBit j && !decide (16 ≤ j ∧ j < 24) && !decide (40 ≤ j ∧ j < 48) &&
        !(decide (getMoveInfo fromMask m = j ∨ getMoveInfo toMask m = j) &&
          decide (j < 8 ∨ 56 ≤ j))) := by
  have hF := getMoveInfo_from_lt m
  have hT := getMoveInfo_to_lt m
  obtain ⟨e1, e2, e3⟩ := getMoveInfo_mkMove (getMoveInfo toMask m) (getMoveInfo fromMask m) 0
    hT hF (by norm_num)
  obtain ⟨b1, b2, b3⟩ := pair_back q m hsub htag hown hocc hempty
  have hcodeT : q.getPieceCode (getMoveInfo toMask m) = 0 := by
    rw [QBB.getPieceCode, hempty]; rfl
  obtain ⟨c1, c2⟩ := pair_clock q m (by omega) (by omega) hocc hnp hcodeT
  have t1 := pair_type q m htag hown hocc hempty (type_ne_one q hsub)
  have p1 := pair_epc q m (by omega) (by omega) hocc hnp hcodeT
  generalize hq2 : (q.makeMove m).doNullMove = q2 at *
  generalize hm2 : mkMove (getMoveInfo toMask m) (getMoveInfo fromMask m) 0 = m2 at *
  have hown2 : q2.isMyPiece (getMoveInfo fromMask m2) = true := by
    rw [e1, QBB.isMyPiece, b1]
    exact hown
  have hocc2 : q2.getPieceCode (getMoveInfo fromMask m2) ≠ 0 := by
    rw [e1, QBB.getPieceCode, b1]
    exact hocc
  have hnp2 : q2.getPieceCode (getMoveInfo fromMask m2) ≠ 1 := by
    rw [e1, QBB.getPieceCode, b1]
    exact hnp
  have hempty2 : q2.getPieceType (getMoveInfo toMask m2) = 0 := by
    rw [e2]; exact b2
  have hcode2 : q2.getPieceCode (getMoveInfo toMask m2) = 0 := by
    rw [QBB.getPieceCode, hempty2]; rfl
  have t2 := pair_type q2 m2 e3 hown2 hocc2 hempty2 b3
  obtain ⟨d1, d2⟩ := pair_clock q2 m2 (by omega) (by omega) hocc2 hnp2 hcode2
  have p2 := pair_epc q2 m2 (by omega) (by omega) hocc2 hnp2 hcode2
  have htypes : ∀ s, s < 64 →
      (q2.makeMove m2).doNullMove.getPieceType s = q.getPieceType s := by
    intro s hs
    rw [t2 s hs, e1, e2]
    by_cases a : s = getMoveInfo toMask m
    · rw [if_pos a, a, hempty]
    · rw [if_neg a]
      by_cases b : s = getMoveInfo fromMask m
      · rw [if_pos b, b1, b]
      · rw [if_neg b, t1 s hs, if_neg b, if_neg a]
  obtain ⟨w1, w2, w3, w4⟩ := words_of_types _ q (doNullMove_wf _) hwf htypes
  refine ⟨w1, w2, w3, w4, by omega, by omega, ?_⟩
  intro j hslot
  by_cases hj : j < 64
  · rw [p2 j hj hslot, p1 j hj hslot, e1, e2]
    generalize q.epc.testBit j = x0
    generalize decide (16 ≤ j ∧ j < 24) = x1
    generalize decide (40 ≤ j ∧ j < 48) = x2
    generalize decide (j < 8 ∨ 56 ≤ j) = x3
    have hsw : decide (getMoveInfo toMask m = j ∨ getMoveInfo fromMask m = j) =
        decide (getMoveInfo fromMask m = j ∨ getMoveInfo toMask m = j) :=
      decide_eq_decide.mpr Or.comm
    rw [hsw]
    generalize decide (getMoveInfo fromMask m = j ∨ getMoveInfo toMask m = j) = x4
    cases x0 <;> cases x1 <;> cases x2 <;> cases x3 <;> cases x4 <;> rfl
  · have hh : (q2.makeMove m2).doNullMove.epc.testBit j = false :=
      testBit_high _ j (byteswap_lt _) hj
    rw [hh, testBit_high q.epc j hwf.2.2.2.2 hj]
    simp

/-- C30 (amended), at `r3k2r/8/8/8/8/8/8/R3K2R w KQkq - 0 1` and the rook move h1g1: the
four piece words come back, the clock goes from 0 to 2 and the castling bit of h1 is
cleared. -/
theorem move_return_cycle_witness :
    (((castlePos.makeMove (mkMove 7 6 0)).doNullMove.makeMove
        (mkMove (getMoveInfo toMask (mkMove 7 6 0))
          (getMoveInfo fromMask (mkMove 7 6 0)) 0)).doNullMove).side = castlePos.side ∧
    clockLo (((castlePos.makeMove (mkMove 7 6 0)).doNullMove.makeMove
        (mkMove (getMoveInfo toMask (mkMove 7 6 0))
          (getMoveInfo fromMask (mkMove 7 6 0)) 0)).doNullMove).epc =
      clockLo castlePos.epc + 2 ∧
    (((castlePos.makeMove (mkMove 7 6 0)).doNullMove.makeMove
        (mkMove (getMoveInfo toMask (mkMove 7 6 0))
          (getMoveInfo fromMask (mkMove 7 6 0)) 0)).doNullMove).epc.testBit 7 = false :=
  ⟨(move_return_cycle castlePos (mkMove 7 6 0) (by decide) (by decide) (by decide)
      (by decide) (by decide) (by decide) (by decide) (by decide) (by decide)).1,
    (move_return_cycle castlePos (mkMove 7 6 0) (by decide) (by decide) (by decide)
      (by decide) (by decide) (by decide) (by decide) (by decide) (by decide)).2.2.2.2.1,
    ((move_return_cycle castlePos (mkMove 7 6 0) (by decide) (by decide) (by decide)
      (by decide) (by decide) (by decide) (by decide) (by decide)
      (by decide)).2.2.2.2.2.2 7 (by decide)).trans (by decide)⟩

theorem pext_corners (c : Nat) :
    pext_u64 c 0x9100000000000091 =
      (c.testBit 0).toNat + 2 * (c.testBit 4).toNat + 4 * (c.testBit 7).toNat +
        8 * (c.testBit 56).toNat + 16 * (c.testBit 60).toNat + 32 * (c.testBit 63).toNat := by
  simp only [Nat.toNat_testBit]
  simp [pext_u64, pextAux, Nat.div_div_eq_div_mul]
  omega

/-- The three steps of `getCastlingDiff` on one word of castling bits: the six corner and
king bits are extracted, each corner is kept only with the king bit of its rank, and the
four corners are compressed. -/
theorem rights_chain (c : Nat) :
    pext_u64
        ((pext_u64 c 0x9100000000000091 &&& ((pext_u64 c 0x9100000000000091 &&& 18) >>> 1)) |||
          (pext_u64 c 0x9100000000000091 &&&
            (((pext_u64 c 0x9100000000000091 &&& 18) <<< 1) % 2 ^ 64))) 45 =
      castlingRights c := by
  rw [pext_corners]
  unfold castlingRights a1 e1 h1 a8 e8 h8
  cases c.testBit 0 <;> cases c.testBit 4 <;> cases c.testBit 7 <;> cases c.testBit 56 <;>
    cases c.testBit 60 <;> cases c.testBit 63 <;> decide

theorem castlingRights_lt (c : Nat) : castlingRights c < 16 := by
  unfold castlingRights
  cases (c.testBit a1 && c.testBit e1) <;> cases (c.testBit h1 && c.testBit e1) <;>
    cases (c.testBit a8 && c.testBit e8) <;> cases (c.testBit h8 && c.testBit e8) <;> decide

theorem getCastlingDiff_eq (b1 b2 : QBB) :
    getCastlingDiff b1 b2 =
      castlingRights b1.getCastling ^^^ castlingRights (byteswap_uint64 b2.getCastling) := by
  unfold getCastlingDiff
  simp only [rights_chain]

/-- A castling bit of a back-rank square that is neither the from- nor the to-square of
the move, read in the frame before the move. -/
theorem castling_bit_kept (q : QBB) (m : Move) (hlo : clockLo q.epc ≤ 126)
    (hhi : clockHi q.epc ≤ 126) (hfrom : q.getPieceCode (getMoveInfo fromMask m) ≠ 0)
    (s : Nat) (hb : s < 8 ∨ (56 ≤ s ∧ s < 64))
    (hF : getMoveInfo fromMask m ≠ s) (hT : getMoveInfo toMask m ≠ s) :
    (byteswap_uint64 (q.makeMove m).getCastling).testBit s = q.getCastling.testBit s := by
  have hs : s < 64 := by omega
  have hfb := (flip_backRank s hs).mpr hb
  rw [testBit_byteswap_at _ s hs, QBB.getCastling, QBB.getCastling, testBit_castlingBits,
    testBit_castlingBits, makeMove_castling_bit q m hlo hhi hfrom s hs hb,
    decide_eq_true hfb, decide_eq_true hb,
    decide_eq_false (fun h => hF h.symm), decide_eq_false (fun h => hT h.symm)]
  simp

/-- C31, as stated, fails in its last part. The constructor on
`rnbqkbnr/pppppppp/8/8/8/8/PPPPPPPP/RNBQKBNR b K - 16776960 1` gives a position whose
second clock slot holds 127 under all-ones bytes 5 and 6; the knight move g8f6 (in the
stored frame from 6 to 21, tag 0) touches none of the six squares, yet the clock addition
of `makeMove` carries into byte 7 and the diff is 4. In the start position the move from
the empty square e3 to e4 touches none of the six squares either and the diff is 4. -/
theorem castling_diff_counterexample :
    (QBB.ofFen "rnbqkbnr/pppppppp/8/8/8/8/PPPPPPPP/RNBQKBNR b K - 16776960 1" true).map
        (fun q => (clockLo q.epc, clockHi q.epc, q.getPieceCode 6,
          castlingRights q.getCastling,
          castlingRights (byteswap_uint64 (q.makeMove (mkMove 6 21 0)).getCastling),
          getCastlingDiff q (q.makeMove (mkMove 6 21 0)))) =
      some (0, 127, 2, 8, 12, 4) ∧
    getMoveInfo fromMask (mkMove 6 21 0) ∉ [a1, e1, h1, a8, e8, h8] ∧
    getMoveInfo toMask (mkMove 6 21 0) ∉ [a1, e1, h1, a8, e8, h8] ∧
    startPos.getPieceCode (getMoveInfo fromMask (mkMove 20 28 0)) = 0 ∧
    getMoveInfo fromMask (mkMove 20 28 0) ∉ [a1, e1, h1, a8, e8, h8] ∧
    getMoveInfo toMask (mkMove 20 28 0) ∉ [a1, e1, h1, a8, e8, h8] ∧
    getCastlingDiff startPos (startPos.makeMove (mkMove 20 28 0)) = 4 := by
  decide

/-- C31 (amended): for all positions `b1` and `b2`, `getCastlingDiff b1 b2` is the XOR of
the castling rights of `b1`'s castling bits and of the byte swap of `b2`'s castling bits
(bit 0 = a1 and e1, bit 1 = h1 and e1, bit 2 = a8 and e8, bit 3 = h8 and e8), hence less
than 16; and it is 0 for a position `q` whose two clock slots hold values of at most 126
and the position after `makeMove` of a move with an occupied from-square whose from- and
to-square are none of a1, e1, h1, a8, e8, h8. -/
theorem castling_diff (b1 b2 q : QBB) (m : Move) (hlo : clockLo q.epc ≤ 126)
    (hhi : clockHi q.epc ≤ 126) (hfrom : q.getPieceCode (getMoveInfo fromMask m) ≠ 0)
    (hF : getMoveInfo fromMask m ∉ [a1, e1, h1, a8, e8, h8])
    (hT : getMoveInfo toMask m ∉ [a1, e1, h1, a8, e8, h8]) :
    getCastlingDiff b1 b2 =
        castlingRights b1.getCastling ^^^ castlingRights (byteswap_uint64 b2.getCastling) ∧
      getCastlingDiff b1 b2 < 16 ∧
      getCastlingDiff q (q.makeMove m) = 0 := by
  refine ⟨getCastlingDiff_eq b1 b2, ?_, ?_⟩
  · rw [getCastlingDiff_eq]
    have h : ∀ x y : Nat, x < 2 ^ 4 → y < 2 ^ 4 → x ^^^ y < 2 ^ 4 :=
      fun x y hx hy => Nat.xor_lt_two_pow hx hy
    exact h _ _ (castlingRights_lt _) (castlingRights_lt _)
  · simp only [List.mem_cons, List.mem_singleton, List.not_mem_nil, or_false, not_or] at hF hT
    obtain ⟨p1, p2, p3, p4, p5, p6⟩ := hF
    obtain ⟨r1, r2, r3, r4, r5, r6⟩ := hT
    have k := castling_bit_kept q m hlo hhi hfrom
    have e : castlingRights (byteswap_uint64 (q.makeMove m).getCastling) =
        castlingRights q.getCastling := by
      unfold castlingRights
      rw [k a1 (by decide) p1 r1, k e1 (by decide) p2 r2, k h1 (by decide) p3 r3,
        k a8 (by decide) p4 r4, k e8 (by decide) p5 r5, k h8 (by decide) p6 r6]
    rw [getCastlingDiff_eq, e, Nat.xor_self]

/-- C31 (amended), at `r3k2r/8/8/8/8/8/8/R3K2R w KQkq - 0 1` and the position after the
rook move h1g1 (where the diff is 2, the right on h1) and, for the last part, at the start
position and the knight move g1f3. -/
theorem castling_diff_witness :
    getCastlingDiff castlePos (castlePos.makeMove (mkMove 7 6 0)) = 2 ∧
    castlingRights castlePos.getCastling = 15 ∧
    castlingRights (byteswap_uint64 (castlePos.makeMove (mkMove 7 6 0)).getCastling) = 13 ∧
    getCastlingDiff startPos (startPos.makeMove (mkMove 6 21 0)) = 0 :=
  ⟨by decide, by decide, by decide,
    (castling_diff castlePos (castlePos.makeMove (mkMove 7 6 0)) startPos (mkMove 6 21 0)
      (by decide) (by decide) (by decide) (by decide) (by decide)).2.2⟩

theorem ofFen_code_le (fen : String) (b : Bool) (q : QBB)
    (placement active castling enp : List Char) (rest : List (List Char))
    (hs : splitString fen.toList ' ' = placement :: active :: castling :: enp :: rest)
    (hl : (splitString placement '/').length = 8)
    (hwf : ∀ r ∈ splitString placement '/', (expandRank r).length = 8)
    (h : QBB.ofFen fen b = some q) (s : Nat) (hs64 : s < 64) : q.getPieceCode s ≤ 6 := by
  have hcode : ∀ t w cell, q.getPieceType t = cellType w cell → q.getPieceCode t ≤ 6 := by
    intro t w cell ht
    rw [QBB.getPieceCode, ht, Nat.shiftRight_eq_div_pow]
    exact cellType_code_le _ cell
  by_cases hw : active = ['w']
  · have hsq := ofFen_square fen b q placement active castling enp rest hs hl hwf h
      (7 - s / 8) (s % 8) (by omega) (by omega)
    simp only [index, hw, if_true] at hsq
    have e : (7 - (7 - s / 8)) * 8 + s % 8 = s := by omega
    rw [e] at hsq
    exact hcode s _ _ hsq
  · have hsq := ofFen_square fen b q placement active castling enp rest hs hl hwf h
      (s / 8) (s % 8) (by omega) (by omega)
    simp only [index, hw, if_false] at hsq
    have e : s / 8 * 8 + s % 8 = s := by omega
    rw [e] at hsq
    exact hcode s _ _ hsq

theorem makeMove_wf (q : QBB) (m : Move) : (q.makeMove m).WF :=
  ⟨byteswap_lt _, byteswap_lt _, byteswap_lt _, byteswap_lt _, byteswap_lt _⟩

theorem and3_zero (q : QBB) (hwf : q.WF) (h : ∀ s, s < 64 → q.getPieceCode s ≠ 7) :
    q.pbq &&& q.nbk &&& q.rqk = 0 := by
  apply Nat.eq_of_testBit_eq
  intro j
  rw [Nat.zero_testBit, Nat.testBit_and, Nat.testBit_and]
  by_cases hj : j < 64
  · have hb := (code_bits_ne q j hj).mp (h j hj)
    revert hb
    cases q.pbq.testBit j <;> cases q.nbk.testBit j <;> cases q.rqk.testBit j <;> simp
  · rw [testBit_high _ j hwf.2.1 hj]
    rfl

/-- C32: the FEN constructor on a placement of eight rank fields of eight files each
produces no square with `pbq`, `nbk` and `rqk` all set, and for every position with no
such square and every move of the move generator's shape the position after `makeMove`
has `pbq &&& nbk &&& rqk = 0`. -/
theorem code_111_unused (fen : String) (b : Bool) (q : QBB)
    (placement active castling enp : List Char) (rest : List (List Char))
    (hs : splitString fen.toList ' ' = placement :: active :: castling :: enp :: rest)
    (hl : (splitString placement '/').length = 8)
    (hwf : ∀ r ∈ splitString placement '/', (expandRank r).length = 8)
    (h : QBB.ofFen fen b = some q) (p : QBB) (m : Move)
    (hp : ∀ s, s < 64 →
      ¬ (p.pbq.testBit s = true ∧ p.nbk.testBit s = true ∧ p.rqk.testBit s = true))
    (hm : MovegenShaped p m) :
    (∀ s, s < 64 →
      ¬ (q.pbq.testBit s = true ∧ q.nbk.testBit s = true ∧ q.rqk.testBit s = true)) ∧
    (p.makeMove m).pbq &&& (p.makeMove m).nbk &&& (p.makeMove m).rqk = 0 := by
  constructor
  · intro s hs64
    apply (code_bits_ne q s hs64).mp
    have := ofFen_code_le fen b q placement active castling enp rest hs hl hwf h s hs64
    omega
  · apply and3_zero _ (makeMove_wf p m)
    exact shaped_unused p m (fun s hs64 => (code_bits_ne p s hs64).mpr (hp s hs64)) hm

/-- C32, at the standard start FEN (the queen's square d1 does not have all three bits)
and at the start position with the move e2e4. -/
theorem code_111_unused_witness :
    ¬ (startPos.pbq.testBit d1 = true ∧ startPos.nbk.testBit d1 = true ∧
      startPos.rqk.testBit d1 = true) ∧
    (startPos.makeMove 1804).pbq &&& (startPos.makeMove 1804).nbk &&&
      (startPos.makeMove 1804).rqk = 0 :=
  ⟨(code_111_unused "rnbqkbnr/pppppppp/8/8/8/8/PPPPPPPP/RNBQKBNR w KQkq - 0 1" true
      startPos "rnbqkbnr/pppppppp/8/8/8/8/PPPPPPPP/RNBQKBNR".toList ['w'] "KQkq".toList ['-']
      [['0'], ['1']] (by decide) (by decide) (by decide) (by decide) startPos 1804
      (by decide) (by decide)).1 d1 (by decide),
    (code_111_unused "rnbqkbnr/pppppppp/8/8/8/8/PPPPPPPP/RNBQKBNR w KQkq - 0 1" true
      startPos "rnbqkbnr/pppppppp/8/8/8/8/PPPPPPPP/RNBQKBNR".toList ['w'] "KQkq".toList ['-']
      [['0'], ['1']] (by decide) (by decide) (by decide) (by decide) startPos 1804
      (by decide) (by decide)).2⟩

/-- C33, evaluated on the code: in `1n2k3/8/8/8/8/8/8/4K3 w - - 0 1` the opponent has one
knight (on b8) and neither queen, rook nor bishop, so the counted material is 300, which
is below 1900; `isEndgame` multiplies 300 by the word of the knight's square, `2 ^ 57`,
and answers `false`. With the same knight on a1 (`4k3/8/8/8/8/8/8/n3K3 w - - 0 1`) the
word is 1 and the answer is `true`: the answer depends on the square. -/
theorem isEndgame_lone_knight :
    QBB.ofFen "1n2k3/8/8/8/8/8/8/4K3 w - - 0 1" true = some loneKnightPos ∧
    loneKnightPos.getQueens &&& not64 loneKnightPos.side = 0 ∧
    loneKnightPos.getRooks &&& not64 loneKnightPos.side = 0 ∧
    loneKnightPos.getBishops &&& not64 loneKnightPos.side = 0 ∧
    loneKnightPos.getKnights &&& not64 loneKnightPos.side = 2 ^ 57 ∧
    opponentMaterial loneKnightPos = 300 ∧
    Evaluator.isEndgame loneKnightPos = false ∧
    (QBB.ofFen "4k3/8/8/8/8/8/8/n3K3 w - - 0 1" true).map opponentMaterial = some 300 ∧
    (QBB.ofFen "4k3/8/8/8/8/8/8/n3K3 w - - 0 1" true).map Evaluator.isEndgame =
      some true := by
  decide

theorem value_at (q : QBB) (s : Nat) (h0 : q.getPieceCode s ≠ 0) (h6 : q.getPieceCode s ≤ 6) :
    ∃ k, k ≠ PieceKind.other ∧ q.getPieceCode s = pieceCode k ∧ valueIndex q s ≤ 5 ∧
      captureValues[valueIndex q s]? = some (pieceValue k) := by
  have hv : valueIndex q s = q.getPieceCode s - 1 := by
    unfold valueIndex
    rw [← QBB.getPieceCode]
    omega
  rw [hv]
  generalize q.getPieceCode s = c at *
  have hc : c = 1 ∨ c = 2 ∨ c = 3 ∨ c = 4 ∨ c = 5 ∨ c = 6 := by omega
  rcases hc with h | h | h | h | h | h <;> subst h
  · exact ⟨PieceKind.pawns, by decide, rfl, by decide, rfl⟩
  · exact ⟨PieceKind.knights, by decide, rfl, by decide, rfl⟩
  · exact ⟨PieceKind.bishops, by decide, rfl, by decide, rfl⟩
  · exact ⟨PieceKind.rooks, by decide, rfl, by decide, rfl⟩
  · exact ⟨PieceKind.queens, by decide, rfl, by decide, rfl⟩
  · exact ⟨PieceKind.king, by decide, rfl, by decide, rfl⟩

theorem code_le_six (q : QBB) (s : Nat) (hs : s < 64)
    (h : ¬ (q.pbq.testBit s = true ∧ q.nbk.testBit s = true ∧ q.rqk.testBit s = true)) :
    q.getPieceCode s ≤ 6 := by
  have a := (code_bits_ne q s hs).mpr h
  have b := getPieceCode_le q s hs
  omega

/-- C34: for every position in which no square has `pbq`, `nbk` and `rqk` all set and
every move whose from- and to-square are both occupied, the indices `mvvlva` and
`getCaptureValue` use lie in 0..5 and read the value of the piece kind on the square
(100, 300, 300, 500, 900, 10000 for pawn, knight, bishop, rook, queen, king), so `mvvlva`
returns the value of the victim minus the value of the attacker; and for an
en-passant-tagged move, in any position, `mvvlva` returns 0 and `getCaptureValue`
returns 100 with no read of the table. -/
theorem capture_values_in_table (q : QBB) (m : Move)
    (hq : ∀ s, s < 64 →
      ¬ (q.pbq.testBit s = true ∧ q.nbk.testBit s = true ∧ q.rqk.testBit s = true))
    (hF : q.getPieceCode (getMoveFromSq m) ≠ 0) (hT : q.getPieceCode (getMoveToSq m) ≠ 0) :
    valueIndex q (getMoveFromSq m) ≤ 5 ∧ valueIndex q (getMoveToSq m) ≤ 5 ∧
    (∃ attacker victim, attacker ≠ PieceKind.other ∧ victim ≠ PieceKind.other ∧
      q.getPieceCode (getMoveFromSq m) = pieceCode attacker ∧
      q.getPieceCode (getMoveToSq m) = pieceCode victim ∧
      captureValues[valueIndex q (getMoveFromSq m)]? = some (pieceValue attacker) ∧
      captureValues[valueIndex q (getMoveToSq m)]? = some (pieceValue victim) ∧
      (getMoveInfo moveTypeMask m ≠ enPCap →
        mvvlva q m = some (pieceValue victim - pieceValue attacker) ∧
        getCaptureValue q m = some (pieceValue victim))) ∧
    (∀ (p : QBB) (n : Move), getMoveInfo moveTypeMask n = enPCap →
      mvvlva p n = some 0 ∧ getCaptureValue p n = some 100) := by
  have hF6 := code_le_six q _ (getMoveInfo_from_lt m) (hq _ (getMoveInfo_from_lt m))
  have hT6 := code_le_six q _ (getMoveInfo_to_lt m) (hq _ (getMoveInfo_to_lt m))
  obtain ⟨ka, x1, x2, x3, x4⟩ := value_at q (getMoveFromSq m) hF hF6
  obtain ⟨kv, y1, y2, y3, y4⟩ := value_at q (getMoveToSq m) hT hT6
  refine ⟨x3, y3, ⟨ka, kv, x1, y1, x2, y2, x4, y4, ?_⟩, ?_⟩
  · intro htag
    constructor
    · simp only [mvvlva, if_neg htag, y4, x4]
    · simp only [getCaptureValue, if_neg htag, y4]
  · intro p n htag
    constructor
    · simp only [mvvlva, if_pos htag]
    · simp only [getCaptureValue, if_pos htag]

/-- C34, at `r3k2r/8/8/8/8/8/8/R3K2R w KQkq - 0 1` and the move of the rook a1 to a8,
where the other rook stands: both indices are 3 and `mvvlva` returns 500 - 500. -/
theorem capture_values_in_table_witness :
    valueIndex castlePos (getMoveFromSq (mkMove 0 56 0)) ≤ 5 ∧
    valueIndex castlePos (getMoveToSq (mkMove 0 56 0)) ≤ 5 ∧
    mvvlva castlePos (mkMove 0 56 0) = some 0 ∧
    getCaptureValue castlePos (mkMove 0 56 0) = some 500 ∧
    mvvlva enPassantPos (mkMove 33 40 3) = some 0 ∧
    getCaptureValue enPassantPos (mkMove 33 40 3) = some 100 :=
  ⟨(capture_values_in_table castlePos (mkMove 0 56 0) (by decide) (by decide)
      (by decide)).1,
    (capture_values_in_table castlePos (mkMove 0 56 0) (by decide) (by decide)
      (by decide)).2.1,
    by decide, by decide,
    ((capture_values_in_table castlePos (mkMove 0 56 0) (by decide) (by decide)
      (by decide)).2.2.2 enPassantPos (mkMove 33 40 3) (by decide)).1,
    ((capture_values_in_table castlePos (mkMove 0 56 0) (by decide) (by decide)
      (by decide)).2.2.2 enPassantPos (mkMove 33 40 3) (by decide)).2⟩

end Captain
